import Mathlib

/-!
# CS144 byte stream and reassembler: a shallow embedding

The bounded byte channel (`byte_stream.cc`) and the out-of-order reassembly
buffer (`reassembler.cc`, `reassembler.hh`) as Lean functions, followed by the
properties settled against them.

Conventions of the embedding.

* A `std::string` is a `List Char`.  `s.substr(pos)` throws `std::out_of_range`
  when `pos > s.size()`; it is `substrFrom`, which then yields `none`.
  `s.substr(0, n)` never throws and is `List.take`.
* `Reassembler::Buf_Record` keeps `index_` and `len_` in a C++ `int` and
  `Reassembler` keeps `buf_beginning_` in an `int`, while `insert` receives a
  `uint64_t first_index` and the channel reports `uint64_t` sizes.  Every
  conversion into `int` is `wrapInt` (two's complement, 32 bits), every value
  of an unsigned 64-bit expression is `wrapU64`.  Signed `int` arithmetic is
  taken to wrap as well.
* The byte counters `pushed_len`, `poped_len` and the lengths of strings are
  natural numbers: they count bytes that have really been stored, and a sum
  of them cannot reach `2^64`.
* `assert` is compiled in: a failed assertion aborts the call, which then has
  no result (`none`), like a thrown `std::out_of_range`.
* `std::set<Buf_Record>` is the list of its elements in iteration order, the
  order of `operator<` (increasing `index_`).
-/

namespace CS144

/-! ## Machine integers -/

/-- The value an `int` (32 bits, two's complement) holds after it is handed
the integer `n`. -/
def wrapInt (n : Int) : Int := (n + 2147483648) % 4294967296 - 2147483648

/-- The value a `uint64_t` (or `size_t`) holds after it is handed the integer `n`. -/
def wrapU64 (n : Int) : Nat := (n % 18446744073709551616).toNat

/-- The call `s.substr(pos)`: the suffix from `pos`, or no result when
`pos > s.size()` (`std::out_of_range`). -/
def substrFrom (s : List Char) (pos : Nat) : Option (List Char) :=
  if pos ≤ s.length then some (s.drop pos) else none

/-! ## The byte channel (`byte_stream.cc`) -/

/-- The state shared by `Writer` and `Reader` (the members `byte_stream.cc` uses). -/
structure ByteStream where
  capacity_ : Nat
  buf : List Char
  pushed_len : Nat
  poped_len : Nat
  ended_ : Bool
  err_ : Bool
deriving DecidableEq

namespace ByteStream

/-- Modelled from the spec: the member declarations with their initial values
are in `byte_stream.hh`, which is not among the sources.  The constructor
`ByteStream::ByteStream( uint64_t capacity ) : capacity_( capacity ) {}` sets the
capacity; the channel starts empty, with both counters at zero and neither
flag set. -/
def ctor (capacity : Nat) : ByteStream :=
  { capacity_ := capacity, buf := [], pushed_len := 0, poped_len := 0,
    ended_ := false, err_ := false }

/-- The method `Writer::available_capacity`: `capacity_ - buf.length()`, an
unsigned 64-bit difference. -/
def available_capacity (s : ByteStream) : Nat :=
  wrapU64 ((s.capacity_ : Int) - (s.buf.length : Int))

/-- The method `Writer::push`. -/
def push (s : ByteStream) (data : List Char) : ByteStream :=
  if s.buf.length + data.length ≤ s.capacity_ then
    { s with pushed_len := s.pushed_len + data.length, buf := s.buf ++ data }
  else
    { s with
      pushed_len := s.pushed_len + wrapU64 ((s.capacity_ : Int) - (s.buf.length : Int)),
      buf := s.buf ++ data.take (wrapU64 ((s.capacity_ : Int) - (s.buf.length : Int))) }

/-- The method `Writer::close`. -/
def close (s : ByteStream) : ByteStream := { s with ended_ := true }

/-- The method `Writer::set_error`. -/
def set_error (s : ByteStream) : ByteStream := { s with err_ := true }

/-- The method `Writer::is_closed`. -/
def is_closed (s : ByteStream) : Bool := s.ended_

/-- The method `Writer::bytes_pushed`. -/
def bytes_pushed (s : ByteStream) : Nat := s.pushed_len

/-- The method `Reader::peek`. -/
def peek (s : ByteStream) : List Char := s.buf

/-- The method `Reader::is_finished`. -/
def is_finished (s : ByteStream) : Bool := s.ended_ && s.buf.isEmpty

/-- The method `Reader::has_error`. -/
def has_error (s : ByteStream) : Bool := s.err_

/-- The method `Reader::pop`. -/
def pop (s : ByteStream) (len : Nat) : ByteStream :=
  if len < s.buf.length then
    { s with buf := s.buf.drop len, poped_len := s.poped_len + len }
  else
    { s with poped_len := s.poped_len + s.buf.length, buf := [] }

/-- The method `Reader::bytes_buffered`. -/
def bytes_buffered (s : ByteStream) : Nat := s.buf.length

/-- The method `Reader::bytes_popped`. -/
def bytes_popped (s : ByteStream) : Nat := s.poped_len

end ByteStream

/-- One call on the byte channel, by its producer or its consumer. -/
inductive ChannelCall where
  | push (data : List Char)
  | close
  | set_error
  | pop (len : Nat)
deriving DecidableEq

/-- The channel after one call. -/
def ByteStream.step (s : ByteStream) : ChannelCall → ByteStream
  | .push data => s.push data
  | .close => s.close
  | .set_error => s.set_error
  | .pop len => s.pop len

/-- The channel after a sequence of calls, first call first. -/
def ByteStream.run (s : ByteStream) : List ChannelCall → ByteStream
  | [] => s
  | c :: cs => (s.step c).run cs

/-! ## The reassembler (`reassembler.hh`, `reassembler.cc`) -/

/-- The class `Reassembler::Buf_Record`. -/
structure Buf_Record where
  index_ : Int
  len_ : Int
  bytes_ : List Char
deriving DecidableEq

/-- The constructor `Buf_Record( int index, const std::string& bytes )`:
`len_( bytes.length() )` narrows a `size_t` to `int`. -/
def Buf_Record.ctor (index : Int) (bytes : List Char) : Buf_Record :=
  { index_ := index, len_ := wrapInt bytes.length, bytes_ := bytes }

/-- The members of `Reassembler`; `buf_` lists the set in increasing `index_`. -/
structure Reassembler where
  buf_beginning_ : Int
  ended_ : Bool
  buf_ : List Buf_Record
deriving DecidableEq

namespace Reassembler

/-- A default-constructed `Reassembler`: `buf_beginning_ = 0`, `ended_ = false`,
an empty set. -/
def fresh : Reassembler := { buf_beginning_ := 0, ended_ := false, buf_ := [] }

/-- The method `Reassembler::merge_record`.  The `assert` comes first; then `r1`
is returned when `r2` ends inside it, else `r1` is extended by the part of
`r2` past the end of `r1`. -/
def merge_record (r1 r2 : Buf_Record) : Option Buf_Record :=
  if r1.index_ ≤ r2.index_ ∧ r2.index_ ≤ wrapInt (r1.index_ + r1.len_) then
    if wrapInt (r2.index_ + r2.len_) ≤ wrapInt (r1.index_ + r1.len_) then some r1
    else
      match substrFrom r2.bytes_ (wrapU64 (wrapInt (r1.index_ + r1.len_ - r2.index_))) with
      | none => none
      | some tail => some (Buf_Record.ctor r1.index_ (r1.bytes_ ++ tail))
  else none

/-- The two absorbing loops of `insert` (lines 37-44 over the whole set from
`begin()`, lines 52-55 from `lower_bound( cur )`): while the next stored
record starts at or before the end of `cur`, merge it into `cur` and erase
it.  The result is the grown `cur` with the records left. -/
def absorb (cur : Buf_Record) : List Buf_Record → Option (Buf_Record × List Buf_Record)
  | [] => some (cur, [])
  | it :: rest =>
    if it.index_ ≤ wrapInt (cur.index_ + cur.len_) then
      match merge_record cur it with
      | none => none
      | some c => absorb c rest
    else some (cur, it :: rest)

/-- The call `std::set::insert`: the record goes to its place in the order of
`index_`; a record with an equal key already there keeps its place and
nothing is inserted. -/
def setInsert (r : Buf_Record) : List Buf_Record → List Buf_Record
  | [] => [r]
  | x :: xs =>
    if r.index_ < x.index_ then r :: x :: xs
    else if x.index_ < r.index_ then x :: setInsert r xs
    else x :: xs

/-- Lines 35-66 of `insert`: build `cur` from the trimmed fragment and either
deliver it with everything it now reaches (`cur.index_ == buf_beginning_`) or
store it merged with its neighbours.  `R.ended_` is the flag after line 33. -/
def place (R : Reassembler) (first_index : Nat) (data : List Char) (output : ByteStream) :
    Option (Reassembler × ByteStream) :=
  let cur := Buf_Record.ctor (wrapInt first_index) data
  if cur.index_ = R.buf_beginning_ then
    match absorb cur R.buf_ with
    | none => none
    | some (c, rest) =>
      let out := output.push c.bytes_
      some ({ R with buf_beginning_ := wrapInt (R.buf_beginning_ + c.len_), buf_ := rest },
            if rest.isEmpty && R.ended_ then out.close else out)
  else
    let before := R.buf_.takeWhile (fun r => decide (r.index_ < cur.index_))
    let after := R.buf_.dropWhile (fun r => decide (r.index_ < cur.index_))
    match absorb cur after with
    | none => none
    | some (c, rest) =>
      match before.getLast? with
      | none => some ({ R with buf_ := setInsert c (before ++ rest) }, output)
      | some p =>
        if c.index_ ≤ wrapInt (p.index_ + p.len_) then
          match merge_record p c with
          | none => none
          | some m => some ({ R with buf_ := setInsert m (before.dropLast ++ rest) }, output)
        else some ({ R with buf_ := setInsert c (before ++ rest) }, output)

/-- Lines 29-66 of `insert`: the right trim at the window edge, the `ended_`
mark of an untrimmed last fragment, then `place`. -/
def trimRight (R : Reassembler) (first_index : Nat) (data : List Char)
    (is_last_substring : Bool) (output : ByteStream) : Option (Reassembler × ByteStream) :=
  if output.available_capacity
      < wrapU64 ((first_index : Int) - R.buf_beginning_ + (data.length : Int)) then
    place R first_index
      (data.take (wrapU64 ((output.available_capacity : Int) - (first_index : Int)
        + R.buf_beginning_))) output
  else if is_last_substring then place { R with ended_ := true } first_index data output
  else place R first_index data output

/-- The method `Reassembler::insert`.  The result is the reassembler and the
channel after the call; there is none when an assertion fails or `substr`
throws. -/
def insert (R : Reassembler) (first_index : Nat) (data : List Char)
    (is_last_substring : Bool) (output : ByteStream) : Option (Reassembler × ByteStream) :=
  if first_index ≥ wrapU64 (R.buf_beginning_ + (output.available_capacity : Int)) then
    some (R, output)
  else if first_index < wrapU64 R.buf_beginning_ then
    if wrapU64 ((first_index : Int) + (data.length : Int)) ≤ wrapU64 R.buf_beginning_ then
      some (R, output)
    else
      match substrFrom data (wrapU64 (R.buf_beginning_ - (first_index : Int))) with
      | none => none
      | some d => trimRight R (wrapU64 R.buf_beginning_) d is_last_substring output
  else trimRight R first_index data is_last_substring output

/-- The method `Reassembler::bytes_pending`: the sum of `len_` over the set, as a
`uint64_t`. -/
def bytes_pending (R : Reassembler) : Nat :=
  wrapU64 (R.buf_.foldl (fun cnt t => cnt + t.len_) 0)

end Reassembler

/-- One call on the pair of reassembler and channel: `Reassembler::insert` on
the channel's writer, or `Reader::pop` on its reader. -/
inductive Call where
  | insert (first_index : Nat) (data : List Char) (is_last_substring : Bool)
  | pop (len : Nat)
deriving DecidableEq

/-- The pair after one call, if the call returns. -/
def step (st : Reassembler × ByteStream) : Call → Option (Reassembler × ByteStream)
  | .insert first_index data is_last_substring =>
    st.1.insert first_index data is_last_substring st.2
  | .pop len => some (st.1, st.2.pop len)

/-- The pair after a sequence of calls, first call first, if every call returns. -/
def run (st : Reassembler × ByteStream) : List Call → Option (Reassembler × ByteStream)
  | [] => some st
  | c :: cs =>
    match step st c with
    | none => none
    | some st' => run st' cs

/-! ## Predicates and reference values used by the theorems -/

/-- A record as the reassembler stores it while all indices stay below 2^31:
a non-negative start, `len_` the true length of its bytes, the end below 2^31. -/
def Buf_Record.Good (r : Buf_Record) : Prop :=
  0 ≤ r.index_ ∧ r.len_ = (r.bytes_.length : Int) ∧ r.index_ + r.len_ < 2147483648

/-- The records of the list are good, the first starts after `lo`, and each
next one starts after the end of the one before it: no overlap, no adjacency. -/
def Sep (lo : Int) : List Buf_Record → Prop
  | [] => True
  | r :: rs => lo < r.index_ ∧ r.Good ∧ Sep (r.index_ + r.len_) rs

/-- The end of the last record of the list, `lo` for the empty list. -/
def lastEnd (lo : Int) : List Buf_Record → Int
  | [] => lo
  | r :: rs => lastEnd (r.index_ + r.len_) rs

/-- What `merge_record` returns below 2^31: the start of `r1`, the later of the
two ends, and the bytes of `r1` followed by the bytes of `r2` past the end of
`r1`. -/
def Reassembler.merged (r1 r2 : Buf_Record) : Buf_Record :=
  { index_ := r1.index_,
    len_ := max (r1.index_ + r1.len_) (r2.index_ + r2.len_) - r1.index_,
    bytes_ := r1.bytes_ ++ r2.bytes_.drop (r1.index_ + r1.len_ - r2.index_).toNat }

/-- The shape of a state while all indices stay below 2^31: the channel within
its capacity, `next_index` a non-negative `int`, the pending records good,
after `next_index`, and separated. -/
structure Shape (R : Reassembler) (W : ByteStream) : Prop where
  cap : W.capacity_ < 9223372036854775808
  buf_le : W.buf.length ≤ W.capacity_
  nb_nonneg : 0 ≤ R.buf_beginning_
  nb_lt : R.buf_beginning_ < 2147483648
  sep : Sep R.buf_beginning_ R.buf_

/-- The invariant of the states reached below 2^31: the shape, and the channel
is closed once the stream is marked ended and nothing is pending. -/
structure Inv (R : Reassembler) (W : ByteStream) extends Shape R W : Prop where
  closed : R.ended_ = true → R.buf_ = [] → W.ended_ = true

/-- A call whose fragment ends below 2^31 (every `pop` is such a call). -/
def Call.InRange : Call → Prop
  | .insert first_index data _ => first_index + data.length < 2147483648
  | .pop _ => True

instance (c : Call) : Decidable c.InRange := by
  cases c <;> unfold Call.InRange <;> infer_instance

/-- The states reached from a fresh reassembler and a fresh channel of the
given capacity by `insert` calls whose fragments end below 2^31 and by `pop`
calls. -/
def Reachable (capacity : Nat) (R : Reassembler) (W : ByteStream) : Prop :=
  ∃ calls : List Call, (∀ c ∈ calls, c.InRange) ∧
    run (Reassembler.fresh, ByteStream.ctor capacity) calls = some (R, W)

/-- A stream of `n + 1` bytes: `n` times 'a', then one 'b'. -/
def tailMarked (n : Nat) : List Char := List.replicate n 'a' ++ ['b']

namespace Reassembler

/-- The part of a fragment inside the window: its start moved up to `next_index`,
its bytes without those before `next_index` and without those at or past
`window_end`. -/
def clipStart (R : Reassembler) (fi : Nat) : Nat := max fi R.buf_beginning_.toNat

/-- See `clipStart`. -/
def clipData (R : Reassembler) (W : ByteStream) (fi : Nat) (d : List Char) : List Char :=
  (d.drop (R.buf_beginning_.toNat - fi)).take
    ((R.buf_beginning_ + (W.available_capacity : Int)).toNat - max fi R.buf_beginning_.toNat)

end Reassembler

/-- The bookkeeping between the reassembler and the channel below 2^31:
`next_index` is the number of bytes pushed, the counters account for the
buffer, and every pending record ends inside the window. -/
structure Flow (R : Reassembler) (W : ByteStream) : Prop where
  pushed : (W.pushed_len : Int) = R.buf_beginning_
  counters : W.pushed_len = W.poped_len + W.buf.length
  window : ∀ r ∈ R.buf_, r.index_ + r.len_ ≤ R.buf_beginning_ + (W.available_capacity : Int)

namespace Reassembler

/-- The value of `ended_` after line 33 of `insert` for a fragment that is not
discarded: set when the fragment carries the last-fragment mark and does not
extend past `window_end`. -/
def endedAfter (R : Reassembler) (W : ByteStream) (fi : Nat) (d : List Char)
    (is_last_substring : Bool) : Bool :=
  R.ended_ || (is_last_substring &&
    decide ((fi : Int) + (d.length : Int) ≤ R.buf_beginning_ + (W.available_capacity : Int)))

end Reassembler

/-- The record holds the bytes of the stream `s` at its indices. -/
def Slice (s : List Char) (r : Buf_Record) : Prop :=
  r.index_ + r.len_ ≤ (s.length : Int) ∧ r.bytes_ = (s.drop r.index_.toNat).take r.len_.toNat

/-- The state holds bytes of the stream `s` only: the channel buffers
`s[bytes_popped, bytes_pushed)` and every pending record is a slice of `s`. -/
structure Agree (s : List Char) (R : Reassembler) (W : ByteStream) : Prop where
  delivered : W.buf = (s.take W.pushed_len).drop W.poped_len
  bound : W.pushed_len ≤ s.length
  pending : ∀ r ∈ R.buf_, Slice s r

/-- The fragment of an `insert` call agrees with the stream `s`:
`data == s[first_index, first_index + len)`. -/
def Call.Agrees (s : List Char) : Call → Prop
  | .insert first_index data _ =>
    first_index + data.length ≤ s.length ∧ data = (s.drop first_index).take data.length
  | .pop _ => True

/-- The bytes a call pushes into the channel: what an `insert` call appends to
the buffer (`insert` writes to the channel through `Writer::push` only, which
appends), nothing for a `pop`. -/
def Call.pushed (W W' : ByteStream) : Call → List Char
  | .insert _ _ _ => W'.buf.drop W.buf.length
  | .pop _ => []

/-- The pair after a sequence of calls together with the bytes pushed into the
channel by these calls, in push order. -/
def runPushed (st : Reassembler × ByteStream) :
    List Call → Option ((Reassembler × ByteStream) × List Char)
  | [] => some (st, [])
  | c :: cs =>
    match step st c with
    | none => none
    | some st' =>
      match runPushed st' cs with
      | none => none
      | some (fin, log) => some (fin, c.pushed st.2 st'.2 ++ log)

/-- The invariants of a run below 2^31 whose fragments agree with the stream `s`. -/
structure Tracks (s : List Char) (R : Reassembler) (W : ByteStream) : Prop where
  inv : Inv R W
  flow : Flow R W
  agree : Agree s R W

/-- The call is an `insert` whose fragment carries the last-fragment mark and is
fully accepted in the state `(R, W)`: it starts before `window_end`, it is not
wholly before `next_index`, and it does not extend past `window_end`. -/
def Call.acceptsLast (R : Reassembler) (W : ByteStream) : Call → Bool
  | .insert first_index data is_last_substring =>
    is_last_substring &&
    decide ((first_index : Int) < R.buf_beginning_ + (W.available_capacity : Int)) &&
    !(decide ((first_index : Int) < R.buf_beginning_ ∧
        (first_index : Int) + (data.length : Int) ≤ R.buf_beginning_)) &&
    decide ((first_index : Int) + (data.length : Int)
      ≤ R.buf_beginning_ + (W.available_capacity : Int))
  | .pop _ => false

/-- The pair after a sequence of calls, together with whether some call of the
sequence was an `insert` of a fully accepted last fragment. -/
def runAccepted (st : Reassembler × ByteStream) :
    List Call → Option ((Reassembler × ByteStream) × Bool)
  | [] => some (st, false)
  | c :: cs =>
    match step st c with
    | none => none
    | some st' =>
      match runAccepted st' cs with
      | none => none
      | some (fin, acc) => some (fin, c.acceptsLast st.1 st.2 || acc)

/-- The last-fragment mark is set exactly on the fragments that end at index `N`. -/
def Call.MarksEnd (N : Nat) : Call → Prop
  | .insert first_index data is_last_substring =>
    is_last_substring = true ↔ first_index + data.length = N
  | .pop _ => True

/-- Completion below 2^31, as an invariant: once `ended_` is set the stream's end
has been delivered or is the end of a pending record, and the channel is closed
only when `ended_` is set and everything has been delivered. -/
structure Completes (N : Nat) (R : Reassembler) (W : ByteStream) : Prop where
  ended : R.ended_ = true →
    R.buf_beginning_ = (N : Int) ∨ ∃ r ∈ R.buf_, r.index_ + r.len_ = (N : Int)
  closed : W.ended_ = true → R.ended_ = true ∧ R.buf_beginning_ = (N : Int)

/-- Index `i` has been delivered or is held by a pending record. -/
def Covered (R : Reassembler) (i : Nat) : Prop :=
  (i : Int) < R.buf_beginning_ ∨
    ∃ r ∈ R.buf_, r.index_ ≤ (i : Int) ∧ (i : Int) < r.index_ + r.len_

/-- The call is an `insert` whose fragment holds index `i`. -/
def Call.covers (i : Nat) : Call → Prop
  | .insert first_index data _ => first_index ≤ i ∧ i < first_index + data.length
  | .pop _ => False

/-- The call is an `insert`. -/
def Call.isInsert : Call → Prop
  | .insert _ _ _ => True
  | .pop _ => False

/-- The constructor call `ByteStream( capacity )` with the outcome a caller
sees: the channel, or nothing when the construction faults.  The body of
`ByteStream::ByteStream( uint64_t capacity ) : capacity_( capacity ) {}` is
empty and tests nothing, so there is a channel for every capacity. -/
def ByteStream.construct (capacity : Nat) : Option ByteStream :=
  some (ByteStream.ctor capacity)

/-- Index `i` is held by a pending record: `index_ <= i < index_ + len_`. -/
def Reassembler.held (R : Reassembler) (i : Int) : Prop :=
  ∃ r ∈ R.buf_, r.index_ ≤ i ∧ i < r.index_ + r.len_

instance (R : Reassembler) (i : Int) : Decidable (R.held i) := by
  unfold Reassembler.held
  infer_instance

/-- The naive index-set model of one `insert` call, in the words of the
refinement claim: the set `K` of the indices held by the pending records
together with the indices of the new fragment clipped to
`[next_index, next_index + available_capacity())`. -/
def Reassembler.known (R : Reassembler) (W : ByteStream) (first_index : Nat)
    (data : List Char) (i : Int) : Prop :=
  R.held i ∨
    (((first_index : Int) ≤ i ∧ i < (first_index : Int) + (data.length : Int)) ∧
      (R.buf_beginning_ ≤ i ∧ i < R.buf_beginning_ + (W.available_capacity : Int)))

instance (R : Reassembler) (W : ByteStream) (first_index : Nat) (data : List Char) (i : Int) :
    Decidable (R.known W first_index data i) := by
  unfold Reassembler.known
  infer_instance

/-- While `ended_` is not set, the end of a stream of `N` bytes has not been
taken in: `next_index` is before `N` (unless the stream is empty) and every
pending record ends before `N`. -/
structure Awaits (N : Nat) (R : Reassembler) : Prop where
  front : R.ended_ = false → N = 0 ∨ R.buf_beginning_ < (N : Int)
  pending : R.ended_ = false → ∀ r ∈ R.buf_, r.index_ + r.len_ < (N : Int)

/-- The record reaches the point `j` of the doubled index line,
`2 * index_ <= j <= 2 * (index_ + len_)`: the even point `2 * i` is the
boundary before byte `i`, the odd point `2 * i + 1` is byte `i` itself.  A
record of length 0 reaches its one boundary; two records that are neither
overlapping nor adjacent leave a point between them that neither reaches. -/
def Buf_Record.reaches (r : Buf_Record) (j : Int) : Prop :=
  2 * r.index_ ≤ j ∧ j ≤ 2 * (r.index_ + r.len_)

instance (r : Buf_Record) (j : Int) : Decidable (r.reaches j) := by
  unfold Buf_Record.reaches
  infer_instance

/-- The points of the doubled index line that the reassembler has dealt with:
those up to `next_index` (delivered) and those a pending record reaches. -/
def Reassembler.ground (R : Reassembler) (j : Int) : Prop :=
  j ≤ 2 * R.buf_beginning_ ∨ ∃ r ∈ R.buf_, r.reaches j

/-- The points a fragment `(first_index, len)` brings when the window ends at
`w`: none when it starts at or past `w`, else those from its start to its end,
cut at `w`. -/
def fragGround (w : Int) (first_index len : Nat) (j : Int) : Prop :=
  (first_index : Int) < w ∧ 2 * (first_index : Int) ≤ j ∧
    j ≤ 2 * ((first_index : Int) + (len : Int)) ∧ j ≤ 2 * w

/-! ## Machine integers: when wrapping does nothing -/

theorem wrapInt_of_range {n : Int} (h0 : -2147483648 ≤ n) (h1 : n < 2147483648) :
    wrapInt n = n := by
  unfold wrapInt
  omega

theorem wrapU64_of_range {n : Int} (h0 : 0 ≤ n) (h1 : n < 18446744073709551616) :
    (wrapU64 n : Int) = n := by
  unfold wrapU64
  omega

theorem wrapU64_natCast {n : Nat} (h1 : n < 18446744073709551616) :
    wrapU64 (n : Int) = n := by
  unfold wrapU64
  omega

theorem wrapU64_le_of_nonneg {n : Int} (h0 : 0 ≤ n) : (wrapU64 n : Int) ≤ n := by
  unfold wrapU64
  omega

/-! ## The byte channel -/

namespace ByteStream

theorem available_capacity_eq {s : ByteStream} (h : s.buf.length ≤ s.capacity_)
    (hc : s.capacity_ < 18446744073709551616) :
    s.available_capacity = s.capacity_ - s.buf.length := by
  unfold available_capacity wrapU64
  omega

theorem push_capacity (s : ByteStream) (data : List Char) :
    (s.push data).capacity_ = s.capacity_ := by
  unfold push
  split <;> rfl

theorem push_buf_le (s : ByteStream) (data : List Char) (h : s.buf.length ≤ s.capacity_) :
    (s.push data).buf.length ≤ s.capacity_ := by
  unfold push
  split
  · simpa using ‹_›
  · simp only [List.length_append, List.length_take]
    have := wrapU64_le_of_nonneg (n := (s.capacity_ : Int) - (s.buf.length : Int)) (by omega)
    omega

theorem pop_capacity (s : ByteStream) (len : Nat) : (s.pop len).capacity_ = s.capacity_ := by
  unfold pop
  split <;> rfl

theorem pop_buf_le (s : ByteStream) (len : Nat) : (s.pop len).buf.length ≤ s.buf.length := by
  unfold pop
  split <;> simp

theorem step_capacity (s : ByteStream) (c : ChannelCall) : (s.step c).capacity_ = s.capacity_ := by
  cases c
  · exact push_capacity s _
  · rfl
  · rfl
  · exact pop_capacity s _

theorem step_buf_le (s : ByteStream) (c : ChannelCall) (h : s.buf.length ≤ s.capacity_) :
    (s.step c).buf.length ≤ s.capacity_ := by
  cases c
  · exact push_buf_le s _ h
  · exact h
  · exact h
  · exact le_trans (pop_buf_le s _) h

theorem run_buf_le (calls : List ChannelCall) :
    ∀ s : ByteStream, s.buf.length ≤ s.capacity_ →
      (s.run calls).capacity_ = s.capacity_ ∧ (s.run calls).buf.length ≤ s.capacity_ := by
  induction calls with
  | nil => intro s h; exact ⟨rfl, h⟩
  | cons c cs ih =>
    intro s h
    have h1 := step_buf_le s c h
    have h2 := step_capacity s c
    have := ih (s.step c) (by rw [h2]; exact h1)
    rw [h2] at this
    exact this

end ByteStream

/-- C5. Capacity invariant of the byte channel: after any sequence of `push`,
`close`, `set_error` and `pop` calls on a channel constructed with capacity `C`
(a `uint64_t`), the capacity is still `C`, the buffered length is at most `C`,
and `available_capacity()` is the exact difference `C - buffered length` (the
unsigned subtraction does not wrap).  Every prefix of a sequence is itself a
sequence, so this is the state after every call. -/
theorem C5_capacity_invariant (C : Nat) (calls : List ChannelCall)
    (hC : C < 18446744073709551616) :
    ((ByteStream.ctor C).run calls).capacity_ = C ∧
    ((ByteStream.ctor C).run calls).bytes_buffered ≤ C ∧
    (((ByteStream.ctor C).run calls).available_capacity : Int)
      = (C : Int) - (((ByteStream.ctor C).run calls).bytes_buffered : Int) := by
  have hrun := ByteStream.run_buf_le calls (ByteStream.ctor C) (by simp [ByteStream.ctor])
  have hcap : (ByteStream.ctor C).capacity_ = C := rfl
  rw [hcap] at hrun
  obtain ⟨h1, h2⟩ := hrun
  have h3 := ByteStream.available_capacity_eq (s := (ByteStream.ctor C).run calls)
    (by rw [h1]; exact h2) (by rw [h1]; exact hC)
  rw [h1] at h3
  refine ⟨h1, h2, ?_⟩
  unfold ByteStream.bytes_buffered
  rw [h3]
  omega

/-- C5, at capacity 2 with the calls push "abc", pop 1, push "xy", close,
set_error, push "z". -/
theorem C5_capacity_invariant_witness :
    (2 : Nat) < 18446744073709551616 ∧
    ((ByteStream.ctor 2).run [.push ['a', 'b', 'c'], .pop 1, .push ['x', 'y'], .close,
        .set_error, .push ['z']]).bytes_buffered ≤ 2 :=
  ⟨by decide, (C5_capacity_invariant 2 _ (by decide)).2.1⟩

/-- C6. `Writer::push` accepts exactly the leading bytes that fit: on a channel
whose buffered length is within its capacity, `push(data)` leaves the old
buffer followed by the first `k = min(len(data), capacity - buffered)` bytes of
`data`, `bytes_pushed()` grows by exactly `k`, and the closed flag, the error
flag, `bytes_popped()` and the capacity stay as they were. -/
theorem C6_push_accepts_leading_bytes (s : ByteStream) (data : List Char)
    (hc : s.capacity_ < 18446744073709551616) (h : s.buf.length ≤ s.capacity_) :
    (s.push data).buf = s.buf ++ data.take (min data.length (s.capacity_ - s.buf.length)) ∧
    (s.push data).bytes_pushed
      = s.bytes_pushed + min data.length (s.capacity_ - s.buf.length) ∧
    (s.push data).is_closed = s.is_closed ∧
    (s.push data).has_error = s.has_error ∧
    (s.push data).bytes_popped = s.bytes_popped ∧
    (s.push data).capacity_ = s.capacity_ := by
  have hw : wrapU64 ((s.capacity_ : Int) - (s.buf.length : Int)) = s.capacity_ - s.buf.length := by
    unfold wrapU64
    omega
  unfold ByteStream.push ByteStream.bytes_pushed ByteStream.is_closed ByteStream.has_error
    ByteStream.bytes_popped
  split
  · rename_i hfit
    have hk : min data.length (s.capacity_ - s.buf.length) = data.length := by omega
    simp [hk]
  · rename_i hfit
    have hk : min data.length (s.capacity_ - s.buf.length) = s.capacity_ - s.buf.length := by
      omega
    simp [hk, hw]

/-- C6, on the spec's example: capacity 2, push "abc" leaves "ab" and
`bytes_pushed() == 2`. -/
theorem C6_push_accepts_leading_bytes_witness :
    ((ByteStream.ctor 2).push ['a', 'b', 'c']).buf = ['a', 'b'] ∧
    ((ByteStream.ctor 2).push ['a', 'b', 'c']).bytes_pushed = 2 := by
  have h := C6_push_accepts_leading_bytes (ByteStream.ctor 2) ['a', 'b', 'c']
    (by decide) (by decide)
  exact ⟨h.1, h.2.1⟩

/-- C7. `Reader::pop` removes exactly the first `min(n, buffered length)` bytes:
after `pop(n)` the buffer is the old one without those bytes, `bytes_popped()`
has grown by that number, and `bytes_pushed()`, the closed flag, the error flag
and the capacity are unchanged. -/
theorem C7_pop_removes_leading_bytes (s : ByteStream) (n : Nat) :
    (s.pop n).buf = s.buf.drop (min n s.buf.length) ∧
    (s.pop n).bytes_popped = s.bytes_popped + min n s.buf.length ∧
    (s.pop n).bytes_pushed = s.bytes_pushed ∧
    (s.pop n).is_closed = s.is_closed ∧
    (s.pop n).has_error = s.has_error ∧
    (s.pop n).capacity_ = s.capacity_ := by
  unfold ByteStream.pop ByteStream.bytes_pushed ByteStream.is_closed ByteStream.has_error
    ByteStream.bytes_popped
  split
  · rename_i hlt
    have hk : min n s.buf.length = n := by omega
    simp [hk]
  · rename_i hge
    have hk : min n s.buf.length = s.buf.length := by omega
    simp [hk]

/-! ## Running calls -/

theorem run_nil (st : Reassembler × ByteStream) : run st [] = some st := rfl

theorem run_cons_of_step {st st' : Reassembler × ByteStream} {c : Call}
    (h : step st c = some st') (cs : List Call) : run st (c :: cs) = run st' cs := by
  rw [run, h]

/-! ## Pending records below 2^31 -/

theorem Buf_Record.Good.len_nonneg {r : Buf_Record} (h : r.Good) : 0 ≤ r.len_ := by
  obtain ⟨_, h2, _⟩ := h
  omega

theorem Sep.mono {lo lo' : Int} {rs : List Buf_Record} (h : Sep lo rs) (hle : lo' ≤ lo) :
    Sep lo' rs := by
  cases rs with
  | nil => trivial
  | cons r rs => exact ⟨by have := h.1; omega, h.2.1, h.2.2⟩

theorem Sep.of_mem {rs : List Buf_Record} :
    ∀ {lo : Int}, Sep lo rs → ∀ r ∈ rs, lo < r.index_ ∧ r.Good := by
  induction rs with
  | nil => intro lo _ r hr; cases hr
  | cons x xs ih =>
    intro lo h r hr
    rcases List.mem_cons.1 hr with rfl | hr
    · exact ⟨h.1, h.2.1⟩
    · have := ih h.2.2 r hr
      have hx := h.2.1.len_nonneg
      exact ⟨by have := h.1; omega, this.2⟩

theorem lastEnd_append_singleton (xs : List Buf_Record) (p : Buf_Record) :
    ∀ lo : Int, lastEnd lo (xs ++ [p]) = p.index_ + p.len_ := by
  induction xs with
  | nil => intro lo; rfl
  | cons x xs ih => intro lo; exact ih _

theorem Sep.append {xs ys : List Buf_Record} :
    ∀ {lo : Int}, Sep lo (xs ++ ys) ↔ Sep lo xs ∧ Sep (lastEnd lo xs) ys := by
  induction xs with
  | nil => intro lo; simp [Sep, lastEnd]
  | cons x xs ih =>
    intro lo
    show (lo < x.index_ ∧ x.Good ∧ Sep (x.index_ + x.len_) (xs ++ ys)) ↔
      (lo < x.index_ ∧ x.Good ∧ Sep (x.index_ + x.len_) xs) ∧
        Sep (lastEnd (x.index_ + x.len_) xs) ys
    rw [ih]
    tauto

theorem Sep.lastEnd_ge {xs : List Buf_Record} :
    ∀ {lo : Int}, Sep lo xs → lo ≤ lastEnd lo xs := by
  induction xs with
  | nil => intro lo _; exact le_refl _
  | cons x xs ih =>
    intro lo h
    have := ih h.2.2
    have hx := h.2.1.len_nonneg
    have := h.1
    simp only [lastEnd]
    omega

/-! ## The merge steps below 2^31 -/

namespace Reassembler

theorem merge_record_eq {r1 r2 : Buf_Record} (h1 : r1.Good) (h2 : r2.Good)
    (hle : r1.index_ ≤ r2.index_) (hadj : r2.index_ ≤ r1.index_ + r1.len_) :
    merge_record r1 r2 = some (merged r1 r2) := by
  obtain ⟨h1a, h1b, h1c⟩ := h1
  obtain ⟨h2a, h2b, h2c⟩ := h2
  have e1 : wrapInt (r1.index_ + r1.len_) = r1.index_ + r1.len_ :=
    wrapInt_of_range (by omega) (by omega)
  have e2 : wrapInt (r2.index_ + r2.len_) = r2.index_ + r2.len_ :=
    wrapInt_of_range (by omega) (by omega)
  unfold merge_record
  rw [e1, e2, if_pos ⟨hle, hadj⟩]
  by_cases hin : r2.index_ + r2.len_ ≤ r1.index_ + r1.len_
  · rw [if_pos hin]
    have hd : r2.bytes_.drop (r1.index_ + r1.len_ - r2.index_).toNat = [] :=
      List.drop_eq_nil_of_le (by omega)
    cases r1 with
    | mk i l b =>
      simp only [merged, hd, List.append_nil, Option.some.injEq, Buf_Record.mk.injEq, true_and,
        and_true]
      simp only at hin
      omega
  · rw [if_neg hin]
    have e3 : wrapInt (r1.index_ + r1.len_ - r2.index_) = r1.index_ + r1.len_ - r2.index_ :=
      wrapInt_of_range (by omega) (by omega)
    have e4 : wrapU64 (r1.index_ + r1.len_ - r2.index_)
        = (r1.index_ + r1.len_ - r2.index_).toNat := by
      unfold wrapU64
      omega
    rw [e3, e4]
    unfold substrFrom
    rw [if_pos (by omega)]
    simp only [Buf_Record.ctor, merged, Option.some.injEq, Buf_Record.mk.injEq, true_and,
      and_true, List.length_append, List.length_drop]
    rw [wrapInt_of_range (by omega) (by omega)]
    omega

theorem merged_good {r1 r2 : Buf_Record} (h1 : r1.Good) (h2 : r2.Good)
    (hadj : r2.index_ ≤ r1.index_ + r1.len_) :
    (merged r1 r2).Good := by
  obtain ⟨h1a, h1b, h1c⟩ := h1
  obtain ⟨h2a, h2b, h2c⟩ := h2
  refine ⟨h1a, ?_, ?_⟩
  · simp only [merged, List.length_append, List.length_drop]
    omega
  · simp only [merged]
    omega

theorem merged_index (r1 r2 : Buf_Record) : (merged r1 r2).index_ = r1.index_ := rfl

theorem merged_end (r1 r2 : Buf_Record) :
    (merged r1 r2).index_ + (merged r1 r2).len_
      = max (r1.index_ + r1.len_) (r2.index_ + r2.len_) := by
  simp only [merged]
  omega

theorem absorb_stop (cur : Buf_Record) (h : cur.Good) (rs : List Buf_Record)
    (hrs : ∀ r ∈ rs.head?, cur.index_ + cur.len_ < r.index_) :
    absorb cur rs = some (cur, rs) := by
  cases rs with
  | nil => rfl
  | cons it rest =>
    have hlt := hrs it (by simp)
    have e : wrapInt (cur.index_ + cur.len_) = cur.index_ + cur.len_ :=
      wrapInt_of_range (by have := h.1; have := h.len_nonneg; omega) (by have := h.2.2; omega)
    unfold absorb
    rw [e, if_neg (by omega)]

/-- The absorbing loop below 2^31: it returns; the grown record keeps the start
of `cur`, is good, ends at the end of `cur` or of an absorbed record, and the
records left start after its end. -/
theorem absorb_spec : ∀ (rs : List Buf_Record) (cur : Buf_Record) (lo : Int),
    cur.Good → Sep lo rs → (∀ r ∈ rs, cur.index_ ≤ r.index_) →
    ∃ c pre rest, absorb cur rs = some (c, rest) ∧ rs = pre ++ rest ∧ c.Good ∧
      c.index_ = cur.index_ ∧ cur.index_ + cur.len_ ≤ c.index_ + c.len_ ∧
      Sep (c.index_ + c.len_) rest ∧
      (∀ r ∈ pre, r.index_ + r.len_ ≤ c.index_ + c.len_) ∧
      (c.index_ + c.len_ = cur.index_ + cur.len_ ∨
        ∃ r ∈ pre, c.index_ + c.len_ = r.index_ + r.len_) := by
  intro rs
  induction rs with
  | nil =>
    intro cur lo hc _ _
    exact ⟨cur, [], [], rfl, rfl, hc, rfl, le_refl _, trivial, by simp, Or.inl rfl⟩
  | cons it rs ih =>
    intro cur lo hc hsep hge
    have e : wrapInt (cur.index_ + cur.len_) = cur.index_ + cur.len_ :=
      wrapInt_of_range (by have := hc.1; have := hc.len_nonneg; omega)
        (by have := hc.2.2; omega)
    obtain ⟨hlo, hit, hrest⟩ := hsep
    by_cases hreach : it.index_ ≤ cur.index_ + cur.len_
    · have hle : cur.index_ ≤ it.index_ := hge it (by simp)
      have hm := merge_record_eq hc hit hle hreach
      have hmg := merged_good hc hit hreach
      have hme := merged_end cur it
      obtain ⟨c, pre, rest, h1, h2, h3, h4, h5, h6, h7, h8⟩ :=
        ih (merged cur it) (it.index_ + it.len_) hmg hrest
          (fun r hr => by rw [merged_index]; exact hge r (by simp [hr]))
      refine ⟨c, it :: pre, rest, ?_, by rw [h2]; rfl, h3, by rw [h4, merged_index], ?_, h6,
        ?_, ?_⟩
      · unfold absorb
        rw [e, if_pos hreach, hm]
        exact h1
      · omega
      · intro r hr
        rcases List.mem_cons.1 hr with rfl | hr
        · omega
        · exact h7 r hr
      · rcases h8 with h8 | ⟨r, hr, h8⟩
        · rcases le_total (cur.index_ + cur.len_) (it.index_ + it.len_) with hcase | hcase
          · right
            exact ⟨it, by simp, by rw [h8, hme, max_eq_right hcase]⟩
          · left
            rw [h8, hme, max_eq_left hcase]
        · right
          exact ⟨r, by simp [hr], h8⟩
    · refine ⟨cur, [], it :: rs, ?_, rfl, hc, rfl, le_refl _, ⟨by omega, hit, hrest⟩, by simp,
        Or.inl rfl⟩
      unfold absorb
      rw [e, if_neg hreach]

theorem setInsert_mid (r : Buf_Record) :
    ∀ (xs rest : List Buf_Record), (∀ x ∈ xs, x.index_ < r.index_) →
      (∀ y ∈ rest, r.index_ < y.index_) → setInsert r (xs ++ rest) = xs ++ r :: rest := by
  intro xs
  induction xs with
  | nil =>
    intro rest _ hr
    cases rest with
    | nil => rfl
    | cons y ys =>
      have := hr y (by simp)
      rw [List.nil_append, setInsert, if_pos this]
      rfl
  | cons x xs ih =>
    intro rest hx hr
    have hlt := hx x (by simp)
    rw [List.cons_append, setInsert, if_neg (by omega), if_pos hlt,
      ih rest (fun y hy => hx y (by simp [hy])) hr]
    rfl

end Reassembler

theorem Sep.end_le_lastEnd {xs : List Buf_Record} :
    ∀ {lo : Int}, Sep lo xs → ∀ x ∈ xs, x.index_ + x.len_ ≤ lastEnd lo xs := by
  induction xs with
  | nil => intro lo _ x hx; cases hx
  | cons y ys ih =>
    intro lo h x hx
    simp only [lastEnd]
    rcases List.mem_cons.1 hx with rfl | hx
    · exact Sep.lastEnd_ge h.2.2
    · exact ih h.2.2 x hx

theorem Sep.of_forall {lo lo' : Int} {rs : List Buf_Record} (h : Sep lo rs)
    (hall : ∀ r ∈ rs, lo' < r.index_) : Sep lo' rs := by
  cases rs with
  | nil => trivial
  | cons r rs => exact ⟨hall r (by simp), h.2.1, h.2.2⟩

theorem Sep.dropWhile_ge (ci : Int) {rs : List Buf_Record} :
    ∀ {lo : Int}, Sep lo rs →
      ∀ r ∈ rs.dropWhile (fun r => decide (r.index_ < ci)), ci ≤ r.index_ := by
  induction rs with
  | nil => intro lo _ r hr; simp at hr
  | cons x xs ih =>
    intro lo h r hr
    by_cases hx : x.index_ < ci
    · rw [List.dropWhile_cons_of_pos (by simpa using hx)] at hr
      exact ih h.2.2 r hr
    · rw [List.dropWhile_cons_of_neg (by simpa using hx)] at hr
      rcases List.mem_cons.1 hr with rfl | hr
      · omega
      · have := (Sep.of_mem h.2.2 r hr).1
        have := h.2.1.len_nonneg
        omega

theorem takeWhile_lt (ci : Int) (rs : List Buf_Record) :
    ∀ r ∈ rs.takeWhile (fun r => decide (r.index_ < ci)), r.index_ < ci := by
  intro r hr
  have := List.mem_takeWhile_imp hr
  simpa using this

/-! ## Both branches of lines 35-66 below 2^31 -/

namespace Reassembler

/-- The record `insert` builds at line 35 from a trimmed fragment below 2^31. -/
theorem ctor_in_range {fi : Nat} {d : List Char}
    (hend : (fi : Int) + (d.length : Int) < 2147483648) :
    Buf_Record.ctor (wrapInt fi) d = ⟨fi, d.length, d⟩ ∧
      (⟨fi, d.length, d⟩ : Buf_Record).Good := by
  have ei : wrapInt (fi : Int) = fi := wrapInt_of_range (by omega) (by omega)
  have el : wrapInt (d.length : Int) = d.length := wrapInt_of_range (by omega) (by omega)
  refine ⟨?_, ⟨by simp, rfl, by simpa using hend⟩⟩
  simp only [Buf_Record.ctor, ei, el]

/-- The in-order branch below 2^31: the fragment at `next_index` absorbs the
pending records it reaches, the grown record is pushed, and `next_index` moves
to its end. -/
theorem place_front {R : Reassembler} {W : ByteStream} {fi : Nat} {d : List Char}
    (hS : Shape R W) (hfi : R.buf_beginning_ = (fi : Int))
    (hend : (fi : Int) + (d.length : Int) < 2147483648) :
    ∃ c pre rest, absorb ⟨fi, d.length, d⟩ R.buf_ = some (c, rest) ∧ R.buf_ = pre ++ rest ∧
      c.Good ∧ c.index_ = fi ∧ (fi : Int) + d.length ≤ c.index_ + c.len_ ∧
      Sep (c.index_ + c.len_) rest ∧
      (∀ r ∈ pre, r.index_ + r.len_ ≤ c.index_ + c.len_) ∧
      (c.index_ + c.len_ = (fi : Int) + d.length ∨
        ∃ r ∈ pre, c.index_ + c.len_ = r.index_ + r.len_) ∧
      place R fi d W = some (⟨c.index_ + c.len_, R.ended_, rest⟩,
        if rest.isEmpty && R.ended_ then (W.push c.bytes_).close else W.push c.bytes_) := by
  obtain ⟨hc, hg⟩ := ctor_in_range hend
  obtain ⟨c, pre, rest, h1, h2, h3, h4, h5, h6, h7, h8⟩ :=
    absorb_spec R.buf_ ⟨fi, d.length, d⟩ R.buf_beginning_ hg hS.sep
      (fun r hr => by
        have := (Sep.of_mem hS.sep r hr).1
        show (fi : Int) ≤ r.index_
        omega)
  refine ⟨c, pre, rest, h1, h2, h3, h4, h5, h6, h7, h8, ?_⟩
  have hw : wrapInt (R.buf_beginning_ + c.len_) = c.index_ + c.len_ := by
    have : R.buf_beginning_ + c.len_ = c.index_ + c.len_ := by rw [h4, hfi]
    rw [this]
    exact wrapInt_of_range (by have := h3.1; have := h3.len_nonneg; omega)
      (by have := h3.2.2; omega)
  unfold place
  simp only []
  rw [hc, if_pos hfi.symm, h1]
  simp only [hw]

/-- The out-of-order branch below 2^31: the fragment absorbs the pending records
that start inside or at the end of it, is merged into the record before it when
it starts inside or at the end of that one, and is stored in its place. -/
theorem place_back {R : Reassembler} {W : ByteStream} {fi : Nat} {d : List Char}
    (hS : Shape R W) (hfi : R.buf_beginning_ < (fi : Int))
    (hend : (fi : Int) + (d.length : Int) < 2147483648) :
    ∃ before c pre rest, R.buf_ = before ++ (pre ++ rest) ∧
      (∀ r ∈ before, r.index_ < (fi : Int)) ∧ (∀ r ∈ pre ++ rest, (fi : Int) ≤ r.index_) ∧
      absorb ⟨fi, d.length, d⟩ (pre ++ rest) = some (c, rest) ∧
      c.Good ∧ c.index_ = fi ∧ (fi : Int) + d.length ≤ c.index_ + c.len_ ∧
      Sep (c.index_ + c.len_) rest ∧
      (∀ r ∈ pre, r.index_ + r.len_ ≤ c.index_ + c.len_) ∧
      (c.index_ + c.len_ = (fi : Int) + d.length ∨
        ∃ r ∈ pre, c.index_ + c.len_ = r.index_ + r.len_) ∧
      ((∃ init p, before = init ++ [p] ∧ c.index_ ≤ p.index_ + p.len_ ∧
          Sep R.buf_beginning_ (init ++ merged p c :: rest) ∧
          place R fi d W = some ({ R with buf_ := init ++ merged p c :: rest }, W)) ∨
        ((∀ p ∈ before.getLast?, p.index_ + p.len_ < c.index_) ∧
          Sep R.buf_beginning_ (before ++ c :: rest) ∧
          place R fi d W = some ({ R with buf_ := before ++ c :: rest }, W))) := by
  obtain ⟨hc, hcur⟩ := ctor_in_range hend
  have hsplit := List.takeWhile_append_dropWhile (fun r => decide (r.index_ < (fi : Int)))
    R.buf_
  have hblt := takeWhile_lt (fi : Int) R.buf_
  have hage := Sep.dropWhile_ge (fi : Int) hS.sep
  obtain ⟨out, hout⟩ : ∃ out, place R fi d W = out := ⟨_, rfl⟩
  rw [hout]
  unfold place at hout
  simp only [] at hout
  rw [hc, if_neg (by show ¬ ((fi : Int) = R.buf_beginning_); omega)] at hout
  simp only [] at hout
  generalize R.buf_.takeWhile (fun r => decide (r.index_ < (fi : Int))) = before
    at hsplit hblt hout
  generalize R.buf_.dropWhile (fun r => decide (r.index_ < (fi : Int))) = after
    at hsplit hage hout
  have hsep := hS.sep
  rw [← hsplit] at hsep
  obtain ⟨hsb, hsa⟩ := Sep.append.1 hsep
  obtain ⟨c, pre, rest, h1, h2, h3, h4, h5, h6, h7, h8⟩ :=
    absorb_spec after ⟨fi, d.length, d⟩ _ hcur hsa hage
  have h4' : c.index_ = (fi : Int) := h4
  subst h2
  refine ⟨before, c, pre, rest, hsplit.symm, hblt, hage, h1, h3, h4, h5, h6, h7, h8, ?_⟩
  rw [h1] at hout
  simp only [] at hout
  have hrest_c : ∀ y ∈ rest, c.index_ < y.index_ := by
    intro y hy
    have := (Sep.of_mem h6 y hy).1
    have := h3.len_nonneg
    omega
  cases hgl : before.getLast? with
  | none =>
    have hb : before = [] := List.getLast?_eq_none_iff.1 hgl
    subst hb
    rw [hgl] at hout
    simp only [] at hout
    right
    rw [setInsert_mid c [] rest (by simp) hrest_c] at hout
    exact ⟨by simp, ⟨by rw [h4']; exact hfi, h3, h6⟩, hout.symm⟩
  | some p =>
    have hb : before.dropLast ++ [p] = before := List.dropLast_append_getLast? p hgl
    rw [hgl] at hout
    simp only [] at hout
    generalize before.dropLast = init at hb hout
    subst hb
    obtain ⟨hsi, hsp⟩ := Sep.append.1 hsb
    have hle : lastEnd R.buf_beginning_ (init ++ [p]) = p.index_ + p.len_ :=
      lastEnd_append_singleton _ _ _
    rw [hle] at hsa
    have hpg : p.Good := hsp.2.1
    have hpi : p.index_ < c.index_ := by
      rw [h4']
      exact hblt p (by simp)
    have ep : wrapInt (p.index_ + p.len_) = p.index_ + p.len_ :=
      wrapInt_of_range (by have := hpg.1; have := hpg.len_nonneg; omega)
        (by have := hpg.2.2; omega)
    rw [ep] at hout
    by_cases htouch : c.index_ ≤ p.index_ + p.len_
    · rw [if_pos htouch, merge_record_eq hpg h3 (le_of_lt hpi) htouch] at hout
      simp only [] at hout
      left
      have hinit : ∀ x ∈ init, x.index_ < (merged p c).index_ := by
        intro x hx
        have h1' := Sep.end_le_lastEnd hsi x hx
        have h2' := (Sep.of_mem hsi x hx).2.len_nonneg
        have h3' := hsp.1
        rw [merged_index]
        omega
      have hrest_m : ∀ y ∈ rest, (merged p c).index_ < y.index_ := by
        intro y hy
        have := hrest_c y hy
        rw [merged_index]
        omega
      rw [setInsert_mid _ init rest hinit hrest_m] at hout
      refine ⟨init, p, rfl, htouch, Sep.append.2 ⟨hsi, ?_, ?_, ?_⟩, hout.symm⟩
      · rw [merged_index]; exact hsp.1
      · exact merged_good hpg h3 htouch
      · refine Sep.of_forall h6 ?_
        intro y hy
        rw [merged_end]
        have hy1 := (Sep.of_mem h6 y hy).1
        have hy2 := (Sep.of_mem hsa y (by simp [hy])).1
        exact max_lt hy2 hy1
    · rw [if_neg htouch] at hout
      right
      rw [setInsert_mid c (init ++ [p]) rest (fun x hx => by rw [h4']; exact hblt x hx)
        hrest_c] at hout
      refine ⟨?_, Sep.append.2 ⟨hsb, ?_, h3, h6⟩, hout.symm⟩
      · intro q hq
        obtain rfl : p = q := by simpa using hq
        omega
      · rw [hle]
        omega

end Reassembler

/-! ## The invariant of the states reached below 2^31 -/

namespace ByteStream

theorem push_ended (s : ByteStream) (data : List Char) : (s.push data).ended_ = s.ended_ := by
  unfold push
  split <;> rfl

end ByteStream

namespace Reassembler

theorem place_inv {R : Reassembler} {W : ByteStream} {fi : Nat} {d : List Char}
    (hS : Shape R W) (hfi : R.buf_beginning_ ≤ (fi : Int))
    (hend : (fi : Int) + (d.length : Int) < 2147483648) :
    ∃ R' W', place R fi d W = some (R', W') ∧ Inv R' W' ∧ R'.ended_ = R.ended_ ∧
      W'.capacity_ = W.capacity_ := by
  rcases eq_or_lt_of_le hfi with hfront | hback
  · obtain ⟨c, pre, rest, -, -, h3, -, -, h6, -, -, h9⟩ := place_front hS hfront hend
    have hcapW : ∀ b : Bool, (if b then (W.push c.bytes_).close else W.push c.bytes_).capacity_
        = W.capacity_ := by
      intro b
      cases b
      · exact ByteStream.push_capacity _ _
      · exact ByteStream.push_capacity _ _
    have hbufW : ∀ b : Bool, (if b then (W.push c.bytes_).close else W.push c.bytes_).buf
        = (W.push c.bytes_).buf := by
      intro b
      cases b <;> rfl
    refine ⟨_, _, h9, ⟨⟨?_, ?_, ?_, h3.2.2, h6⟩, ?_⟩, rfl, hcapW _⟩
    · rw [hcapW]; exact hS.cap
    · rw [hcapW, hbufW]; exact ByteStream.push_buf_le _ _ hS.buf_le
    · show 0 ≤ c.index_ + c.len_
      have := h3.1
      have := h3.len_nonneg
      omega
    · intro he hr
      have he' : R.ended_ = true := he
      have hr' : rest = [] := hr
      show (if rest.isEmpty && R.ended_ then (W.push c.bytes_).close
        else W.push c.bytes_).ended_ = true
      rw [hr', he']
      rfl
  · obtain ⟨before, c, pre, rest, -, -, -, -, -, -, -, -, -, -, hout⟩ := place_back hS hback hend
    have hWinv : ∀ bs : List Buf_Record, bs ≠ [] → Sep R.buf_beginning_ bs →
        Inv { R with buf_ := bs } W := by
      intro bs hbs hsp
      exact ⟨⟨hS.cap, hS.buf_le, hS.nb_nonneg, hS.nb_lt, hsp⟩, fun _ h => absurd h hbs⟩
    rcases hout with ⟨init, p, -, -, hsep, hpl⟩ | ⟨-, hsep, hpl⟩
    · exact ⟨_, _, hpl, hWinv _ (by simp) hsep, rfl, rfl⟩
    · exact ⟨_, _, hpl, hWinv _ (by simp) hsep, rfl, rfl⟩

theorem trimRight_inv {R : Reassembler} {W : ByteStream} {fi : Nat} {d : List Char}
    (is_last_substring : Bool) (hS : Shape R W) (hfi : R.buf_beginning_ ≤ (fi : Int))
    (hend : (fi : Int) + (d.length : Int) < 2147483648) :
    ∃ R' W', trimRight R fi d is_last_substring W = some (R', W') ∧ Inv R' W' ∧
      W'.capacity_ = W.capacity_ := by
  unfold trimRight
  split
  · have hlen : ((d.take (wrapU64 ((W.available_capacity : Int) - (fi : Int)
        + R.buf_beginning_))).length : Int) ≤ d.length := by
      simp only [List.length_take]
      omega
    obtain ⟨R', W', h1, h2, _, h4⟩ := place_inv (d := d.take (wrapU64
      ((W.available_capacity : Int) - (fi : Int) + R.buf_beginning_))) hS hfi (by omega)
    exact ⟨R', W', h1, h2, h4⟩
  · split
    · have hS' : Shape { R with ended_ := true } W :=
        ⟨hS.cap, hS.buf_le, hS.nb_nonneg, hS.nb_lt, hS.sep⟩
      obtain ⟨R', W', h1, h2, _, h4⟩ := place_inv (d := d) hS' hfi hend
      exact ⟨R', W', h1, h2, h4⟩
    · obtain ⟨R', W', h1, h2, _, h4⟩ := place_inv (d := d) hS hfi hend
      exact ⟨R', W', h1, h2, h4⟩

/-- Below 2^31 an `insert` call returns and keeps the invariant. -/
theorem insert_inv {R : Reassembler} {W : ByteStream} (fi : Nat) (d : List Char)
    (is_last_substring : Bool) (hI : Inv R W) (hend : fi + d.length < 2147483648) :
    ∃ R' W', insert R fi d is_last_substring W = some (R', W') ∧ Inv R' W' ∧
      W'.capacity_ = W.capacity_ := by
  have hS := hI.toShape
  have hnb := hS.nb_nonneg
  have hnb2 := hS.nb_lt
  have eb : (wrapU64 R.buf_beginning_ : Int) = R.buf_beginning_ :=
    wrapU64_of_range hnb (by omega)
  unfold insert
  split
  · exact ⟨R, W, rfl, hI, rfl⟩
  · split
    · rename_i hlt
      split
      · exact ⟨R, W, rfl, hI, rfl⟩
      · rename_i hstale
        have es : (wrapU64 ((fi : Int) + (d.length : Int)) : Int) = (fi : Int) + d.length :=
          wrapU64_of_range (by omega) (by omega)
        have ep : (wrapU64 (R.buf_beginning_ - (fi : Int)) : Int) = R.buf_beginning_ - fi :=
          wrapU64_of_range (by omega) (by omega)
        unfold substrFrom
        rw [if_pos (by omega)]
        simp only []
        exact trimRight_inv is_last_substring hS (by omega)
          (by simp only [List.length_drop]; omega)
    · rename_i hge
      exact trimRight_inv is_last_substring hS (by omega) (by omega)

end Reassembler

theorem pop_inv {R : Reassembler} {W : ByteStream} (len : Nat) (hI : Inv R W) :
    Inv R (W.pop len) := by
  refine ⟨⟨?_, ?_, hI.nb_nonneg, hI.nb_lt, hI.sep⟩, ?_⟩
  · rw [ByteStream.pop_capacity]; exact hI.cap
  · rw [ByteStream.pop_capacity]
    exact le_trans (ByteStream.pop_buf_le _ _) hI.buf_le
  · intro he hb
    have := hI.closed he hb
    unfold ByteStream.pop
    split <;> exact this

theorem step_inv {R : Reassembler} {W : ByteStream} (c : Call) (hI : Inv R W)
    (hc : c.InRange) :
    ∃ R' W', step (R, W) c = some (R', W') ∧ Inv R' W' ∧ W'.capacity_ = W.capacity_ := by
  cases c with
  | insert fi d l => exact Reassembler.insert_inv fi d l hI hc
  | pop len => exact ⟨R, W.pop len, rfl, pop_inv len hI, ByteStream.pop_capacity _ _⟩

theorem run_inv (calls : List Call) :
    ∀ {R : Reassembler} {W : ByteStream}, Inv R W → (∀ c ∈ calls, c.InRange) →
      ∃ R' W', run (R, W) calls = some (R', W') ∧ Inv R' W' ∧ W'.capacity_ = W.capacity_ := by
  induction calls with
  | nil => intro R W hI _; exact ⟨R, W, rfl, hI, rfl⟩
  | cons c cs ih =>
    intro R W hI hall
    obtain ⟨R1, W1, h1, h2, h3⟩ := step_inv c hI (hall c (by simp))
    obtain ⟨R2, W2, h4, h5, h6⟩ := ih h2 (fun c' hc' => hall c' (by simp [hc']))
    exact ⟨R2, W2, by rw [run_cons_of_step h1]; exact h4, h5, by rw [h6, h3]⟩

theorem fresh_inv {capacity : Nat} (hcap : capacity < 9223372036854775808) :
    Inv Reassembler.fresh (ByteStream.ctor capacity) :=
  ⟨⟨hcap, Nat.zero_le _, le_refl _, by decide, trivial⟩, fun h => by cases h⟩

theorem Reachable.inv {capacity : Nat} {R : Reassembler} {W : ByteStream}
    (hcap : capacity < 9223372036854775808) (h : Reachable capacity R W) :
    Inv R W ∧ W.capacity_ = capacity := by
  obtain ⟨calls, hall, hrun⟩ := h
  obtain ⟨R', W', h1, h2, h3⟩ := run_inv calls (fresh_inv hcap) hall
  rw [hrun] at h1
  cases h1
  exact ⟨h2, h3⟩

/-! ## `insert` below 2^31 in one piece -/

namespace Reassembler

/-- `insert` below 2^31, in one piece: a fragment at or past `window_end`, or
wholly before `next_index`, changes nothing; any other fragment is clipped to
the window and placed, and `ended_` is set first when the fragment carries the
last-fragment mark and does not extend past `window_end`. -/
theorem insert_eq_place {R : Reassembler} {W : ByteStream} (hS : Shape R W) (fi : Nat)
    (d : List Char) (is_last_substring : Bool) (hend : fi + d.length < 2147483648) :
    insert R fi d is_last_substring W =
      if R.buf_beginning_ + (W.available_capacity : Int) ≤ (fi : Int) ∨
          ((fi : Int) < R.buf_beginning_ ∧ (fi : Int) + (d.length : Int) ≤ R.buf_beginning_) then
        some (R, W)
      else
        place { R with ended_ := R.ended_ ||
            (is_last_substring &&
              decide ((fi : Int) + (d.length : Int)
                ≤ R.buf_beginning_ + (W.available_capacity : Int))) }
          (clipStart R fi) (clipData R W fi d) W := by
  have hnb := hS.nb_nonneg
  have hnb2 := hS.nb_lt
  have hav := ByteStream.available_capacity_eq hS.buf_le (by have := hS.cap; omega)
  have hcap := hS.cap
  have hble := hS.buf_le
  unfold clipStart clipData
  generalize hA : W.available_capacity = A at *
  have eb : (wrapU64 R.buf_beginning_ : Int) = R.buf_beginning_ :=
    wrapU64_of_range hnb (by omega)
  have ew : (wrapU64 (R.buf_beginning_ + (A : Int)) : Int) = R.buf_beginning_ + A :=
    wrapU64_of_range (by omega) (by omega)
  have es : (wrapU64 ((fi : Int) + (d.length : Int)) : Int) = (fi : Int) + d.length :=
    wrapU64_of_range (by omega) (by omega)
  unfold insert
  rw [hA]
  by_cases h1 : fi ≥ wrapU64 (R.buf_beginning_ + (A : Int))
  · rw [if_pos h1, if_pos (Or.inl (by omega))]
  · rw [if_neg h1]
    by_cases h2 : fi < wrapU64 R.buf_beginning_
    · rw [if_pos h2]
      by_cases h3 : wrapU64 ((fi : Int) + (d.length : Int)) ≤ wrapU64 R.buf_beginning_
      · rw [if_pos h3, if_pos (Or.inr ⟨by omega, by omega⟩)]
      · rw [if_neg h3, if_neg (by omega)]
        have ep : (wrapU64 (R.buf_beginning_ - (fi : Int)) : Int) = R.buf_beginning_ - fi :=
          wrapU64_of_range (by omega) (by omega)
        have ep' : wrapU64 (R.buf_beginning_ - (fi : Int)) = R.buf_beginning_.toNat - fi := by
          omega
        have eb' : wrapU64 R.buf_beginning_ = R.buf_beginning_.toNat := by omega
        unfold substrFrom
        rw [if_pos (by omega)]
        simp only []
        have hmax : max fi R.buf_beginning_.toNat = R.buf_beginning_.toNat := by omega
        rw [ep', eb', hmax]
        unfold trimRight
        rw [hA]
        have e1 : (wrapU64 (((R.buf_beginning_.toNat : Nat) : Int) - R.buf_beginning_
            + (((d.drop (R.buf_beginning_.toNat - fi)).length : Nat) : Int)) : Int)
            = (d.length : Int) - (R.buf_beginning_ - fi) := by
          rw [List.length_drop]
          rw [wrapU64_of_range (by omega) (by omega)]
          omega
        have e2 : wrapU64 ((A : Int) - ((R.buf_beginning_.toNat : Nat) : Int)
            + R.buf_beginning_) = A := by
          have := wrapU64_of_range (n := (A : Int) - ((R.buf_beginning_.toNat : Nat) : Int)
            + R.buf_beginning_) (by omega) (by omega)
          omega
        have e3 : (R.buf_beginning_ + (A : Int)).toNat - R.buf_beginning_.toNat = A := by
          omega
        rw [e2, e3]
        by_cases htr : (fi : Int) + (d.length : Int) ≤ R.buf_beginning_ + (A : Int)
        · rw [if_neg (by omega)]
          have hfull : (d.drop (R.buf_beginning_.toNat - fi)).take A
              = d.drop (R.buf_beginning_.toNat - fi) :=
            List.take_of_length_le (by rw [List.length_drop]; omega)
          rw [hfull]
          cases is_last_substring
          · simp
          · simp [htr]
        · rw [if_pos (by omega)]
          simp [htr]
    · rw [if_neg h2, if_neg (by omega)]
      have hmax : max fi R.buf_beginning_.toNat = fi := by omega
      have hdrop : R.buf_beginning_.toNat - fi = 0 := by omega
      rw [hmax, hdrop, List.drop_zero]
      unfold trimRight
      rw [hA]
      have e1 : (wrapU64 ((fi : Int) - R.buf_beginning_ + (d.length : Int)) : Int)
          = (fi : Int) - R.buf_beginning_ + d.length :=
        wrapU64_of_range (by omega) (by omega)
      have e3 : wrapU64 ((A : Int) - (fi : Int) + R.buf_beginning_)
          = (R.buf_beginning_ + (A : Int)).toNat - fi := by
        have := wrapU64_of_range (n := (A : Int) - (fi : Int) + R.buf_beginning_)
          (by omega) (by omega)
        omega
      rw [e3]
      by_cases htr : (fi : Int) + (d.length : Int) ≤ R.buf_beginning_ + (A : Int)
      · rw [if_neg (by omega)]
        have hfull : d.take ((R.buf_beginning_ + (A : Int)).toNat - fi) = d :=
          List.take_of_length_le (by omega)
        rw [hfull]
        cases is_last_substring
        · simp
        · simp [htr]
      · rw [if_pos (by omega)]
        simp [htr]

end Reassembler

namespace ByteStream

theorem push_fits {s : ByteStream} {data : List Char}
    (h : s.buf.length + data.length ≤ s.capacity_) :
    s.push data = { s with pushed_len := s.pushed_len + data.length, buf := s.buf ++ data } := by
  unfold push
  rw [if_pos h]

end ByteStream

namespace Reassembler

theorem clip_facts {R : Reassembler} {W : ByteStream} (hS : Shape R W) {fi : Nat}
    {d : List Char}
    (hin : ¬ (R.buf_beginning_ + (W.available_capacity : Int) ≤ (fi : Int) ∨
      ((fi : Int) < R.buf_beginning_ ∧ (fi : Int) + (d.length : Int) ≤ R.buf_beginning_))) :
    R.buf_beginning_ ≤ (clipStart R fi : Int) ∧ (fi : Int) ≤ (clipStart R fi : Int) ∧
    ((clipStart R fi : Int) = fi ∨ (clipStart R fi : Int) = R.buf_beginning_) ∧
    (clipStart R fi : Int) + ((clipData R W fi d).length : Int) ≤ (fi : Int) + (d.length : Int) ∧
    (clipStart R fi : Int) + ((clipData R W fi d).length : Int)
      ≤ R.buf_beginning_ + (W.available_capacity : Int) ∧
    ((clipStart R fi : Int) + ((clipData R W fi d).length : Int) = (fi : Int) + (d.length : Int) ∨
      (clipStart R fi : Int) + ((clipData R W fi d).length : Int)
        = R.buf_beginning_ + (W.available_capacity : Int)) := by
  have hnb := hS.nb_nonneg
  unfold clipStart clipData
  rw [List.length_take, List.length_drop]
  omega

/-- The grown record of the in-order branch ends inside the window when the
fragment and the pending records do. -/
theorem front_end_le {R : Reassembler} {W : ByteStream} (hF : Flow R W) {x : Int}
    {c : Buf_Record} {pre rest : List Buf_Record} (hbuf : R.buf_ = pre ++ rest)
    (hx : x ≤ R.buf_beginning_ + (W.available_capacity : Int))
    (h8 : c.index_ + c.len_ = x ∨ ∃ r ∈ pre, c.index_ + c.len_ = r.index_ + r.len_) :
    c.index_ + c.len_ ≤ R.buf_beginning_ + (W.available_capacity : Int) := by
  rcases h8 with h | ⟨r, hr, h⟩
  · omega
  · have := hF.window r (by rw [hbuf]; simp [hr])
    omega

/-- One `insert` call below 2^31 keeps the bookkeeping, does not move
`next_index` back, and leaves `window_end` where it was. -/
theorem insert_flow {R R' : Reassembler} {W W' : ByteStream} (hI : Inv R W) (hF : Flow R W)
    (fi : Nat) (d : List Char) (is_last_substring : Bool) (hend : fi + d.length < 2147483648)
    (h : insert R fi d is_last_substring W = some (R', W')) :
    Flow R' W' ∧ R.buf_beginning_ ≤ R'.buf_beginning_ ∧
      R'.buf_beginning_ + (W'.available_capacity : Int)
        = R.buf_beginning_ + (W.available_capacity : Int) ∧
      W'.poped_len = W.poped_len ∧
      W'.buf.length = W.buf.length + (R'.buf_beginning_ - R.buf_beginning_).toNat ∧
      W'.buf.take W.buf.length = W.buf := by
  have hS := hI.toShape
  rw [insert_eq_place hS fi d is_last_substring hend] at h
  split at h
  · cases h
    exact ⟨hF, le_refl _, rfl, rfl, by simp, by simp⟩
  · rename_i hin
    obtain ⟨hc1, hc2, hc3, hc4, hc5, hc6⟩ := clip_facts hS hin
    generalize clipStart R fi = fi' at *
    generalize clipData R W fi d = d' at *
    generalize hR1 : ({ R with ended_ := R.ended_ || (is_last_substring &&
      decide ((fi : Int) + (d.length : Int)
        ≤ R.buf_beginning_ + (W.available_capacity : Int))) } : Reassembler) = R1 at h
    have hnb1 : R1.buf_beginning_ = R.buf_beginning_ := by rw [← hR1]
    have hbuf1 : R1.buf_ = R.buf_ := by rw [← hR1]
    have hS1 : Shape R1 W := by
      rw [← hR1]
      exact ⟨hS.cap, hS.buf_le, hS.nb_nonneg, hS.nb_lt, hS.sep⟩
    have hF1 : Flow R1 W := by
      rw [← hR1]
      exact ⟨hF.pushed, hF.counters, hF.window⟩
    have hav := ByteStream.available_capacity_eq hS.buf_le (by have := hS.cap; omega)
    have hend' : (fi' : Int) + (d'.length : Int) < 2147483648 := by omega
    rcases eq_or_lt_of_le hc1 with hfront | hback
    · obtain ⟨c, pre, rest, h1, h2, h3, h4, h5, h6, h7, h8, h9⟩ :=
        place_front hS1 (by rw [hnb1]; exact hfront) hend'
      rw [h9] at h
      simp only [Option.some.injEq, Prod.mk.injEq] at h
      obtain ⟨hR', hW'⟩ := h
      have hce := front_end_le hF1 h2 (x := (fi' : Int) + d'.length)
        (by rw [hnb1]; omega) h8
      rw [hnb1] at hce
      clear h8
      have hble := hS.buf_le
      have hnb := hS.nb_nonneg
      have hlen : c.len_ = (c.bytes_.length : Int) := h3.2.1
      have hfit : W.buf.length + c.bytes_.length ≤ W.capacity_ := by omega
      have hpush := ByteStream.push_fits hfit
      have hWbuf : W'.buf = W.buf ++ c.bytes_ := by
        rw [← hW', hpush]
        split <;> rfl
      have hWpushed : W'.pushed_len = W.pushed_len + c.bytes_.length := by
        rw [← hW', hpush]
        split <;> rfl
      have hWpoped : W'.poped_len = W.poped_len := by
        rw [← hW', hpush]
        split <;> rfl
      have hWcap : W'.capacity_ = W.capacity_ := by
        rw [← hW', hpush]
        split <;> rfl
      have hRnb : R'.buf_beginning_ = c.index_ + c.len_ := by rw [← hR']
      have hRbuf : R'.buf_ = rest := by rw [← hR']
      have hav' : (W'.available_capacity : Int) = (W.available_capacity : Int) - c.len_ := by
        have hle' : W'.buf.length ≤ W'.capacity_ := by
          rw [hWbuf, hWcap, List.length_append]; exact hfit
        have := ByteStream.available_capacity_eq hle' (by rw [hWcap]; have := hS.cap; omega)
        rw [this, hav, hWcap, hWbuf, List.length_append]
        omega
      have hp := hF.pushed
      have hcn := hF.counters
      refine ⟨⟨?_, ?_, ?_⟩, ?_, ?_, hWpoped, ?_, ?_⟩
      · rw [hWpushed, hRnb]; push_cast; omega
      · rw [hWpushed, hWpoped, hWbuf, List.length_append]; omega
      · intro r hr
        rw [hRbuf] at hr
        have := hF.window r (by rw [← hbuf1, h2]; simp [hr])
        rw [hRnb, hav']
        omega
      · rw [hRnb]; omega
      · rw [hRnb, hav']; omega
      · rw [hWbuf, List.length_append, hRnb]; omega
      · rw [hWbuf, List.take_left]
    · obtain ⟨before, c, pre, rest, h2, hb1, hb2, h1, h3, h4, h5, h6, h7, h8, h9⟩ :=
        place_back hS1 (by rw [hnb1]; exact hback) hend'
      have hce := front_end_le (R := ⟨R.buf_beginning_, R.ended_, pre ++ rest⟩) (W := W)
        ⟨hF.pushed, hF.counters, fun r hr => hF.window r (by
          rw [← hbuf1, h2]; exact List.mem_append_right _ hr)⟩ rfl
        (x := (fi' : Int) + d'.length) (by show _ ≤ R.buf_beginning_ + _; omega) h8
      have hce' : c.index_ + c.len_ ≤ R.buf_beginning_ + (W.available_capacity : Int) := hce
      clear h8
      rcases h9 with ⟨init, p, hbe, htouch, _, hpl⟩ | ⟨_, _, hpl⟩
      · rw [hpl] at h
        simp only [Option.some.injEq, Prod.mk.injEq] at h
        obtain ⟨hR', hW'⟩ := h
        subst hW'
        have hRnb : R'.buf_beginning_ = R.buf_beginning_ := by rw [← hR', hnb1]
        have hRbuf : R'.buf_ = init ++ merged p c :: rest := by rw [← hR']
        refine ⟨⟨by rw [hRnb]; exact hF.pushed, hF.counters, ?_⟩, by rw [hRnb], by rw [hRnb],
          rfl, by rw [hRnb]; simp, by simp⟩
        intro r hr
        rw [hRbuf] at hr
        rw [hRnb]
        have hold : ∀ q ∈ R.buf_, q.index_ + q.len_
            ≤ R.buf_beginning_ + (W.available_capacity : Int) := hF.window
        rw [← hbuf1, h2, hbe] at hold
        rcases List.mem_append.1 hr with hr | hr
        · exact hold r (by simp [hr])
        · rcases List.mem_cons.1 hr with rfl | hr
          · rw [merged_end]
            exact max_le (hold p (by simp)) hce'
          · exact hold r (by simp [hr])
      · rw [hpl] at h
        simp only [Option.some.injEq, Prod.mk.injEq] at h
        obtain ⟨hR', hW'⟩ := h
        subst hW'
        have hRnb : R'.buf_beginning_ = R.buf_beginning_ := by rw [← hR', hnb1]
        have hRbuf : R'.buf_ = before ++ c :: rest := by rw [← hR']
        refine ⟨⟨by rw [hRnb]; exact hF.pushed, hF.counters, ?_⟩, by rw [hRnb], by rw [hRnb],
          rfl, by rw [hRnb]; simp, by simp⟩
        intro r hr
        rw [hRbuf] at hr
        rw [hRnb]
        have hold : ∀ q ∈ R.buf_, q.index_ + q.len_
            ≤ R.buf_beginning_ + (W.available_capacity : Int) := hF.window
        rw [← hbuf1, h2] at hold
        rcases List.mem_append.1 hr with hr | hr
        · exact hold r (by simp [hr])
        · rcases List.mem_cons.1 hr with rfl | hr
          · exact hce'
          · exact hold r (by simp [hr])

/-- The three ways an `insert` call below 2^31 ends.
* Discarded: the fragment is at or past `window_end` or wholly before
  `next_index`; nothing changes.
* Delivered: the clipped fragment starts at `next_index`; it absorbs the pending
  records `pre`, the grown record `c` is appended to the channel, and the channel
  is closed when nothing is pending and `ended_` is set.
* Stored: the clipped fragment starts after `next_index`; it absorbs the records
  `pre` that follow it, is merged into the record `p` before it when it touches
  `p`, and the result takes their place in the pending list. -/
theorem insert_cases {R R' : Reassembler} {W W' : ByteStream} (hI : Inv R W) (hF : Flow R W)
    (fi : Nat) (d : List Char) (is_last_substring : Bool) (hend : fi + d.length < 2147483648)
    (h : insert R fi d is_last_substring W = some (R', W')) :
    ((R.buf_beginning_ + (W.available_capacity : Int) ≤ (fi : Int) ∨
        ((fi : Int) < R.buf_beginning_ ∧ (fi : Int) + (d.length : Int) ≤ R.buf_beginning_)) ∧
      R' = R ∧ W' = W) ∨
    (¬ (R.buf_beginning_ + (W.available_capacity : Int) ≤ (fi : Int) ∨
        ((fi : Int) < R.buf_beginning_ ∧ (fi : Int) + (d.length : Int) ≤ R.buf_beginning_)) ∧
      ∃ c pre rest, (clipStart R fi : Int) = R.buf_beginning_ ∧ R.buf_ = pre ++ rest ∧
        absorb ⟨clipStart R fi, (clipData R W fi d).length, clipData R W fi d⟩ (pre ++ rest)
          = some (c, rest) ∧
        c.Good ∧ c.index_ = R.buf_beginning_ ∧
        (clipStart R fi : Int) + ((clipData R W fi d).length : Int) ≤ c.index_ + c.len_ ∧
        c.index_ + c.len_ ≤ R.buf_beginning_ + (W.available_capacity : Int) ∧
        (∀ r ∈ pre, r.index_ + r.len_ ≤ c.index_ + c.len_) ∧
        R' = ⟨c.index_ + c.len_, endedAfter R W fi d is_last_substring, rest⟩ ∧
        W' = { W with
          pushed_len := W.pushed_len + c.bytes_.length,
          buf := W.buf ++ c.bytes_,
          ended_ := W.ended_ || (rest.isEmpty && endedAfter R W fi d is_last_substring) }) ∨
    (¬ (R.buf_beginning_ + (W.available_capacity : Int) ≤ (fi : Int) ∨
        ((fi : Int) < R.buf_beginning_ ∧ (fi : Int) + (d.length : Int) ≤ R.buf_beginning_)) ∧
      ∃ before c pre rest, R.buf_beginning_ < (clipStart R fi : Int) ∧
        R.buf_ = before ++ (pre ++ rest) ∧
        (∀ r ∈ before, r.index_ < (clipStart R fi : Int)) ∧
        (∀ r ∈ pre ++ rest, (clipStart R fi : Int) ≤ r.index_) ∧
        absorb ⟨clipStart R fi, (clipData R W fi d).length, clipData R W fi d⟩ (pre ++ rest)
          = some (c, rest) ∧
        c.Good ∧ c.index_ = (clipStart R fi : Int) ∧
        (clipStart R fi : Int) + ((clipData R W fi d).length : Int) ≤ c.index_ + c.len_ ∧
        c.index_ + c.len_ ≤ R.buf_beginning_ + (W.available_capacity : Int) ∧
        (∀ r ∈ pre, r.index_ + r.len_ ≤ c.index_ + c.len_) ∧
        W' = W ∧
        ((∃ init p, before = init ++ [p] ∧ c.index_ ≤ p.index_ + p.len_ ∧
            R' = ⟨R.buf_beginning_, endedAfter R W fi d is_last_substring,
              init ++ merged p c :: rest⟩) ∨
          ((∀ p ∈ before.getLast?, p.index_ + p.len_ < c.index_) ∧
            R' = ⟨R.buf_beginning_, endedAfter R W fi d is_last_substring,
              before ++ c :: rest⟩))) := by
  have hS := hI.toShape
  rw [insert_eq_place hS fi d is_last_substring hend] at h
  split at h
  · rename_i hout
    cases h
    exact Or.inl ⟨hout, rfl, rfl⟩
  · rename_i hin
    right
    obtain ⟨hc1, hc2, hc3, hc4, hc5, hc6⟩ := clip_facts hS (d := d) hin
    have hR1 : ({ R with ended_ := R.ended_ || (is_last_substring &&
        decide ((fi : Int) + (d.length : Int)
          ≤ R.buf_beginning_ + (W.available_capacity : Int))) } : Reassembler)
        = ⟨R.buf_beginning_, endedAfter R W fi d is_last_substring, R.buf_⟩ := rfl
    rw [hR1] at h
    generalize endedAfter R W fi d is_last_substring = e' at h ⊢
    generalize clipStart R fi = fi' at *
    generalize clipData R W fi d = d' at *
    have hS1 : Shape ⟨R.buf_beginning_, e', R.buf_⟩ W :=
      ⟨hS.cap, hS.buf_le, hS.nb_nonneg, hS.nb_lt, hS.sep⟩
    have hF1 : Flow ⟨R.buf_beginning_, e', R.buf_⟩ W := ⟨hF.pushed, hF.counters, hF.window⟩
    have hav := ByteStream.available_capacity_eq hS.buf_le (by have := hS.cap; omega)
    have hend' : (fi' : Int) + (d'.length : Int) < 2147483648 := by omega
    rcases eq_or_lt_of_le hc1 with hfront | hback
    · left
      obtain ⟨c, pre, rest, h1, h2, h3, h4, h5, h6, h7, h8, h9⟩ :=
        place_front hS1 hfront hend'
      have h2' : R.buf_ = pre ++ rest := h2
      have hce := front_end_le hF1 h2 (x := (fi' : Int) + d'.length)
        (by show _ ≤ R.buf_beginning_ + _; omega) h8
      have hce' : c.index_ + c.len_ ≤ R.buf_beginning_ + (W.available_capacity : Int) := hce
      clear h8 hce
      have hble := hS.buf_le
      have hnb := hS.nb_nonneg
      have hlen : c.len_ = (c.bytes_.length : Int) := h3.2.1
      have hfit : W.buf.length + c.bytes_.length ≤ W.capacity_ := by omega
      rw [h9, ByteStream.push_fits hfit] at h
      simp only [Option.some.injEq, Prod.mk.injEq] at h
      obtain ⟨hR', hW'⟩ := h
      refine ⟨hin, c, pre, rest, hfront.symm, h2', ?_, h3, by rw [h4]; exact hfront.symm, h5,
        hce', h7, hR'.symm, ?_⟩
      · rw [← h2']; exact h1
      · rw [← hW']
        cases hW : W.ended_ <;> cases hr : rest.isEmpty <;> cases he : e' <;>
          simp [ByteStream.close, hW]
    · right
      obtain ⟨before, c, pre, rest, h2, hb1, hb2, h1, h3, h4, h5, h6, h7, h8, h9⟩ :=
        place_back hS1 hback hend'
      have h2' : R.buf_ = before ++ (pre ++ rest) := h2
      have hce := front_end_le (R := ⟨R.buf_beginning_, R.ended_, pre ++ rest⟩) (W := W)
        ⟨hF.pushed, hF.counters, fun r hr => hF.window r (by
          rw [h2']; exact List.mem_append_right _ hr)⟩ rfl
        (x := (fi' : Int) + d'.length) (by show _ ≤ R.buf_beginning_ + _; omega) h8
      have hce' : c.index_ + c.len_ ≤ R.buf_beginning_ + (W.available_capacity : Int) := hce
      clear h8 hce
      refine ⟨hin, before, c, pre, rest, hback, h2', hb1, hb2, h1, h3, h4, h5, hce', h7, ?_⟩
      rcases h9 with ⟨init, p, hbe, htouch, _, hpl⟩ | ⟨hgap, _, hpl⟩
      · rw [hpl] at h
        simp only [Option.some.injEq, Prod.mk.injEq] at h
        exact ⟨h.2.symm, Or.inl ⟨init, p, hbe, htouch, h.1.symm⟩⟩
      · rw [hpl] at h
        simp only [Option.some.injEq, Prod.mk.injEq] at h
        exact ⟨h.2.symm, Or.inr ⟨hgap, h.1.symm⟩⟩

end Reassembler

/-! ## A last fragment cut at the window edge -/

namespace ByteStream

theorem push_nil {s : ByteStream} (h : s.buf.length ≤ s.capacity_) : s.push [] = s := by
  unfold push
  rw [if_pos (by simpa using h)]
  cases s
  simp

end ByteStream

namespace Reassembler

/-- Lines 35-66 never touch `ended_`, and they close the channel only when
`ended_` is set. -/
theorem place_flags {R R' : Reassembler} {W W' : ByteStream} {fi : Nat} {d : List Char}
    (h : place R fi d W = some (R', W')) :
    R'.ended_ = R.ended_ ∧ (R.ended_ = false → W'.ended_ = W.ended_) := by
  unfold place at h
  simp only [] at h
  split at h
  · split at h
    · cases h
    · rename_i c rest _
      simp only [Option.some.injEq, Prod.mk.injEq] at h
      obtain ⟨h1, h2⟩ := h
      subst h1 h2
      refine ⟨rfl, ?_⟩
      intro he
      rw [he]
      simp only [Bool.and_false, Bool.false_eq_true, if_false]
      exact ByteStream.push_ended _ _
  · split at h
    · cases h
    · split at h
      · simp only [Option.some.injEq, Prod.mk.injEq] at h
        obtain ⟨h1, h2⟩ := h
        subst h1 h2
        exact ⟨rfl, fun _ => rfl⟩
      · split at h
        · split at h
          · cases h
          · simp only [Option.some.injEq, Prod.mk.injEq] at h
            obtain ⟨h1, h2⟩ := h
            subst h1 h2
            exact ⟨rfl, fun _ => rfl⟩
        · simp only [Option.some.injEq, Prod.mk.injEq] at h
          obtain ⟨h1, h2⟩ := h
          subst h1 h2
          exact ⟨rfl, fun _ => rfl⟩

/-- An `insert` call without the last-fragment mark leaves `ended_` as it was,
and it closes the channel only when `ended_` was set before. -/
theorem insert_not_last_flags {R R' : Reassembler} {W W' : ByteStream} {fi : Nat}
    {d : List Char} (h : insert R fi d false W = some (R', W')) :
    R'.ended_ = R.ended_ ∧ (R.ended_ = false → W'.ended_ = W.ended_) := by
  have hkeep : ∀ {fi' : Nat} {d' : List Char},
      trimRight R fi' d' false W = some (R', W') →
      R'.ended_ = R.ended_ ∧ (R.ended_ = false → W'.ended_ = W.ended_) := by
    intro fi' d' h'
    unfold trimRight at h'
    split at h'
    · exact place_flags h'
    · simp only [Bool.false_eq_true, if_false] at h'
      exact place_flags h'
  unfold insert at h
  split at h
  · cases h
    exact ⟨rfl, fun _ => rfl⟩
  · split at h
    · split at h
      · cases h
        exact ⟨rfl, fun _ => rfl⟩
      · split at h
        · cases h
        · exact hkeep h
    · exact hkeep h

/-- In a state of the invariant, placing the empty fragment at `next_index`
changes nothing. -/
theorem place_empty_front {R : Reassembler} {W : ByteStream} (hI : Inv R W) :
    place R (wrapU64 R.buf_beginning_) [] W = some (R, W) := by
  have hnb := hI.nb_nonneg
  have hnb2 := hI.nb_lt
  have eb : (wrapU64 R.buf_beginning_ : Int) = R.buf_beginning_ :=
    wrapU64_of_range hnb (by omega)
  have ei : wrapInt (wrapU64 R.buf_beginning_ : Int) = R.buf_beginning_ := by
    rw [eb]
    exact wrapInt_of_range (by omega) (by omega)
  have hcur : Buf_Record.ctor (wrapInt (wrapU64 R.buf_beginning_ : Int)) []
      = ⟨R.buf_beginning_, 0, []⟩ := by
    rw [ei]
    rfl
  have hgood : (⟨R.buf_beginning_, 0, []⟩ : Buf_Record).Good := ⟨hnb, rfl, by simpa using hnb2⟩
  have habs : absorb ⟨R.buf_beginning_, 0, []⟩ R.buf_ = some (⟨R.buf_beginning_, 0, []⟩, R.buf_) := by
    apply absorb_stop _ hgood
    intro r hr
    have hmem : r ∈ R.buf_ := List.mem_of_mem_head? hr
    have := (Sep.of_mem hI.sep r hmem).1
    simpa using this
  unfold place
  simp only []
  rw [hcur, if_pos rfl, habs]
  simp only [Option.some.injEq, Prod.mk.injEq]
  have hw : wrapInt (R.buf_beginning_ + 0) = R.buf_beginning_ := by
    rw [add_zero]
    exact wrapInt_of_range (by omega) (by omega)
  constructor
  · rw [hw]
  · rw [ByteStream.push_nil hI.buf_le]
    split
    · rename_i hc
      simp only [Bool.and_eq_true, List.isEmpty_iff] at hc
      have := hI.closed hc.2 hc.1
      unfold ByteStream.close
      cases W
      simp only at this
      simp [this]
    · rfl

end Reassembler

/-- The core of C4 on a state of the invariant. -/
theorem Reassembler.insert_truncated_last {R : Reassembler} {W : ByteStream} (hI : Inv R W)
    (first_index : Nat) (data : List Char)
    (hend : first_index + data.length < 2147483648)
    (hpast : R.buf_beginning_ + (W.available_capacity : Int)
      < (first_index : Int) + (data.length : Int)) :
    R.insert first_index data true W
      = R.insert first_index
          (data.take (R.buf_beginning_ + (W.available_capacity : Int) - first_index).toNat)
          false W := by
  have hnb := hI.nb_nonneg
  have hnb2 := hI.nb_lt
  have hav := ByteStream.available_capacity_eq hI.buf_le (by have := hI.cap; omega)
  have hcap := hI.cap
  have hble := hI.buf_le
  generalize hA : W.available_capacity = A at *
  generalize hk : (R.buf_beginning_ + (A : Int) - first_index).toNat = k
  have eb : (wrapU64 R.buf_beginning_ : Int) = R.buf_beginning_ :=
    wrapU64_of_range hnb (by omega)
  have ew : (wrapU64 (R.buf_beginning_ + (A : Int)) : Int) = R.buf_beginning_ + A :=
    wrapU64_of_range (by omega) (by omega)
  unfold Reassembler.insert
  rw [hA]
  by_cases h1 : first_index ≥ wrapU64 (R.buf_beginning_ + (A : Int))
  · rw [if_pos h1, if_pos h1]
  · rw [if_neg h1, if_neg h1]
    have hlen : (data.take k).length = k := by
      rw [List.length_take]
      omega
    by_cases h2 : first_index < wrapU64 R.buf_beginning_
    · rw [if_pos h2, if_pos h2]
      have es : (wrapU64 ((first_index : Int) + (data.length : Int)) : Int)
          = (first_index : Int) + data.length :=
        wrapU64_of_range (by omega) (by omega)
      have es2 : (wrapU64 ((first_index : Int) + ((data.take k).length : Int)) : Int)
          = (first_index : Int) + (data.take k).length :=
        wrapU64_of_range (by omega) (by omega)
      have ep : (wrapU64 (R.buf_beginning_ - (first_index : Int)) : Int)
          = R.buf_beginning_ - first_index :=
        wrapU64_of_range (by omega) (by omega)
      rw [if_neg (by omega)]
      unfold substrFrom
      rw [if_pos (by omega)]
      simp only []
      have eL : Reassembler.trimRight R (wrapU64 R.buf_beginning_)
          (data.drop (wrapU64 (R.buf_beginning_ - (first_index : Int)))) true W
          = Reassembler.place R (wrapU64 R.buf_beginning_)
              ((data.drop (wrapU64 (R.buf_beginning_ - (first_index : Int)))).take A) W := by
        unfold Reassembler.trimRight
        rw [hA]
        have e1 : (wrapU64 ((wrapU64 R.buf_beginning_ : Int) - R.buf_beginning_
            + (((data.drop (wrapU64 (R.buf_beginning_ - (first_index : Int)))).length : Nat)
              : Int)) : Int)
            = (data.length : Int) - (R.buf_beginning_ - first_index) := by
          rw [eb, List.length_drop]
          rw [wrapU64_of_range (by omega) (by omega)]
          omega
        have e2 : wrapU64 ((A : Int) - ((wrapU64 R.buf_beginning_ : Nat) : Int)
            + R.buf_beginning_) = A := by
          rw [eb]
          have := wrapU64_of_range (n := (A : Int) - R.buf_beginning_ + R.buf_beginning_)
            (by omega) (by omega)
          omega
        rw [if_pos (by omega), e2]
      rw [eL]
      by_cases hA0 : A = 0
      · subst hA0
        rw [if_pos (by omega), List.take_zero]
        exact Reassembler.place_empty_front hI
      · rw [if_neg (by omega), if_pos (by omega)]
        simp only []
        unfold Reassembler.trimRight
        rw [hA]
        have e3 : (wrapU64 ((wrapU64 R.buf_beginning_ : Int) - R.buf_beginning_
            + ((((data.take k).drop (wrapU64 (R.buf_beginning_ - (first_index : Int)))).length
              : Nat) : Int)) : Int) = A := by
          rw [eb, List.length_drop, hlen]
          rw [wrapU64_of_range (by omega) (by omega)]
          omega
        rw [if_neg (by omega)]
        simp only [Bool.false_eq_true, if_false]
        congr 1
        rw [List.drop_take]
        congr 1
        omega
    · rw [if_neg h2, if_neg h2]
      unfold Reassembler.trimRight
      rw [hA]
      have e1 : (wrapU64 ((first_index : Int) - R.buf_beginning_ + (data.length : Int)) : Int)
          = (first_index : Int) - R.buf_beginning_ + data.length :=
        wrapU64_of_range (by omega) (by omega)
      have e2 : (wrapU64 ((first_index : Int) - R.buf_beginning_
          + ((data.take k).length : Int)) : Int) = A := by
        rw [hlen]
        rw [wrapU64_of_range (by omega) (by omega)]
        omega
      have e3 : wrapU64 ((A : Int) - (first_index : Int) + R.buf_beginning_) = k := by
        have := wrapU64_of_range (n := (A : Int) - (first_index : Int) + R.buf_beginning_)
          (by omega) (by omega)
        omega
      rw [if_pos (by omega), if_neg (by omega), e3]
      simp only [Bool.false_eq_true, if_false]

/-- C4 (amended). Truncation defers completion.  In every state reached from a
fresh reassembler and channel (capacity below 2^63) by `insert` calls whose
fragments end below 2^31 and by `pop` calls, an `insert` call with
`is_last_substring == true` whose fragment ends below 2^31 and extends past
`window_end = next_index + available_capacity()` returns; it has exactly the
effect of inserting only the part of the fragment below `window_end` without
the last-fragment mark; it leaves the ended flag as it was; and when the ended
flag was not set before the call it leaves the channel's closed flag as it
was. -/
theorem C4_truncated_last_fragment_defers_completion (capacity : Nat) (R : Reassembler)
    (W : ByteStream) (first_index : Nat) (data : List Char)
    (hcap : capacity < 9223372036854775808) (hreach : Reachable capacity R W)
    (hend : first_index + data.length < 2147483648)
    (hpast : R.buf_beginning_ + (W.available_capacity : Int)
      < (first_index : Int) + (data.length : Int)) :
    R.insert first_index data true W
      = R.insert first_index
          (data.take (R.buf_beginning_ + (W.available_capacity : Int) - first_index).toNat)
          false W ∧
    ∃ R' W', R.insert first_index data true W = some (R', W') ∧ R'.ended_ = R.ended_ ∧
      (R.ended_ = false → W'.is_closed = W.is_closed) := by
  have hI := (Reachable.inv hcap hreach).1
  have heq := Reassembler.insert_truncated_last hI first_index data hend hpast
  obtain ⟨R', W', h1, _, _⟩ := Reassembler.insert_inv first_index data true hI hend
  refine ⟨heq, R', W', h1, ?_⟩
  rw [heq] at h1
  exact Reassembler.insert_not_last_flags h1

/-- C4, on the spec's example: capacity 3, insert("abcdef", 0, is_last = true) on
the fresh state delivers exactly "abc", does not close the channel, and is the
call insert("abc", 0, is_last = false). -/
theorem C4_truncated_last_fragment_defers_completion_witness :
    Reachable 3 Reassembler.fresh (ByteStream.ctor 3) ∧
    Reassembler.fresh.insert 0 ['a', 'b', 'c', 'd', 'e', 'f'] true (ByteStream.ctor 3)
      = some (⟨3, false, []⟩, ⟨3, ['a', 'b', 'c'], 3, 0, false, false⟩) ∧
    Reassembler.fresh.insert 0 ['a', 'b', 'c', 'd', 'e', 'f'] true (ByteStream.ctor 3)
      = Reassembler.fresh.insert 0 ['a', 'b', 'c'] false (ByteStream.ctor 3) :=
  ⟨⟨[], by simp, rfl⟩, by decide,
    (C4_truncated_last_fragment_defers_completion 3 Reassembler.fresh (ByteStream.ctor 3) 0
      ['a', 'b', 'c', 'd', 'e', 'f'] (by decide) ⟨[], by simp, rfl⟩ (by decide) (by decide)).1⟩

/-- C4 as stated fails.  Capacity 2: after insert("", 1, is_last = true) the ended
flag is set and the channel is open; the call insert("abc", 0, is_last = true)
extends past `window_end` = 2, is cut to "ab", and closes the channel: the
closed flag does not stay as it was. -/
theorem C4_counterexample_closed_flag_changes :
    run (Reassembler.fresh, ByteStream.ctor 2) [.insert 1 [] true]
      = some (⟨0, true, [⟨1, 0, []⟩]⟩, ⟨2, [], 0, 0, false, false⟩) ∧
    (0 : Int) + (((⟨2, [], 0, 0, false, false⟩ : ByteStream).available_capacity : Nat) : Int)
      < (0 : Int) + 3 ∧
    Reassembler.insert ⟨0, true, [⟨1, 0, []⟩]⟩ 0 ['a', 'b', 'c'] true ⟨2, [], 0, 0, false, false⟩
      = some (⟨2, true, []⟩, ⟨2, ['a', 'b'], 2, 0, true, false⟩) ∧
    (⟨2, [], 0, 0, false, false⟩ : ByteStream).is_closed = false ∧
    (⟨2, ['a', 'b'], 2, 0, true, false⟩ : ByteStream).is_closed = true :=
  ⟨by decide, by decide, by decide, rfl, rfl⟩

/-! ## Agreement with the stream below 2^31 -/

theorem take_drop_append_take (s : List Char) (p a l : Nat) (hp : p ≤ a) (ha : a ≤ s.length) :
    (s.take a).drop p ++ (s.drop a).take l = (s.take (a + l)).drop p := by
  rw [List.take_add, List.drop_append_of_le_length (by rw [List.length_take]; omega)]

namespace Reassembler

theorem merged_slice (s : List Char) {r1 r2 : Buf_Record} (h1 : r1.Good) (h2 : r2.Good)
    (hle : r1.index_ ≤ r2.index_) (hadj : r2.index_ ≤ r1.index_ + r1.len_)
    (hs1 : Slice s r1) (hs2 : Slice s r2) : Slice s (merged r1 r2) := by
  cases r1 with
  | mk x1 y1 b1 =>
    cases r2 with
    | mk x2 y2 b2 =>
      simp only [Buf_Record.Good, Slice, merged] at *
      obtain ⟨h1a, h1b, h1c⟩ := h1
      obtain ⟨h2a, h2b, h2c⟩ := h2
      obtain ⟨hb1, e1⟩ := hs1
      obtain ⟨hb2, e2⟩ := hs2
      obtain ⟨i1, rfl⟩ := Int.eq_ofNat_of_zero_le h1a
      obtain ⟨i2, rfl⟩ := Int.eq_ofNat_of_zero_le h2a
      generalize hl1 : b1.length = l1 at *
      generalize hl2 : b2.length = l2 at *
      subst h1b h2b
      simp only [Int.toNat_ofNat] at e1 e2 ⊢
      rcases le_total ((i2 : Int) + l2) ((i1 : Int) + l1) with hin | hout
      · have hd : b2.drop ((i1 : Int) + (l1 : Int) - (i2 : Int)).toNat = [] :=
          List.drop_eq_nil_of_le (by omega)
        have hm : ((i1 : Int) + (l1 : Int) - (i1 : Int)).toNat = l1 := by omega
        rw [max_eq_left hin, hd, List.append_nil, hm]
        exact ⟨by omega, e1⟩
      · have hk : ((i1 : Int) + (l1 : Int) - (i2 : Int)).toNat = i1 + l1 - i2 := by omega
        have hm : ((i2 : Int) + (l2 : Int) - (i1 : Int)).toNat
            = l1 + (i2 + l2 - (i1 + l1)) := by omega
        rw [max_eq_right hout, hk, hm, List.take_add, List.drop_drop]
        have hk1 : l2 - (i1 + l1 - i2) = i2 + l2 - (i1 + l1) := by omega
        have hk2 : i2 + (i1 + l1 - i2) = i1 + l1 := by omega
        have e2' : b2.drop (i1 + l1 - i2)
            = (s.drop (i1 + l1)).take (i2 + l2 - (i1 + l1)) := by
          rw [e2, List.drop_take, List.drop_drop, hk1, hk2]
        rw [e2', ← e1]
        exact ⟨by omega, rfl⟩

/-- The absorbing loop keeps every property of the growing record that merging
with a stored record keeps. -/
theorem absorb_keeps (P Q : Buf_Record → Prop)
    (hP : ∀ r1 r2 : Buf_Record, r1.Good → r2.Good → r1.index_ ≤ r2.index_ →
      r2.index_ ≤ r1.index_ + r1.len_ → P r1 → Q r2 → P (merged r1 r2)) :
    ∀ (rs : List Buf_Record) (cur : Buf_Record) (lo : Int) (c : Buf_Record)
      (rest : List Buf_Record), cur.Good → Sep lo rs → (∀ r ∈ rs, cur.index_ ≤ r.index_) →
      P cur → (∀ r ∈ rs, Q r) → absorb cur rs = some (c, rest) → P c := by
  intro rs
  induction rs with
  | nil =>
    intro cur lo c rest _ _ _ hc _ h
    simp only [absorb, Option.some.injEq, Prod.mk.injEq] at h
    rw [← h.1]
    exact hc
  | cons it rs ih =>
    intro cur lo c rest hg hsep hge hc hall h
    have e : wrapInt (cur.index_ + cur.len_) = cur.index_ + cur.len_ :=
      wrapInt_of_range (by have := hg.1; have := hg.len_nonneg; omega)
        (by have := hg.2.2; omega)
    obtain ⟨hlo, hit, hrest⟩ := hsep
    unfold absorb at h
    rw [e] at h
    by_cases hreach : it.index_ ≤ cur.index_ + cur.len_
    · have hle : cur.index_ ≤ it.index_ := hge it (by simp)
      rw [if_pos hreach, merge_record_eq hg hit hle hreach] at h
      exact ih (merged cur it) _ c rest (merged_good hg hit hreach) hrest
        (fun r hr => by rw [merged_index]; exact hge r (by simp [hr]))
        (hP cur it hg hit hle hreach hc (hall it (by simp)))
        (fun r hr => hall r (by simp [hr])) h
    · rw [if_neg hreach] at h
      simp only [Option.some.injEq, Prod.mk.injEq] at h
      rw [← h.1]
      exact hc

theorem slice_of_take (s : List Char) {i : Nat} (k : Nat) (hi : i ≤ s.length) :
    Slice s ⟨i, ((s.drop i).take k).length, (s.drop i).take k⟩ := by
  unfold Slice
  simp only [Int.toNat_ofNat]
  constructor
  · rw [List.length_take, List.length_drop]
    omega
  · rw [List.take_eq_take, List.length_take, List.length_drop]
    omega

theorem clip_slice {s : List Char} {R : Reassembler} {W : ByteStream} (hS : Shape R W)
    (hnbs : R.buf_beginning_ ≤ (s.length : Int))
    {fi : Nat} {d : List Char} (hlen : fi + d.length ≤ s.length)
    (hd : d = (s.drop fi).take d.length) :
    Slice s ⟨clipStart R fi, (clipData R W fi d).length, clipData R W fi d⟩ := by
  have hnb := hS.nb_nonneg
  obtain ⟨n, hn⟩ := Int.eq_ofNat_of_zero_le hnb
  have hstart : clipStart R fi = max fi n := by
    unfold clipStart
    rw [hn]
    rfl
  have hdata : ∃ k, clipData R W fi d = (s.drop (max fi n)).take k := by
    unfold clipData
    rw [hn]
    simp only [Int.toNat_ofNat]
    generalize d.length = L at hd
    subst hd
    rw [List.drop_take, List.drop_drop, List.take_take]
    have hm : fi + (n - fi) = max fi n := by omega
    rw [hm]
    exact ⟨_, rfl⟩
  obtain ⟨k, hk⟩ := hdata
  rw [hstart, hk]
  exact slice_of_take s k (by omega)

end Reassembler

theorem pop_flow {R : Reassembler} {W : ByteStream} (len : Nat) (hI : Inv R W)
    (hF : Flow R W) : Flow R (W.pop len) := by
  have hcap := hI.cap
  have hble := hI.buf_le
  have hav := ByteStream.available_capacity_eq hI.buf_le (by omega)
  have hble' : (W.pop len).buf.length ≤ (W.pop len).capacity_ := by
    rw [ByteStream.pop_capacity]
    exact le_trans (ByteStream.pop_buf_le _ _) hble
  have hav' := ByteStream.available_capacity_eq hble'
    (by rw [ByteStream.pop_capacity]; omega)
  have hlen := ByteStream.pop_buf_le W len
  rw [ByteStream.pop_capacity] at hav'
  refine ⟨?_, ?_, ?_⟩
  · have : (W.pop len).pushed_len = W.pushed_len := by
      unfold ByteStream.pop
      split <;> rfl
    rw [this]
    exact hF.pushed
  · have hc := hF.counters
    unfold ByteStream.pop
    split
    · simp only [List.length_drop]
      omega
    · simp only [List.length_nil]
      omega
  · intro r hr
    have := hF.window r hr
    omega

theorem pop_agree {s : List Char} {R : Reassembler} {W : ByteStream} (len : Nat)
    (hF : Flow R W) (hA : Agree s R W) : Agree s R (W.pop len) := by
  have hc := hF.counters
  have hb := hA.bound
  refine ⟨?_, ?_, hA.pending⟩
  · have hd := hA.delivered
    unfold ByteStream.pop
    split
    · simp only []
      rw [hd, List.drop_drop]
    · simp only []
      symm
      apply List.drop_eq_nil_of_le
      rw [List.length_take]
      omega
  · unfold ByteStream.pop
    split <;> exact hb

namespace Reassembler

/-- One `insert` call below 2^31 whose fragment agrees with the stream keeps the
state in agreement with the stream. -/
theorem insert_agree {s : List Char} {R R' : Reassembler} {W W' : ByteStream}
    (hI : Inv R W) (hF : Flow R W) (hA : Agree s R W) (fi : Nat) (d : List Char)
    (is_last_substring : Bool) (hend : fi + d.length < 2147483648)
    (hlen : fi + d.length ≤ s.length) (hd : d = (s.drop fi).take d.length)
    (h : insert R fi d is_last_substring W = some (R', W')) : Agree s R' W' := by
  have hS := hI.toShape
  have hnbs : R.buf_beginning_ ≤ (s.length : Int) := by
    have := hF.pushed
    have := hA.bound
    omega
  have hcur := clip_slice hS hnbs hlen hd
  have hsl : ∀ r1 r2 : Buf_Record, r1.Good → r2.Good → r1.index_ ≤ r2.index_ →
      r2.index_ ≤ r1.index_ + r1.len_ → Slice s r1 → Slice s r2 → Slice s (merged r1 r2) :=
    fun r1 r2 => merged_slice s
  have hcurg : ∀ (hin : ¬ (R.buf_beginning_ + (W.available_capacity : Int) ≤ (fi : Int) ∨
      ((fi : Int) < R.buf_beginning_ ∧ (fi : Int) + (d.length : Int) ≤ R.buf_beginning_))),
      (⟨clipStart R fi, (clipData R W fi d).length, clipData R W fi d⟩ : Buf_Record).Good := by
    intro hin
    obtain ⟨hc1, hc2, hc3, hc4, hc5, hc6⟩ := clip_facts hS (d := d) hin
    exact ⟨by simp, rfl, by simp only; omega⟩
  rcases insert_cases hI hF fi d is_last_substring hend h with
    ⟨_, rfl, rfl⟩ | ⟨hin, c, pre, rest, hst, hbuf, habs, hcg, hci, hce, hcw, hpre, rfl, rfl⟩ |
    ⟨hin, before, c, pre, rest, hst, hbuf, hbl, hge, habs, hcg, hci, hce, hcw, hpre, rfl, hR⟩
  · exact hA
  · have hsep : Sep R.buf_beginning_ (pre ++ rest) := by rw [← hbuf]; exact hS.sep
    have hc : Slice s c := absorb_keeps (Slice s) (Slice s) hsl (pre ++ rest) _ R.buf_beginning_ c rest
      (hcurg hin) hsep
      (fun r hr => by
        have := (Sep.of_mem hsep r hr).1
        show (clipStart R fi : Int) ≤ r.index_
        omega)
      hcur (fun r hr => hA.pending r (by rw [hbuf]; exact hr)) habs
    obtain ⟨hcb, hcbytes⟩ := hc
    have hp := hF.pushed
    have hcn := hF.counters
    have hb := hA.bound
    have hnb := hS.nb_nonneg
    have hcl : c.len_ = (c.bytes_.length : Int) := hcg.2.1
    refine ⟨?_, ?_, ?_⟩
    · show W.buf ++ c.bytes_ = (s.take (W.pushed_len + c.bytes_.length)).drop W.poped_len
      rw [← take_drop_append_take s W.poped_len W.pushed_len c.bytes_.length (by omega) hb,
        ← hA.delivered]
      congr 1
      have e1 : c.index_.toNat = W.pushed_len := by omega
      have e2 : c.len_.toNat = c.bytes_.length := by omega
      rw [hcbytes, e1, e2]
      rw [List.take_eq_take, List.length_take, List.length_drop]
      omega
    · show W.pushed_len + c.bytes_.length ≤ s.length
      omega
    · intro r hr
      exact hA.pending r (by rw [hbuf]; exact List.mem_append_right _ hr)
  · have hsep : Sep R.buf_beginning_ (before ++ (pre ++ rest)) := by rw [← hbuf]; exact hS.sep
    obtain ⟨hsb, hsa⟩ := Sep.append.1 hsep
    have hc : Slice s c := absorb_keeps (Slice s) (Slice s) hsl (pre ++ rest) _ _ c rest
      (hcurg hin) hsa hge
      hcur (fun r hr => hA.pending r (by rw [hbuf]; exact List.mem_append_right _ hr)) habs
    have hold : ∀ r ∈ before ++ (pre ++ rest), Slice s r := by
      intro r hr
      exact hA.pending r (by rw [hbuf]; exact hr)
    refine ⟨hA.delivered, hA.bound, ?_⟩
    rcases hR with ⟨init, p, hbe, htouch, rfl⟩ | ⟨_, rfl⟩
    · intro r hr
      have hr' : r ∈ init ++ merged p c :: rest := hr
      subst hbe
      rcases List.mem_append.1 hr' with hr' | hr'
      · exact hold r (by simp [hr'])
      · rcases List.mem_cons.1 hr' with rfl | hr'
        · have hpg := (Sep.of_mem hsb p (by simp)).2
          have hpi := hbl p (by simp)
          exact merged_slice s hpg hcg (by omega) htouch (hold p (by simp)) hc
        · exact hold r (by simp [hr'])
    · intro r hr
      have hr' : r ∈ before ++ c :: rest := hr
      rcases List.mem_append.1 hr' with hr' | hr'
      · exact hold r (by simp [hr'])
      · rcases List.mem_cons.1 hr' with rfl | hr'
        · exact hc
        · exact hold r (by simp [hr'])

end Reassembler

theorem Call.Agrees.inRange {s : List Char} (hs : s.length < 2147483648) {c : Call}
    (h : c.Agrees s) : c.InRange := by
  cases c with
  | insert fi d l =>
    have := h.1
    show fi + d.length < 2147483648
    omega
  | pop len => trivial

theorem fresh_tracks (s : List Char) {capacity : Nat} (hcap : capacity < 9223372036854775808) :
    Tracks s Reassembler.fresh (ByteStream.ctor capacity) := by
  refine ⟨fresh_inv hcap, ⟨rfl, rfl, ?_⟩, ⟨?_, Nat.zero_le _, ?_⟩⟩
  · intro r hr
    cases hr
  · simp [ByteStream.ctor]
  · intro r hr
    cases hr

/-- One call of a run below 2^31 whose fragment agrees with `s`: it returns, keeps
the invariants, and pushes exactly `s[next_index before, next_index after)`. -/
theorem step_tracks {s : List Char} (hs : s.length < 2147483648) {R : Reassembler}
    {W : ByteStream} (hT : Tracks s R W) (c : Call) (hc : c.Agrees s) :
    ∃ R' W', step (R, W) c = some (R', W') ∧ Tracks s R' W' ∧
      W'.capacity_ = W.capacity_ ∧ R.buf_beginning_ ≤ R'.buf_beginning_ ∧
      c.pushed W W' = (s.drop R.buf_beginning_.toNat).take
        (R'.buf_beginning_ - R.buf_beginning_).toNat := by
  obtain ⟨hI, hF, hA⟩ := hT
  cases c with
  | pop len =>
    refine ⟨R, W.pop len, rfl, ⟨pop_inv len hI, pop_flow len hI hF, pop_agree len hF hA⟩,
      ByteStream.pop_capacity _ _, le_refl _, ?_⟩
    simp [Call.pushed]
  | insert fi d l =>
    obtain ⟨hlen, hd⟩ := hc
    have hend : fi + d.length < 2147483648 := by omega
    obtain ⟨R', W', h1, h2, h3⟩ := Reassembler.insert_inv fi d l hI hend
    obtain ⟨hF', hmono, hwin, hpop, hblen, htake⟩ :=
      Reassembler.insert_flow hI hF fi d l hend h1
    have hA' := Reassembler.insert_agree hI hF hA fi d l hend hlen hd h1
    refine ⟨R', W', h1, ⟨h2, hF', hA'⟩, h3, hmono, ?_⟩
    show W'.buf.drop W.buf.length = _
    have hp := hF.pushed
    have hp' := hF'.pushed
    have hcn := hF.counters
    have hcn' := hF'.counters
    have hb' := hA'.bound
    have hnb := hI.nb_nonneg
    rw [hA'.delivered, List.drop_drop, hpop]
    have e1 : W.poped_len + W.buf.length = R.buf_beginning_.toNat := by omega
    have e2 : W'.pushed_len
        = R.buf_beginning_.toNat + (R'.buf_beginning_ - R.buf_beginning_).toNat := by omega
    rw [e1, e2, List.drop_take]
    congr 1
    omega

theorem List.take_append_take_drop (s : List Char) (a m n : Nat) :
    (s.drop a).take m ++ (s.drop (a + m)).take n = (s.drop a).take (m + n) := by
  rw [List.take_add, List.drop_drop]

/-- A run below 2^31 whose fragments agree with `s`, from any state of the
invariants: it returns, keeps the invariants, and pushes exactly
`s[next_index at the start, next_index at the end)`. -/
theorem run_tracks {s : List Char} (hs : s.length < 2147483648) (calls : List Call) :
    ∀ {R : Reassembler} {W : ByteStream}, Tracks s R W → (∀ c ∈ calls, c.Agrees s) →
      ∃ R' W' log, runPushed (R, W) calls = some ((R', W'), log) ∧
        run (R, W) calls = some (R', W') ∧ Tracks s R' W' ∧
        W'.capacity_ = W.capacity_ ∧ R.buf_beginning_ ≤ R'.buf_beginning_ ∧
        log = (s.drop R.buf_beginning_.toNat).take
          (R'.buf_beginning_ - R.buf_beginning_).toNat := by
  induction calls with
  | nil =>
    intro R W hT _
    exact ⟨R, W, [], rfl, rfl, hT, rfl, le_refl _, by simp⟩
  | cons c cs ih =>
    intro R W hT hall
    obtain ⟨R1, W1, h1, hT1, hc1, hm1, hp1⟩ := step_tracks hs hT c (hall c (by simp))
    obtain ⟨R2, W2, log, h2, h2', hT2, hc2, hm2, hp2⟩ :=
      ih hT1 (fun c' hc' => hall c' (by simp [hc']))
    refine ⟨R2, W2, c.pushed W W1 ++ log, ?_, ?_, hT2, by rw [hc2, hc1], le_trans hm1 hm2, ?_⟩
    · rw [runPushed, h1]
      simp only []
      rw [h2]
    · rw [run_cons_of_step h1]
      exact h2'
    · have hnb := hT.inv.nb_nonneg
      rw [hp1, hp2]
      have e1 : R1.buf_beginning_.toNat
          = R.buf_beginning_.toNat + (R1.buf_beginning_ - R.buf_beginning_).toNat := by omega
      have e2 : (R2.buf_beginning_ - R.buf_beginning_).toNat
          = (R1.buf_beginning_ - R.buf_beginning_).toNat
            + (R2.buf_beginning_ - R1.buf_beginning_).toNat := by omega
      rw [e1, e2]
      exact List.take_append_take_drop s _ _ _

/-- In-order, exactly-once delivery below 2^31.  For every stream `s` shorter
than 2^31 bytes, every capacity below 2^63 and every sequence of `insert` calls
whose fragments agree with `s`, interleaved with `pop` calls, on a fresh
reassembler and channel: every call returns, the bytes pushed into the channel,
in push order, are `s[0, next_index)`, `next_index` equals `bytes_pushed()`, and
the channel buffers `s[bytes_popped(), bytes_pushed())`. -/
theorem delivery_in_order_below_2p31 (s : List Char) (capacity : Nat) (calls : List Call)
    (hs : s.length < 2147483648) (hcap : capacity < 9223372036854775808)
    (hag : ∀ c ∈ calls, c.Agrees s) :
    ∃ R W log, runPushed (Reassembler.fresh, ByteStream.ctor capacity) calls
        = some ((R, W), log) ∧
      log = s.take R.buf_beginning_.toNat ∧
      (W.bytes_pushed : Int) = R.buf_beginning_ ∧
      W.buf = (s.take W.bytes_pushed).drop W.bytes_popped := by
  obtain ⟨R, W, log, h1, _, hT, _, _, hlog⟩ := run_tracks hs calls (fresh_tracks s hcap) hag
  refine ⟨R, W, log, h1, ?_, hT.flow.pushed, hT.agree.delivered⟩
  rw [hlog]
  simp [Reassembler.fresh]

/-! ## Completion below 2^31 -/

theorem endedAfter_eq {R : Reassembler} {W : ByteStream} {fi : Nat} {d : List Char}
    {l : Bool}
    (hin : ¬ (R.buf_beginning_ + (W.available_capacity : Int) ≤ (fi : Int) ∨
      ((fi : Int) < R.buf_beginning_ ∧ (fi : Int) + (d.length : Int) ≤ R.buf_beginning_))) :
    Reassembler.endedAfter R W fi d l = (R.ended_ || (Call.insert fi d l).acceptsLast R W) := by
  unfold Reassembler.endedAfter Call.acceptsLast
  have h1 : (fi : Int) < R.buf_beginning_ + (W.available_capacity : Int) := by omega
  have h2 : ¬ ((fi : Int) < R.buf_beginning_ ∧
      (fi : Int) + (d.length : Int) ≤ R.buf_beginning_) := fun h => hin (Or.inr h)
  simp [h1, h2]

theorem acceptsLast_discarded {R : Reassembler} {W : ByteStream} {fi : Nat} {d : List Char}
    {l : Bool}
    (hout : R.buf_beginning_ + (W.available_capacity : Int) ≤ (fi : Int) ∨
      ((fi : Int) < R.buf_beginning_ ∧ (fi : Int) + (d.length : Int) ≤ R.buf_beginning_)) :
    (Call.insert fi d l).acceptsLast R W = false := by
  unfold Call.acceptsLast
  rcases hout with h | h
  · have : ¬ ((fi : Int) < R.buf_beginning_ + (W.available_capacity : Int)) := by omega
    simp [this]
  · simp [h]

namespace Reassembler

/-- One `insert` call of a run below 2^31 whose fragment agrees with the stream
and carries the last-fragment mark exactly when it ends at the stream's end:
`ended_` becomes set exactly when the call fully accepts a last fragment, and
the completion invariant is kept. -/
theorem insert_completes {s : List Char} {R R' : Reassembler} {W W' : ByteStream}
    (hT : Tracks s R W) (hC : Completes s.length R W) (fi : Nat) (d : List Char) (l : Bool)
    (hend : fi + d.length < 2147483648) (hlen : fi + d.length ≤ s.length)
    (hd : d = (s.drop fi).take d.length) (hmark : l = true ↔ fi + d.length = s.length)
    (h : insert R fi d l W = some (R', W')) :
    Completes s.length R' W' ∧
      R'.ended_ = (R.ended_ || (Call.insert fi d l).acceptsLast R W) := by
  obtain ⟨hI, hF, hA⟩ := hT
  have hS := hI.toShape
  have hA' := insert_agree hI hF hA fi d l hend hlen hd h
  obtain ⟨hF', hmono, -, -, -, -⟩ := insert_flow hI hF fi d l hend h
  have hnbN : R'.buf_beginning_ ≤ (s.length : Int) := by
    have := hF'.pushed
    have := hA'.bound
    omega
  have hendN : ∀ r ∈ R'.buf_, r.index_ + r.len_ ≤ (s.length : Int) :=
    fun r hr => (hA'.pending r hr).1
  rcases insert_cases hI hF fi d l hend h with
    ⟨hout, rfl, rfl⟩ | ⟨hin, c, pre, rest, hst, hbuf, habs, hcg, hci, hce, hcw, hpre, hR, hW⟩ |
    ⟨hin, before, c, pre, rest, hst, hbuf, hbl, hge, habs, hcg, hci, hce, hcw, hpre, hW, hR⟩
  · refine ⟨hC, ?_⟩
    rw [acceptsLast_discarded hout, Bool.or_false]
  · have he := endedAfter_eq (l := l) hin
    obtain ⟨hc1, hc2, hc3, hc4, hc5, hc6⟩ := clip_facts hS (d := d) hin
    have hRnb : R'.buf_beginning_ = c.index_ + c.len_ := by rw [hR]
    have hRbuf : R'.buf_ = rest := by rw [hR]
    have hRe : R'.ended_ = endedAfter R W fi d l := by rw [hR]
    have hK2 : R'.ended_ = true →
        R'.buf_beginning_ = (s.length : Int) ∨
          ∃ r ∈ R'.buf_, r.index_ + r.len_ = (s.length : Int) := by
      intro hte
      rw [hRe, he, Bool.or_eq_true] at hte
      rcases hte with hold | hnew
      · rcases hC.ended hold with hN | ⟨r, hr, hrN⟩
        · left; omega
        · rw [hbuf] at hr
          rcases List.mem_append.1 hr with hr | hr
          · left
            have := hpre r hr
            omega
          · right
            exact ⟨r, by rw [hRbuf]; exact hr, hrN⟩
      · left
        unfold Call.acceptsLast at hnew
        simp only [Bool.and_eq_true, decide_eq_true_eq, Bool.not_eq_true',
          decide_eq_false_iff_not] at hnew
        obtain ⟨⟨⟨hl, -⟩, -⟩, hfit⟩ := hnew
        have := hmark.1 hl
        omega
    refine ⟨⟨hK2, ?_⟩, by rw [hRe, he]⟩
    intro hcl
    have hWe : W'.ended_ = (W.ended_ || (rest.isEmpty && endedAfter R W fi d l)) := by
      rw [hW]
    rw [hWe, Bool.or_eq_true] at hcl
    rcases hcl with hcl | hcl
    · obtain ⟨ho1, ho2⟩ := hC.closed hcl
      refine ⟨by rw [hRe, he, ho1]; rfl, ?_⟩
      omega
    · rw [Bool.and_eq_true] at hcl
      have hte : R'.ended_ = true := by rw [hRe]; exact hcl.2
      refine ⟨hte, ?_⟩
      rcases hK2 hte with hN | ⟨r, hr, -⟩
      · exact hN
      · rw [hRbuf, List.isEmpty_iff.1 hcl.1] at hr
        cases hr
  · have he := endedAfter_eq (l := l) hin
    obtain ⟨hc1, hc2, hc3, hc4, hc5, hc6⟩ := clip_facts hS (d := d) hin
    have hW2 : W = W' := hW.symm
    subst hW2
    have hsep : Sep R.buf_beginning_ (before ++ (pre ++ rest)) := by rw [← hbuf]; exact hS.sep
    have hRnb : R'.buf_beginning_ = R.buf_beginning_ := by
      rcases hR with ⟨_, _, _, _, rfl⟩ | ⟨_, rfl⟩ <;> rfl
    have hRe : R'.ended_ = endedAfter R W fi d l := by
      rcases hR with ⟨_, _, _, _, rfl⟩ | ⟨_, rfl⟩ <;> rfl
    -- the record that now holds the clipped fragment
    have hkey : ∃ m ∈ R'.buf_, c.index_ + c.len_ ≤ m.index_ + m.len_ ∧
        (∀ r ∈ before ++ (pre ++ rest), r ∈ R'.buf_ ∨ r.index_ + r.len_ ≤ m.index_ + m.len_) := by
      rcases hR with ⟨init, p, hbe, htouch, rfl⟩ | ⟨_, rfl⟩
      · refine ⟨merged p c, by simp, by rw [merged_end]; exact le_max_right _ _, ?_⟩
        intro r hr
        subst hbe
        have hmm : ∀ x, x ∈ init ∨ x ∈ rest → x ∈ init ++ merged p c :: rest := by
          intro x hx
          rcases hx with hx | hx
          · exact List.mem_append_left _ hx
          · exact List.mem_append_right _ (List.mem_cons_of_mem _ hx)
        rcases List.mem_append.1 hr with hr | hr
        · rcases List.mem_append.1 hr with hr | hr
          · exact Or.inl (hmm r (Or.inl hr))
          · right
            obtain rfl : r = p := by simpa using hr
            rw [merged_end]
            exact le_max_left _ _
        · rcases List.mem_append.1 hr with hr | hr
          · right
            have := hpre r hr
            rw [merged_end]
            exact le_trans this (le_max_right _ _)
          · exact Or.inl (hmm r (Or.inr hr))
      · refine ⟨c, by simp, le_refl _, ?_⟩
        intro r hr
        rcases List.mem_append.1 hr with hr | hr
        · exact Or.inl (List.mem_append_left _ hr)
        · rcases List.mem_append.1 hr with hr | hr
          · exact Or.inr (hpre r hr)
          · exact Or.inl (List.mem_append_right _ (List.mem_cons_of_mem _ hr))
    obtain ⟨m, hm, hcm, hrest⟩ := hkey
    have hmN := hendN m hm
    refine ⟨⟨?_, ?_⟩, by rw [hRe, he]⟩
    · intro hte
      rw [hRe, he, Bool.or_eq_true] at hte
      rcases hte with hold | hnew
      · rcases hC.ended hold with hN | ⟨r, hr, hrN⟩
        · left; omega
        · right
          rw [hbuf] at hr
          rcases hrest r hr with hr' | hr'
          · exact ⟨r, hr', hrN⟩
          · exact ⟨m, hm, by omega⟩
      · right
        unfold Call.acceptsLast at hnew
        simp only [Bool.and_eq_true, decide_eq_true_eq, Bool.not_eq_true',
          decide_eq_false_iff_not] at hnew
        obtain ⟨⟨⟨hl, -⟩, -⟩, hfit⟩ := hnew
        have := hmark.1 hl
        exact ⟨m, hm, by omega⟩
    · intro hcl
      obtain ⟨ho1, ho2⟩ := hC.closed hcl
      exact ⟨by rw [hRe, he, ho1]; rfl, by omega⟩

end Reassembler

theorem ByteStream.pop_ended (s : ByteStream) (len : Nat) : (s.pop len).ended_ = s.ended_ := by
  unfold ByteStream.pop
  split <;> rfl

theorem run_completes {s : List Char} (hs : s.length < 2147483648) (calls : List Call) :
    ∀ {R : Reassembler} {W : ByteStream}, Tracks s R W → Completes s.length R W →
      (∀ c ∈ calls, c.Agrees s) → (∀ c ∈ calls, c.MarksEnd s.length) →
      ∃ R' W' acc, runAccepted (R, W) calls = some ((R', W'), acc) ∧ Tracks s R' W' ∧
        Completes s.length R' W' ∧ R'.ended_ = (R.ended_ || acc) := by
  induction calls with
  | nil =>
    intro R W hT hC _ _
    exact ⟨R, W, false, rfl, hT, hC, by simp⟩
  | cons c cs ih =>
    intro R W hT hC hag hmk
    obtain ⟨R1, W1, h1, hT1, -, -, -⟩ := step_tracks hs hT c (hag c (by simp))
    have hC1 : Completes s.length R1 W1 ∧ R1.ended_ = (R.ended_ || c.acceptsLast R W) := by
      cases c with
      | pop len =>
        have h1' : some (R, W.pop len) = some (R1, W1) := h1
        simp only [Option.some.injEq, Prod.mk.injEq] at h1'
        obtain ⟨rfl, rfl⟩ := h1'
        refine ⟨⟨hC.ended, ?_⟩, by simp [Call.acceptsLast]⟩
        intro hcl
        rw [ByteStream.pop_ended] at hcl
        exact hC.closed hcl
      | insert fi d l =>
        obtain ⟨hlen, hd⟩ := hag (Call.insert fi d l) (by simp)
        have hm := hmk (Call.insert fi d l) (by simp)
        exact Reassembler.insert_completes hT hC fi d l (by omega) hlen hd hm h1
    obtain ⟨R2, W2, acc, h2, hT2, hC2, he2⟩ :=
      ih hT1 hC1.1 (fun c' hc' => hag c' (by simp [hc'])) (fun c' hc' => hmk c' (by simp [hc']))
    refine ⟨R2, W2, c.acceptsLast R W || acc, ?_, hT2, hC2, ?_⟩
    · rw [runAccepted, h1]
      simp only []
      rw [h2]
    · rw [he2, hC1.2, Bool.or_assoc]

/-- Completion below 2^31.  For every stream `s` of length N < 2^31, every
capacity below 2^63 and every sequence of `insert` calls whose fragments agree
with `s` and carry the last-fragment mark exactly when they end at N,
interleaved with `pop` calls, on a fresh reassembler and channel: every call
returns, and afterwards the channel is closed if and only if some call fully
accepted a last fragment and `next_index == N`. -/
theorem completion_below_2p31 (s : List Char) (capacity : Nat) (calls : List Call)
    (hs : s.length < 2147483648) (hcap : capacity < 9223372036854775808)
    (hag : ∀ c ∈ calls, c.Agrees s) (hmk : ∀ c ∈ calls, c.MarksEnd s.length) :
    ∃ R W acc, runAccepted (Reassembler.fresh, ByteStream.ctor capacity) calls
        = some ((R, W), acc) ∧
      (W.is_closed = true ↔ (acc = true ∧ R.buf_beginning_ = (s.length : Int))) := by
  have hC0 : Completes s.length Reassembler.fresh (ByteStream.ctor capacity) := by
    constructor
    · intro h
      cases h
    · intro h
      cases h
  obtain ⟨R, W, acc, h1, hT, hC, he⟩ := run_completes hs calls (fresh_tracks s hcap) hC0 hag hmk
  have he' : R.ended_ = acc := by
    rw [he]
    rfl
  refine ⟨R, W, acc, h1, ?_, ?_⟩
  · intro hcl
    obtain ⟨h2, h3⟩ := hC.closed hcl
    exact ⟨by rw [← he']; exact h2, h3⟩
  · rintro ⟨hacc, hN⟩
    have hnil : R.buf_ = [] := by
      apply List.eq_nil_iff_forall_not_mem.2
      intro r hr
      obtain ⟨h4, h5⟩ := Sep.of_mem hT.inv.sep r hr
      have h6 := (hT.agree.pending r hr).1
      have h7 := h5.len_nonneg
      omega
    exact hT.inv.closed (by rw [he']; exact hacc) hnil

/-! ## Full coverage below 2^31 -/

namespace Reassembler

/-- An `insert` call below 2^31 whose fragment does not extend past `window_end`
keeps every covered index covered and covers the indices of its fragment. -/
theorem insert_covered {R R' : Reassembler} {W W' : ByteStream} (hI : Inv R W) (hF : Flow R W)
    (fi : Nat) (d : List Char) (l : Bool) (hend : fi + d.length < 2147483648)
    (hfit : (fi : Int) + (d.length : Int) ≤ R.buf_beginning_ + (W.available_capacity : Int))
    (h : insert R fi d l W = some (R', W')) (i : Nat)
    (hi : Covered R i ∨ (fi ≤ i ∧ i < fi + d.length)) : Covered R' i := by
  have hS := hI.toShape
  rcases insert_cases hI hF fi d l hend h with
    ⟨hout, rfl, rfl⟩ | ⟨hin, c, pre, rest, hst, hbuf, habs, hcg, hci, hce, hcw, hpre, hR, hW⟩ |
    ⟨hin, before, c, pre, rest, hst, hbuf, hbl, hge, habs, hcg, hci, hce, hcw, hpre, hW, hR⟩
  · rcases hi with hi | hi
    · exact hi
    · left
      omega
  · obtain ⟨hc1, hc2, hc3, hc4, hc5, hc6⟩ := clip_facts hS (d := d) hin
    have hRnb : R'.buf_beginning_ = c.index_ + c.len_ := by rw [hR]
    have hRbuf : R'.buf_ = rest := by rw [hR]
    unfold Covered
    rw [hRnb, hRbuf]
    rcases hi with (hi | ⟨r, hr, hr1, hr2⟩) | hi
    · left
      omega
    · rw [hbuf] at hr
      rcases List.mem_append.1 hr with hr | hr
      · left
        have := hpre r hr
        omega
      · exact Or.inr ⟨r, hr, hr1, hr2⟩
    · left
      omega
  · obtain ⟨hc1, hc2, hc3, hc4, hc5, hc6⟩ := clip_facts hS (d := d) hin
    have hsep : Sep R.buf_beginning_ (before ++ (pre ++ rest)) := by rw [← hbuf]; exact hS.sep
    have hRnb : R'.buf_beginning_ = R.buf_beginning_ := by
      rcases hR with ⟨_, _, _, _, rfl⟩ | ⟨_, rfl⟩ <;> rfl
    -- the record that now holds the clipped fragment
    have hkey : ∃ m ∈ R'.buf_, m.index_ ≤ c.index_ ∧ c.index_ + c.len_ ≤ m.index_ + m.len_ ∧
        (∀ r ∈ before ++ (pre ++ rest), r ∈ R'.buf_ ∨ (r ∈ pre ∨
          (m.index_ ≤ r.index_ ∧ r.index_ + r.len_ ≤ m.index_ + m.len_))) := by
      rcases hR with ⟨init, p, hbe, htouch, rfl⟩ | ⟨_, rfl⟩
      · have hpi : p.index_ < c.index_ := by
          rw [hci]
          exact hbl p (by rw [hbe]; simp)
        refine ⟨merged p c, by simp, by rw [merged_index]; omega,
          by rw [merged_end]; exact le_max_right _ _, ?_⟩
        intro r hr
        subst hbe
        have hmm : ∀ x, x ∈ init ∨ x ∈ rest → x ∈ init ++ merged p c :: rest := by
          intro x hx
          rcases hx with hx | hx
          · exact List.mem_append_left _ hx
          · exact List.mem_append_right _ (List.mem_cons_of_mem _ hx)
        rcases List.mem_append.1 hr with hr | hr
        · rcases List.mem_append.1 hr with hr | hr
          · exact Or.inl (hmm r (Or.inl hr))
          · right; right
            obtain rfl : r = p := by simpa using hr
            rw [merged_end, merged_index]
            exact ⟨le_refl _, le_max_left _ _⟩
        · rcases List.mem_append.1 hr with hr | hr
          · exact Or.inr (Or.inl hr)
          · exact Or.inl (hmm r (Or.inr hr))
      · refine ⟨c, by simp, le_refl _, le_refl _, ?_⟩
        intro r hr
        rcases List.mem_append.1 hr with hr | hr
        · exact Or.inl (List.mem_append_left _ hr)
        · rcases List.mem_append.1 hr with hr | hr
          · exact Or.inr (Or.inl hr)
          · exact Or.inl (List.mem_append_right _ (List.mem_cons_of_mem _ hr))
    obtain ⟨m, hm, hm1, hm2, hold⟩ := hkey
    unfold Covered
    rw [hRnb]
    rcases hi with (hi | ⟨r, hr, hr1, hr2⟩) | hi
    · exact Or.inl hi
    · right
      rw [hbuf] at hr
      rcases hold r hr with hr' | hr' | ⟨hr3, hr4⟩
      · exact ⟨r, hr', hr1, hr2⟩
      · have h1 := hpre r hr'
        have h2 := hge r (List.mem_append_left _ hr')
        exact ⟨m, hm, by omega, by omega⟩
      · exact ⟨m, hm, by omega, by omega⟩
    · by_cases hlt : (i : Int) < R.buf_beginning_
      · exact Or.inl hlt
      · right
        exact ⟨m, hm, by omega, by omega⟩

end Reassembler

theorem run_covered {s : List Char} (hs : s.length < 2147483648) (calls : List Call) :
    ∀ {R : Reassembler} {W : ByteStream}, Tracks s R W →
      (s.length : Int) ≤ R.buf_beginning_ + (W.available_capacity : Int) →
      (∀ c ∈ calls, c.isInsert) → (∀ c ∈ calls, c.Agrees s) →
      ∃ R' W', run (R, W) calls = some (R', W') ∧ Tracks s R' W' ∧
        W'.poped_len = W.poped_len ∧
        ∀ i, (Covered R i ∨ ∃ c ∈ calls, c.covers i) → Covered R' i := by
  induction calls with
  | nil =>
    intro R W hT _ _ _
    refine ⟨R, W, rfl, hT, rfl, ?_⟩
    intro i hi
    rcases hi with hi | ⟨c, hc, -⟩
    · exact hi
    · cases hc
  | cons c cs ih =>
    intro R W hT hwin hins hag
    obtain ⟨R1, W1, h1, hT1, -, -, -⟩ := step_tracks hs hT c (hag c (by simp))
    cases c with
    | pop len => exact absurd (hins (Call.pop len) (by simp)) (fun h => h)
    | insert fi d l =>
      obtain ⟨hlen, hd⟩ := hag (Call.insert fi d l) (by simp)
      have hend : fi + d.length < 2147483648 := by omega
      have h1' : Reassembler.insert R fi d l W = some (R1, W1) := h1
      obtain ⟨-, -, hw, hpop, -, -⟩ := Reassembler.insert_flow hT.inv hT.flow fi d l hend h1'
      have hcov := Reassembler.insert_covered hT.inv hT.flow fi d l hend (by omega) h1'
      obtain ⟨R2, W2, h2, hT2, hpop2, hcov2⟩ :=
        ih hT1 (by omega) (fun c' hc' => hins c' (by simp [hc']))
          (fun c' hc' => hag c' (by simp [hc']))
      refine ⟨R2, W2, by rw [run_cons_of_step h1]; exact h2, hT2, by rw [hpop2, hpop], ?_⟩
      intro i hi
      apply hcov2 i
      rcases hi with hi | ⟨c', hc', hi⟩
      · exact Or.inl (hcov i (Or.inl hi))
      · rcases List.mem_cons.1 hc' with rfl | hc'
        · exact Or.inl (hcov i (Or.inr hi))
        · exact Or.inr ⟨c', hc', hi⟩

/-- Order preservation under full coverage, below 2^31.  For every stream `s` of
length N < 2^31, every capacity C with N <= C < 2^63, and every sequence of
`insert` calls (no `pop`) on a fresh reassembler and channel whose fragments
agree with `s` and together hold every index of [0, N), in any order and with
any overlaps or duplicates: every call returns, and afterwards the channel
buffers exactly `s` and `bytes_pending() == 0`. -/
theorem full_coverage_below_2p31 (s : List Char) (capacity : Nat) (calls : List Call)
    (hs : s.length < 2147483648) (hcap : capacity < 9223372036854775808)
    (hN : s.length ≤ capacity) (hins : ∀ c ∈ calls, c.isInsert)
    (hag : ∀ c ∈ calls, c.Agrees s) (hcov : ∀ i < s.length, ∃ c ∈ calls, c.covers i) :
    ∃ R W, run (Reassembler.fresh, ByteStream.ctor capacity) calls = some (R, W) ∧
      W.buf = s ∧ R.bytes_pending = 0 := by
  have hav : (ByteStream.ctor capacity).available_capacity = capacity := by
    have := ByteStream.available_capacity_eq (s := ByteStream.ctor capacity)
      (by simp [ByteStream.ctor]) (by simp only [ByteStream.ctor]; omega)
    simpa [ByteStream.ctor] using this
  obtain ⟨R, W, h1, hT, hpop, hc⟩ := run_covered hs calls (fresh_tracks s hcap)
    (by rw [hav]; simp only [Reassembler.fresh]; omega) hins hag
  have hnb := hT.inv.nb_nonneg
  have hp := hT.flow.pushed
  have hb := hT.agree.bound
  have hfront : ∀ r ∈ R.buf_, R.buf_beginning_ < r.index_ :=
    fun r hr => (Sep.of_mem hT.inv.sep r hr).1
  have hall : R.buf_beginning_ = (s.length : Int) := by
    by_contra hne
    have hlt : R.buf_beginning_.toNat < s.length := by omega
    rcases hc R.buf_beginning_.toNat (Or.inr (hcov _ hlt)) with h | ⟨r, hr, hr1, -⟩
    · omega
    · have := hfront r hr
      omega
  have hnil : R.buf_ = [] := by
    apply List.eq_nil_iff_forall_not_mem.2
    intro r hr
    obtain ⟨h4, h5⟩ := Sep.of_mem hT.inv.sep r hr
    have h6 := (hT.agree.pending r hr).1
    have h7 := h5.len_nonneg
    omega
  refine ⟨R, W, h1, ?_, ?_⟩
  · have hd := hT.agree.delivered
    have hp0 : W.poped_len = 0 := by rw [hpop]; rfl
    have hpl : W.pushed_len = s.length := by omega
    rw [hd, hp0, hpl, List.drop_zero, List.take_length]
  · unfold Reassembler.bytes_pending
    rw [hnil]
    rfl

/-! ## Idempotence and merge minimality below 2^31 -/

theorem run_flow (calls : List Call) :
    ∀ {R : Reassembler} {W : ByteStream}, Inv R W → Flow R W → (∀ c ∈ calls, c.InRange) →
      ∀ {R' : Reassembler} {W' : ByteStream}, run (R, W) calls = some (R', W') → Flow R' W' := by
  induction calls with
  | nil =>
    intro R W _ hF _ R' W' h
    cases h
    exact hF
  | cons c cs ih =>
    intro R W hI hF hall R' W' h
    obtain ⟨R1, W1, h1, hI1, -⟩ := step_inv c hI (hall c (by simp))
    rw [run_cons_of_step h1] at h
    have hF1 : Flow R1 W1 := by
      cases c with
      | pop len =>
        have h1' : some (R, W.pop len) = some (R1, W1) := h1
        simp only [Option.some.injEq, Prod.mk.injEq] at h1'
        obtain ⟨rfl, rfl⟩ := h1'
        exact pop_flow len hI hF
      | insert fi d l =>
        exact (Reassembler.insert_flow hI hF fi d l (hall (Call.insert fi d l) (by simp)) h1).1
    exact ih hI1 hF1 (fun c' hc' => hall c' (by simp [hc'])) h

theorem Reachable.flow {capacity : Nat} {R : Reassembler} {W : ByteStream}
    (hcap : capacity < 9223372036854775808) (h : Reachable capacity R W) : Flow R W := by
  obtain ⟨calls, hall, hrun⟩ := h
  have hF0 : Flow Reassembler.fresh (ByteStream.ctor capacity) :=
    ⟨rfl, rfl, fun r hr => by cases hr⟩
  exact run_flow calls (fresh_inv hcap) hF0 hall hrun

theorem split_unique {α : Type} (P : α → Prop) :
    ∀ (a a' b b' : List α), a ++ b = a' ++ b' → (∀ x ∈ a, P x) → (∀ x ∈ a', P x) →
      (∀ y ∈ b, ¬ P y) → (∀ y ∈ b', ¬ P y) → a = a' ∧ b = b' := by
  intro a
  induction a with
  | nil =>
    intro a' b b' h _ ha' hb _
    cases a' with
    | nil => exact ⟨rfl, h⟩
    | cons x xs =>
      exfalso
      have hx : x ∈ b := by
        simp only [List.nil_append] at h
        rw [h]
        simp
      exact hb x hx (ha' x (by simp))
  | cons x xs ih =>
    intro a' b b' h ha ha' hb hb'
    cases a' with
    | nil =>
      exfalso
      have hx : x ∈ b' := by
        simp only [List.nil_append] at h
        rw [← h]
        simp
      exact hb' x hx (ha x (by simp))
    | cons y ys =>
      simp only [List.cons_append, List.cons.injEq] at h
      obtain ⟨rfl, h⟩ := h
      obtain ⟨h1, h2⟩ := ih ys b b' h (fun z hz => ha z (by simp [hz]))
        (fun z hz => ha' z (by simp [hz])) hb hb'
      exact ⟨by rw [h1], h2⟩

namespace Reassembler

/-- Merging a record that lies inside `r1` into `r1` gives `r1`. -/
theorem merged_inside {r1 r2 : Buf_Record} (h1 : r1.Good) (h2 : r2.Good)
    (hend : r2.index_ + r2.len_ ≤ r1.index_ + r1.len_) : merged r1 r2 = r1 := by
  obtain ⟨h1a, h1b, h1c⟩ := h1
  obtain ⟨h2a, h2b, h2c⟩ := h2
  have hd : r2.bytes_.drop (r1.index_ + r1.len_ - r2.index_).toNat = [] :=
    List.drop_eq_nil_of_le (by omega)
  cases r1 with
  | mk i l b =>
    simp only [merged, hd, List.append_nil, Buf_Record.mk.injEq, true_and, and_true]
    simp only at hend
    rw [max_eq_left hend]
    omega

/-- Merging into `r1` a record with the same start that extends the bytes of
`r1` gives that record. -/
theorem merged_leading {r1 r2 : Buf_Record} (h1 : r1.Good) (h2 : r2.Good)
    (hidx : r2.index_ = r1.index_) (hend : r1.index_ + r1.len_ ≤ r2.index_ + r2.len_)
    (hpre : ∃ t, r2.bytes_ = r1.bytes_ ++ t) : merged r1 r2 = r2 := by
  obtain ⟨h1a, h1b, h1c⟩ := h1
  obtain ⟨h2a, h2b, h2c⟩ := h2
  obtain ⟨t, ht⟩ := hpre
  have hk : (r1.index_ + r1.len_ - r2.index_).toNat = r1.bytes_.length := by omega
  cases r2 with
  | mk i l b =>
    simp only at hidx ht hend hk h2b
    simp only [merged, Buf_Record.mk.injEq]
    refine ⟨hidx.symm, ?_, ?_⟩
    · rw [max_eq_right hend]
      omega
    · rw [hk, ht, List.drop_left]

/-- The grown record of an absorbing loop starts where `cur` starts, ends at or
after the end of `cur`, and its bytes start with the bytes of `cur`. -/
theorem absorb_leading {rs : List Buf_Record} {cur c : Buf_Record} {lo : Int}
    {rest : List Buf_Record} (hg : cur.Good) (hsep : Sep lo rs)
    (hge : ∀ r ∈ rs, cur.index_ ≤ r.index_) (h : absorb cur rs = some (c, rest)) :
    c.index_ = cur.index_ ∧ cur.index_ + cur.len_ ≤ c.index_ + c.len_ ∧
      ∃ t, c.bytes_ = cur.bytes_ ++ t := by
  refine absorb_keeps
    (fun r => r.index_ = cur.index_ ∧ cur.index_ + cur.len_ ≤ r.index_ + r.len_ ∧
      ∃ t, r.bytes_ = cur.bytes_ ++ t) (fun _ => True) ?_ rs cur lo c rest hg hsep hge
    ⟨rfl, le_refl _, [], by simp⟩ (fun _ _ => trivial) h
  intro r1 r2 _ _ _ _ hp _
  obtain ⟨hp1, hp2, t, ht⟩ := hp
  refine ⟨by rw [merged_index]; exact hp1, ?_, ?_⟩
  · rw [merged_end]
    exact le_trans hp2 (le_max_left _ _)
  · exact ⟨t ++ r2.bytes_.drop (r1.index_ + r1.len_ - r2.index_).toNat, by
      simp only [merged]
      rw [ht, List.append_assoc]⟩

/-- Absorbing again the record an absorbing loop has built gives that record. -/
theorem absorb_again {rs : List Buf_Record} {cur c : Buf_Record} {lo : Int}
    {rest : List Buf_Record} (hg : cur.Good) (hsep : Sep lo rs)
    (hge : ∀ r ∈ rs, cur.index_ ≤ r.index_) (h : absorb cur rs = some (c, rest))
    (hcg : c.Good) (hrest : Sep (c.index_ + c.len_) rest) :
    absorb cur (c :: rest) = some (c, rest) := by
  obtain ⟨h1, h2, h3⟩ := absorb_leading hg hsep hge h
  have e : wrapInt (cur.index_ + cur.len_) = cur.index_ + cur.len_ :=
    wrapInt_of_range (by have := hg.1; have := hg.len_nonneg; omega)
      (by have := hg.2.2; omega)
  have hlen := hg.len_nonneg
  unfold absorb
  rw [e, if_pos (by omega), merge_record_eq hg hcg (by omega) (by omega)]
  simp only []
  rw [merged_leading hg hcg h1 h2 h3]
  apply absorb_stop c hcg
  intro r hr
  have hmem : r ∈ rest := List.mem_of_mem_head? hr
  exact (Sep.of_mem hrest r hmem).1

/-- Idempotence below 2^31, on a state of the invariants: the same `insert` call
once more returns and changes nothing. -/
theorem insert_twice {R R' : Reassembler} {W W' : ByteStream} (hI : Inv R W) (hF : Flow R W)
    (fi : Nat) (d : List Char) (l : Bool) (hend : fi + d.length < 2147483648)
    (h1 : insert R fi d l W = some (R', W')) : insert R' fi d l W' = some (R', W') := by
  have hS := hI.toShape
  have hI' : Inv R' W' := by
    obtain ⟨R2, W2, h2, hI2, -⟩ := insert_inv fi d l hI hend
    rw [h1] at h2
    cases h2
    exact hI2
  have hS' := hI'.toShape
  obtain ⟨hF', hmono, hwin, -, -, -⟩ := insert_flow hI hF fi d l hend h1
  have hflag : ∀ (a x : Bool), ((a || (l && x)) || (l && x)) = (a || (l && x)) := by
    intro a x
    cases a <;> cases l <;> cases x <;> rfl
  rcases insert_cases hI hF fi d l hend h1 with
    ⟨hout, rfl, rfl⟩ | ⟨hin, c, pre, rest, hst, hbuf, habs, hcg, hci, hce, hcw, hpre, hR, hW⟩ |
    ⟨hin, before, c, pre, rest, hst, hbuf, hbl, hge, habs, hcg, hci, hce, hcw, hpre, hW, hR⟩
  · exact h1
  · obtain ⟨hc1, hc2, hc3, hc4, hc5, hc6⟩ := clip_facts hS (d := d) hin
    have hnb' : R'.buf_beginning_ = c.index_ + c.len_ := by rw [hR]
    have hRe : R'.ended_ = endedAfter R W fi d l := by rw [hR]
    have hnbn := hI'.nb_nonneg
    have hnbl := hI'.nb_lt
    rw [insert_eq_place hS' fi d l hend]
    split
    · rfl
    · rename_i hin2
      have hcase : (fi : Int) + (d.length : Int) ≤ R'.buf_beginning_ ∨
          R'.buf_beginning_ = R.buf_beginning_ + (W.available_capacity : Int) := by
        unfold clipStart clipData at hc6 hce
        omega
      have hfi : (fi : Int) ≤ R'.buf_beginning_ := by omega
      have hstart : clipStart R' fi = wrapU64 R'.buf_beginning_ := by
        unfold clipStart wrapU64
        omega
      have hdata : clipData R' W' fi d = [] := by
        apply List.eq_nil_of_length_eq_zero
        unfold clipData
        rw [List.length_take, List.length_drop]
        omega
      have hfl : ({ R' with ended_ := R'.ended_ || (l &&
          decide ((fi : Int) + (d.length : Int)
            ≤ R'.buf_beginning_ + (W'.available_capacity : Int))) } : Reassembler) = R' := by
        have : (R'.ended_ || (l && decide ((fi : Int) + (d.length : Int)
            ≤ R'.buf_beginning_ + (W'.available_capacity : Int)))) = R'.ended_ := by
          rw [hwin, hRe]
          exact hflag _ _
        rw [this]
      rw [hfl, hstart, hdata]
      exact place_empty_front hI'
  · obtain ⟨hc1, hc2, hc3, hc4, hc5, hc6⟩ := clip_facts hS (d := d) hin
    have hW2 : W = W' := hW.symm
    subst hW2
    have hRnb : R'.buf_beginning_ = R.buf_beginning_ := by
      rcases hR with ⟨_, _, _, _, rfl⟩ | ⟨_, rfl⟩ <;> rfl
    have hRe : R'.ended_ = endedAfter R W fi d l := by
      rcases hR with ⟨_, _, _, _, rfl⟩ | ⟨_, rfl⟩ <;> rfl
    have hcs : clipStart R' fi = clipStart R fi := by
      unfold clipStart
      rw [hRnb]
    have hcd : clipData R' W fi d = clipData R W fi d := by
      unfold clipData
      rw [hRnb]
    have hfl : ({ R' with ended_ := R'.ended_ || (l &&
        decide ((fi : Int) + (d.length : Int)
          ≤ R'.buf_beginning_ + (W.available_capacity : Int))) } : Reassembler) = R' := by
      have : (R'.ended_ || (l && decide ((fi : Int) + (d.length : Int)
          ≤ R'.buf_beginning_ + (W.available_capacity : Int)))) = R'.ended_ := by
        rw [hRnb, hRe]
        exact hflag _ _
      rw [this]
    rw [insert_eq_place hS' fi d l hend, if_neg (by rw [hRnb]; exact hin), hfl, hcs, hcd]
    have hcurg : (⟨clipStart R fi, (clipData R W fi d).length, clipData R W fi d⟩
        : Buf_Record).Good := ⟨by simp, rfl, by simp only; omega⟩
    generalize hfi' : clipStart R fi = fi' at *
    generalize hd' : clipData R W fi d = d' at *
    have hsep : Sep R.buf_beginning_ (before ++ (pre ++ rest)) := by rw [← hbuf]; exact hS.sep
    obtain ⟨hsb, hsa⟩ := Sep.append.1 hsep
    have hsepR' : Sep R.buf_beginning_ R'.buf_ := by
      have := hS'.sep
      rwa [hRnb] at this
    obtain ⟨before2, c2, pre2, rest2, hb0, hb1, hb2, habs2, -, -, -, -, -, -, hout⟩ :=
      @place_back _ _ fi' d' hS' (by rw [hRnb]; exact hst) (by omega)
    have hclen := hcg.len_nonneg
    rcases hR with ⟨init, p, hbe, htouch, hR⟩ | ⟨hgap, hR⟩
    · -- the fragment was merged into the record before it
      have hbufR : R'.buf_ = (init ++ [merged p c]) ++ rest := by
        rw [hR]
        simp
      rw [hbufR] at hsepR'
      obtain ⟨hsm, hsr⟩ := Sep.append.1 hsepR'
      rw [lastEnd_append_singleton] at hsr
      have hpg : p.Good := (Sep.of_mem hsb p (by rw [hbe]; simp)).2
      have hpi : p.index_ < (fi' : Int) := hbl p (by rw [hbe]; simp)
      have hmg : (merged p c).Good := merged_good hpg hcg htouch
      have hme : c.index_ + c.len_ ≤ (merged p c).index_ + (merged p c).len_ := by
        rw [merged_end]
        exact le_max_right _ _
      rw [hbufR] at hb0
      obtain ⟨e1, e2⟩ := split_unique (fun r : Buf_Record => r.index_ < (fi' : Int))
        (init ++ [merged p c]) before2 rest (pre2 ++ rest2) hb0
        (by
          intro x hx
          rcases List.mem_append.1 hx with hx | hx
          · exact hbl x (by rw [hbe]; exact List.mem_append_left _ hx)
          · obtain rfl : x = merged p c := by simpa using hx
            rw [merged_index]
            exact hpi)
        hb1
        (by
          intro y hy
          have := (Sep.of_mem hsr y hy).1
          omega)
        (fun y hy => by have := hb2 y hy; omega)
      rw [← e2] at habs2
      have hstop : absorb ⟨fi', d'.length, d'⟩ rest = some (⟨fi', d'.length, d'⟩, rest) := by
        apply absorb_stop _ hcurg
        intro r hr
        have hmem : r ∈ rest := List.mem_of_mem_head? hr
        have := (Sep.of_mem hsr r hmem).1
        show (fi' : Int) + (d'.length : Int) < r.index_
        omega
      rw [hstop] at habs2
      simp only [Option.some.injEq, Prod.mk.injEq] at habs2
      obtain ⟨rfl, rfl⟩ := habs2
      rcases hout with ⟨init2, p2, hbe2, -, -, hpl⟩ | ⟨hgap2, -, -⟩
      · rw [hpl]
        rw [← e1] at hbe2
        obtain ⟨rfl, hp2⟩ := List.append_inj' hbe2 rfl
        simp only [List.cons.injEq, and_true] at hp2
        subst hp2
        rw [merged_inside hmg hcurg (by show (fi' : Int) + (d'.length : Int) ≤ _; omega)]
        rw [hR]
      · exfalso
        have := hgap2 (merged p c) (by rw [← e1, List.getLast?_concat]; rfl)
        have h3 : (fi' : Int) = c.index_ := hci.symm
        have h4 : (⟨fi', d'.length, d'⟩ : Buf_Record).index_ = (fi' : Int) := rfl
        omega
    · -- the fragment was stored as a record of its own
      have hbufR : R'.buf_ = before ++ c :: rest := by rw [hR]
      rw [hbufR] at hsepR'
      obtain ⟨-, hsc⟩ := Sep.append.1 hsepR'
      have hsr : Sep (c.index_ + c.len_) rest := hsc.2.2
      rw [hbufR] at hb0
      obtain ⟨e1, e2⟩ := split_unique (fun r : Buf_Record => r.index_ < (fi' : Int))
        before before2 (c :: rest) (pre2 ++ rest2) hb0 hbl hb1
        (by
          intro y hy
          rcases List.mem_cons.1 hy with rfl | hy
          · omega
          · have := (Sep.of_mem hsr y hy).1
            omega)
        (fun y hy => by have := hb2 y hy; omega)
      rw [← e2] at habs2
      have hag := absorb_again hcurg hsa hge habs hcg hsr
      rw [hag] at habs2
      simp only [Option.some.injEq, Prod.mk.injEq] at habs2
      obtain ⟨rfl, rfl⟩ := habs2
      rcases hout with ⟨init2, p2, hbe2, htouch2, -, -⟩ | ⟨-, -, hpl⟩
      · exfalso
        have := hgap p2 (by rw [e1, hbe2, List.getLast?_concat]; rfl)
        omega
      · rw [hpl, ← e1]
        rw [hR]

end Reassembler

/-- Idempotence under duplication, below 2^31.  In every state reached from a
fresh reassembler and channel (capacity below 2^63) by `insert` calls whose
fragments end below 2^31 and by `pop` calls, for every fragment that ends below
2^31: the `insert` call returns, and the same call once more returns and leaves
the whole state (channel buffer, counters, closed flag, `next_index`, ended flag,
pending records) as the first call left it. -/
theorem insert_twice_below_2p31 (capacity : Nat) (R : Reassembler) (W : ByteStream)
    (first_index : Nat) (data : List Char) (is_last_substring : Bool)
    (hcap : capacity < 9223372036854775808) (hreach : Reachable capacity R W)
    (hend : first_index + data.length < 2147483648) :
    ∃ R' W', R.insert first_index data is_last_substring W = some (R', W') ∧
      R'.insert first_index data is_last_substring W' = some (R', W') := by
  have hI := (Reachable.inv hcap hreach).1
  have hF := Reachable.flow hcap hreach
  obtain ⟨R', W', h1, -, -⟩ := Reassembler.insert_inv first_index data is_last_substring hI hend
  exact ⟨R', W', h1, Reassembler.insert_twice hI hF _ _ _ hend h1⟩

namespace Reassembler

theorem Sep.pairwise {rs : List Buf_Record} :
    ∀ {lo : Int}, Sep lo rs →
      List.Pairwise (fun a b : Buf_Record => a.index_ + a.len_ < b.index_) rs := by
  induction rs with
  | nil => intro lo _; exact List.Pairwise.nil
  | cons x xs ih =>
    intro lo h
    exact List.Pairwise.cons (fun b hb => (Sep.of_mem h.2.2 b hb).1) (ih h.2.2)

end Reassembler

/-- Merge minimality below 2^31.  In every state reached from a fresh reassembler
and channel (capacity below 2^63) by `insert` calls whose fragments end below
2^31 and by `pop` calls, the pending records, in their order, end strictly
before the next one starts (no overlap, no adjacency), have strictly increasing
and so pairwise distinct starts, and all start strictly after `next_index`. -/
theorem pending_separated_below_2p31 (capacity : Nat) (R : Reassembler) (W : ByteStream)
    (hcap : capacity < 9223372036854775808) (hreach : Reachable capacity R W) :
    List.Pairwise (fun a b : Buf_Record => a.index_ + a.len_ < b.index_) R.buf_ ∧
    List.Pairwise (fun a b : Buf_Record => a.index_ < b.index_) R.buf_ ∧
    ∀ r ∈ R.buf_, R.buf_beginning_ < r.index_ := by
  have hI := (Reachable.inv hcap hreach).1
  have hp := Reassembler.Sep.pairwise hI.sep
  refine ⟨hp, ?_, fun r hr => (Sep.of_mem hI.sep r hr).1⟩
  have hgood : ∀ r ∈ R.buf_, 0 ≤ r.len_ := fun r hr => (Sep.of_mem hI.sep r hr).2.len_nonneg
  refine (List.Pairwise.and_mem.1 hp).imp ?_
  intro a b hab
  have := hgood a hab.1
  have := hab.2.2
  omega

/-! ## The theorems below 2^31 on small runs -/

/-- Fragments "cd" at 2 and "ab" at 0 of the stream "abcd", then a pop of one
byte, capacity 10: the calls return and the pushed bytes are the stream up to
`next_index`. -/
theorem delivery_in_order_example :
    ∃ R W log, runPushed (Reassembler.fresh, ByteStream.ctor 10)
        [Call.insert 2 ['c', 'd'] false, Call.insert 0 ['a', 'b'] false, Call.pop 1]
        = some ((R, W), log) ∧
      log = ['a', 'b', 'c', 'd'].take R.buf_beginning_.toNat ∧
      (W.bytes_pushed : Int) = R.buf_beginning_ ∧
      W.buf = (['a', 'b', 'c', 'd'].take W.bytes_pushed).drop W.bytes_popped :=
  delivery_in_order_below_2p31 ['a', 'b', 'c', 'd'] 10
    [Call.insert 2 ['c', 'd'] false, Call.insert 0 ['a', 'b'] false, Call.pop 1]
    (by decide) (by decide)
    (by
      intro c hc
      simp only [List.mem_cons, List.mem_singleton, List.not_mem_nil, or_false] at hc
      rcases hc with rfl | rfl | rfl <;> simp [Call.Agrees])

/-- The stream "abcd" with capacity 10: "cd" at 2 carrying the last-fragment
mark, then "ab" at 0: the calls return and the channel is closed exactly when a
last fragment was fully accepted and `next_index` is 4. -/
theorem completion_example :
    ∃ R W acc, runAccepted (Reassembler.fresh, ByteStream.ctor 10)
        [Call.insert 2 ['c', 'd'] true, Call.insert 0 ['a', 'b'] false]
        = some ((R, W), acc) ∧
      (W.is_closed = true ↔ (acc = true ∧ R.buf_beginning_ = ((['a', 'b', 'c', 'd'].length : Nat) : Int))) :=
  completion_below_2p31 ['a', 'b', 'c', 'd'] 10
    [Call.insert 2 ['c', 'd'] true, Call.insert 0 ['a', 'b'] false]
    (by decide) (by decide)
    (by
      intro c hc
      simp only [List.mem_cons, List.mem_singleton, List.not_mem_nil, or_false] at hc
      rcases hc with rfl | rfl <;> simp [Call.Agrees])
    (by
      intro c hc
      simp only [List.mem_cons, List.mem_singleton, List.not_mem_nil, or_false] at hc
      rcases hc with rfl | rfl <;> simp [Call.MarksEnd])

/-- The spec's example: capacity 10, insert("cd", 2) then insert("ab", 0) leave
the buffer "abcd" and nothing pending. -/
theorem full_coverage_example :
    ∃ R W, run (Reassembler.fresh, ByteStream.ctor 10)
        [Call.insert 2 ['c', 'd'] false, Call.insert 0 ['a', 'b'] false] = some (R, W) ∧
      W.buf = ['a', 'b', 'c', 'd'] ∧ R.bytes_pending = 0 :=
  full_coverage_below_2p31 ['a', 'b', 'c', 'd'] 10
    [Call.insert 2 ['c', 'd'] false, Call.insert 0 ['a', 'b'] false]
    (by decide) (by decide) (by decide)
    (by
      intro c hc
      simp only [List.mem_cons, List.mem_singleton, List.not_mem_nil, or_false] at hc
      rcases hc with rfl | rfl <;> simp [Call.isInsert])
    (by
      intro c hc
      simp only [List.mem_cons, List.mem_singleton, List.not_mem_nil, or_false] at hc
      rcases hc with rfl | rfl <;> simp [Call.Agrees])
    (by
      intro i hi
      have hi4 : i < 4 := hi
      by_cases h : i < 2
      · exact ⟨Call.insert 0 ['a', 'b'] false, by simp, by simp [Call.covers]; omega⟩
      · exact ⟨Call.insert 2 ['c', 'd'] false, by simp, by simp [Call.covers]; omega⟩)

/-- After insert("cd", 2) on a fresh pair of capacity 10, inserting "bcd" at 1
twice is inserting it once. -/
theorem insert_twice_example :
    ∃ R' W', Reassembler.insert ⟨0, false, [⟨2, 2, ['c', 'd']⟩]⟩ 1 ['b', 'c', 'd'] false
        ⟨10, [], 0, 0, false, false⟩ = some (R', W') ∧
      R'.insert 1 ['b', 'c', 'd'] false W' = some (R', W') :=
  insert_twice_below_2p31 10 ⟨0, false, [⟨2, 2, ['c', 'd']⟩]⟩ ⟨10, [], 0, 0, false, false⟩
    1 ['b', 'c', 'd'] false (by decide)
    ⟨[Call.insert 2 ['c', 'd'] false], by simp [Call.InRange], by decide⟩ (by decide)

/-- After insert("cd", 2) and insert("f", 5) on a fresh pair of capacity 10 the
two pending records (2, "cd") and (5, "f") are separated and after
`next_index` = 0. -/
theorem pending_separated_example :
    run (Reassembler.fresh, ByteStream.ctor 10)
        [Call.insert 5 ['f'] false, Call.insert 2 ['c', 'd'] false]
      = some (⟨0, false, [⟨2, 2, ['c', 'd']⟩, ⟨5, 1, ['f']⟩]⟩, ⟨10, [], 0, 0, false, false⟩) ∧
    List.Pairwise (fun a b : Buf_Record => a.index_ + a.len_ < b.index_)
      [⟨2, 2, ['c', 'd']⟩, ⟨5, 1, ['f']⟩] :=
  ⟨by decide,
    (pending_separated_below_2p31 10 ⟨0, false, [⟨2, 2, ['c', 'd']⟩, ⟨5, 1, ['f']⟩]⟩
      ⟨10, [], 0, 0, false, false⟩ (by decide)
      ⟨[Call.insert 5 ['f'] false, Call.insert 2 ['c', 'd'] false],
        by simp [Call.InRange], by decide⟩).1⟩

/-! ## Discarded fragments -/

/-- Discarded fragments change nothing while `next_index` is not negative.  In
every state whose `next_index` (`buf_beginning_`, an `int`) is a non-negative
index, an `insert` call, with any
`is_last_substring`, whose fragment lies wholly outside the window, that is
`first_index >= next_index + available_capacity()`, or `first_index < next_index`
and `first_index + len(data) <= next_index`, returns and leaves the reassembler
(`next_index`, the ended flag, the pending set) and the whole channel (buffer,
counters, closed, error) as they were. -/
theorem discarded_fragment_changes_nothing_of_nonneg (R : Reassembler) (W : ByteStream)
    (first_index : Nat) (data : List Char) (is_last_substring : Bool)
    (h0 : 0 ≤ R.buf_beginning_) (h1 : R.buf_beginning_ < 2147483648)
    (hout : R.buf_beginning_ + (W.available_capacity : Int) ≤ (first_index : Int) ∨
      ((first_index : Int) < R.buf_beginning_ ∧
        (first_index : Int) + (data.length : Int) ≤ R.buf_beginning_)) :
    R.insert first_index data is_last_substring W = some (R, W) := by
  unfold Reassembler.insert
  by_cases hA : first_index ≥ wrapU64 (R.buf_beginning_ + (W.available_capacity : Int))
  · rw [if_pos hA]
  · rw [if_neg hA]
    rcases hout with h | ⟨h2, h3⟩
    · exfalso
      apply hA
      have := wrapU64_le_of_nonneg (n := R.buf_beginning_ + (W.available_capacity : Int))
        (by omega)
      omega
    · have hb : (wrapU64 R.buf_beginning_ : Int) = R.buf_beginning_ :=
        wrapU64_of_range h0 (by omega)
      have hs : (wrapU64 ((first_index : Int) + (data.length : Int)) : Int)
          = (first_index : Int) + (data.length : Int) :=
        wrapU64_of_range (by omega) (by omega)
      rw [if_pos (by omega), if_pos (by omega)]

/-- The spec's example: capacity 10, after insert("abc", 0) the call
insert("b", 1) changes neither the reassembler nor the channel. -/
theorem discarded_fragment_example :
    run (Reassembler.fresh, ByteStream.ctor 10) [.insert 0 ['a', 'b', 'c'] false]
      = some (⟨3, false, []⟩, ⟨10, ['a', 'b', 'c'], 3, 0, false, false⟩) ∧
    (1 : Int) < 3 ∧ (1 : Int) + 1 ≤ 3 ∧
    Reassembler.insert ⟨3, false, []⟩ 1 ['b'] false ⟨10, ['a', 'b', 'c'], 3, 0, false, false⟩
      = some (⟨3, false, []⟩, ⟨10, ['a', 'b', 'c'], 3, 0, false, false⟩) :=
  ⟨by decide, by decide, by decide,
    discarded_fragment_changes_nothing_of_nonneg ⟨3, false, []⟩ ⟨10, ['a', 'b', 'c'], 3, 0, false, false⟩
      1 ['b'] false (by decide) (by decide) (Or.inr ⟨by decide, by decide⟩)⟩

/-! ## Fragments at and beyond index 2^31 -/

theorem tailMarked_length (n : Nat) : (tailMarked n).length = n + 1 := by
  simp [tailMarked]

theorem tailMarked_last (n : Nat) : ((tailMarked n).drop n).take 1 = ['b'] := by
  have h : List.drop n (List.replicate n 'a' ++ ['b']) = ['b'] := by
    have h' := List.drop_left (List.replicate n 'a') ['b']
    rwa [List.length_replicate] at h'
  unfold tailMarked
  rw [h]
  rfl

theorem tailMarked_first (n : Nat) : (tailMarked (n + 1)).take 1 = ['a'] := by
  simp [tailMarked, List.replicate_succ]

theorem tailMarked_take (n : Nat) : (tailMarked n).take n = List.replicate n 'a' := by
  unfold tailMarked
  have h' := List.take_left (List.replicate n 'a') ['b']
  rwa [List.length_replicate] at h'

/-- After "b" was delivered as byte 0, a fragment of 2^32 bytes at index 0 is
cut by one byte on the left and pushed; its length 2^32 - 1 is the `int` -1, so
`buf_beginning_` goes back to 0. -/
theorem insert_long_prefix (d : List Char) (hl : d.length = 4294967296) :
    Reassembler.insert ⟨1, false, []⟩ 0 d false ⟨4294967297, ['b'], 1, 0, false, false⟩
      = some (⟨0, false, []⟩, ⟨4294967297, 'b' :: d.drop 1, 4294967296, 0, false, false⟩) := by
  simp [Reassembler.insert, Reassembler.trimRight, Reassembler.place, Reassembler.absorb,
    ByteStream.available_capacity, wrapU64, wrapInt, substrFrom, ByteStream.push,
    Buf_Record.ctor, hl]

/-- C1, failing input.  The stream is `tailMarked 2^32` (2^32 times 'a', then
'b'), the channel has capacity 2^32 + 1, and the first call is insert("b", 2^32),
the fragment that holds the stream's last byte.  `Buf_Record cur( first_index,
data )` narrows 2^32 to the `int` 0, which equals `buf_beginning_`, so the byte
is pushed at once: the channel then holds "b" and `next_index` is 1, while the
stream's first byte is 'a'. -/
theorem C1_wrapped_index_is_delivered_first :
    ((tailMarked 4294967296).drop 4294967296).take 1 = ['b'] ∧
    run (Reassembler.fresh, ByteStream.ctor 4294967297) [.insert 4294967296 ['b'] false]
      = some (⟨1, false, []⟩, ⟨4294967297, ['b'], 1, 0, false, false⟩) ∧
    (tailMarked 4294967296).take 1 = ['a'] :=
  ⟨tailMarked_last _, by decide, tailMarked_first 4294967295⟩

/-- C2, failing input.  The stream is `tailMarked 2^32` of length N = 2^32 + 1,
the capacity is N, and the two calls insert("b", 2^32), insert(2^32 times 'a', 0)
agree with the stream and cover [0, N).  Afterwards the channel buffers "b"
followed by 2^32 - 1 times 'a': 2^32 bytes, not the N bytes of the stream. -/
theorem C2_wrapped_fragments_scramble_the_stream :
    ((tailMarked 4294967296).drop 4294967296).take 1 = ['b'] ∧
    (tailMarked 4294967296).take 4294967296 = List.replicate 4294967296 'a' ∧
    (tailMarked 4294967296).length = 4294967297 ∧
    run (Reassembler.fresh, ByteStream.ctor 4294967297)
        [.insert 4294967296 ['b'] false, .insert 0 (List.replicate 4294967296 'a') false]
      = some (⟨0, false, []⟩,
          ⟨4294967297, 'b' :: (List.replicate 4294967296 'a').drop 1, 4294967296, 0,
            false, false⟩) ∧
    ('b' :: (List.replicate 4294967296 'a').drop 1).length
      ≠ (tailMarked 4294967296).length := by
  refine ⟨tailMarked_last _, tailMarked_take _, tailMarked_length _, ?_, ?_⟩
  · have h1 : step (Reassembler.fresh, ByteStream.ctor 4294967297)
        (.insert 4294967296 ['b'] false)
        = some (⟨1, false, []⟩, ⟨4294967297, ['b'], 1, 0, false, false⟩) := by decide
    have h2 : step (⟨1, false, []⟩, ⟨4294967297, ['b'], 1, 0, false, false⟩)
        (.insert 0 (List.replicate 4294967296 'a') false) = _ :=
      insert_long_prefix (List.replicate 4294967296 'a') (List.length_replicate _ _)
    rw [run_cons_of_step h1, run_cons_of_step h2, run_nil]
  · rw [tailMarked_length, List.length_cons, List.length_drop, List.length_replicate]
    decide

/-- C3, failing input.  With the stream `tailMarked 2^32` (N = 2^32 + 1) and
capacity 2^32 + 1, the single call insert("b", 2^32, is_last_substring = true)
closes the channel although `next_index` is 1 and not N: only the last byte was
received. -/
theorem C3_wrapped_last_fragment_closes_early :
    ((tailMarked 4294967296).drop 4294967296).take 1 = ['b'] ∧
    (tailMarked 4294967296).length = 4294967296 + 1 ∧
    run (Reassembler.fresh, ByteStream.ctor 4294967297) [.insert 4294967296 ['b'] true]
      = some (⟨1, true, []⟩, ⟨4294967297, ['b'], 1, 0, true, false⟩) :=
  ⟨tailMarked_last _, tailMarked_length _, by decide⟩

/-- C9, failing input.  Capacity 2^32 + 1, fresh state, fragment (2^32, "a"):
one insert delivers "a" and leaves nothing pending; the same insert once more
stores the record (0, "a") as pending, so the two states differ. -/
theorem C9_wrapped_duplicate_is_stored :
    run (Reassembler.fresh, ByteStream.ctor 4294967297) [.insert 4294967296 ['a'] false]
      = some (⟨1, false, []⟩, ⟨4294967297, ['a'], 1, 0, false, false⟩) ∧
    run (Reassembler.fresh, ByteStream.ctor 4294967297)
        [.insert 4294967296 ['a'] false, .insert 4294967296 ['a'] false]
      = some (⟨1, false, [⟨0, 1, ['a']⟩]⟩, ⟨4294967297, ['a'], 1, 0, false, false⟩) :=
  ⟨by decide, by decide⟩

/-- C10, failing input.  Capacity 2^32, fresh state, insert("a", 2^31): the
pending record gets the start index -2^31, which is not after `next_index` = 0. -/
theorem C10_wrapped_pending_start_before_next_index :
    run (Reassembler.fresh, ByteStream.ctor 4294967296) [.insert 2147483648 ['a'] false]
      = some (⟨0, false, [⟨-2147483648, 1, ['a']⟩]⟩, ⟨4294967296, [], 0, 0, false, false⟩) ∧
    ¬ ((0 : Int) < (-2147483648 : Int)) :=
  ⟨by decide, by decide⟩

/-! ## The channel: construction, counters, push after close -/

/-- C12 as stated fails.  Constructing a `ByteStream` with capacity 0 does not
fault: the constructor returns the channel with `capacity_ == 0`. -/
theorem C12_counterexample_zero_capacity_is_constructed :
    ByteStream.construct 0 = some ⟨0, [], 0, 0, false, false⟩ ∧
    ByteStream.construct 0 ≠ none :=
  ⟨rfl, by decide⟩

/-- C12 (amended). Constructing a `ByteStream` with capacity 0 succeeds and
yields a channel object that every method accepts: `available_capacity()` and
`bytes_buffered()` are 0, every `push` and every `pop` leaves it as it is
(`push` accepts no byte), and after `close()` it is finished. -/
theorem C12_zero_capacity_channel_is_usable (data : List Char) (n : Nat) :
    ∃ s, ByteStream.construct 0 = some s ∧ s.capacity_ = 0 ∧
      s.available_capacity = 0 ∧ s.bytes_buffered = 0 ∧
      s.push data = s ∧ s.pop n = s ∧ s.close.is_finished = true := by
  refine ⟨ByteStream.ctor 0, rfl, rfl, by decide, rfl, ?_, ?_, rfl⟩
  · unfold ByteStream.push
    split
    · rename_i h
      have h0 : data.length = 0 := by
        simp only [ByteStream.ctor, List.length_nil] at h
        omega
      have : data = [] := List.length_eq_zero.1 h0
      subst this
      rfl
    · simp [ByteStream.ctor, wrapU64]
  · unfold ByteStream.pop
    split
    · rename_i h
      simp [ByteStream.ctor] at h
    · rfl

namespace ByteStream

theorem run_append (s : ByteStream) (xs ys : List ChannelCall) :
    s.run (xs ++ ys) = (s.run xs).run ys := by
  induction xs generalizing s with
  | nil => rfl
  | cons c cs ih => exact ih (s.step c)

theorem step_counters (s : ByteStream) (c : ChannelCall)
    (hc : s.capacity_ < 18446744073709551616) (hb : s.buf.length ≤ s.capacity_)
    (h : s.pushed_len = s.poped_len + s.buf.length) :
    (s.step c).pushed_len = (s.step c).poped_len + (s.step c).buf.length ∧
      s.pushed_len ≤ (s.step c).pushed_len ∧ s.poped_len ≤ (s.step c).poped_len := by
  have hw : wrapU64 ((s.capacity_ : Int) - (s.buf.length : Int)) = s.capacity_ - s.buf.length := by
    unfold wrapU64
    omega
  cases c with
  | push data =>
    show (s.push data).pushed_len = (s.push data).poped_len + (s.push data).buf.length ∧
      s.pushed_len ≤ (s.push data).pushed_len ∧ s.poped_len ≤ (s.push data).poped_len
    unfold push
    split
    · simp only [List.length_append]
      omega
    · simp only [List.length_append, List.length_take, hw]
      omega
  | close => exact ⟨h, le_refl _, le_refl _⟩
  | set_error => exact ⟨h, le_refl _, le_refl _⟩
  | pop len =>
    show (s.pop len).pushed_len = (s.pop len).poped_len + (s.pop len).buf.length ∧
      s.pushed_len ≤ (s.pop len).pushed_len ∧ s.poped_len ≤ (s.pop len).poped_len
    unfold pop
    split
    · simp only [List.length_drop]
      omega
    · simp only [List.length_nil]
      omega

theorem run_counters (calls : List ChannelCall) :
    ∀ s : ByteStream, s.capacity_ < 18446744073709551616 → s.buf.length ≤ s.capacity_ →
      s.pushed_len = s.poped_len + s.buf.length →
      (s.run calls).pushed_len = (s.run calls).poped_len + (s.run calls).buf.length := by
  induction calls with
  | nil => intro s _ _ h; exact h
  | cons c cs ih =>
    intro s hc hb h
    have h1 := step_counters s c hc hb h
    have h2 := step_buf_le s c hb
    have h3 := step_capacity s c
    exact ih (s.step c) (by rw [h3]; exact hc) (by rw [h3]; exact h2) h1.1

end ByteStream

/-- C19. Counter consistency of the byte channel: after any sequence of `push`,
`pop`, `close` and `set_error` calls on a channel constructed with capacity `C`
(a `uint64_t`), `bytes_pushed() - bytes_popped() == bytes_buffered()` with
`bytes_popped() <= bytes_pushed()`, and one more call of any of the four kinds
lowers neither counter.  Every prefix of a sequence is itself a sequence, so
this is the state after every call. -/
theorem C19_counter_consistency (C : Nat) (calls : List ChannelCall) (c : ChannelCall)
    (hC : C < 18446744073709551616) :
    ((ByteStream.ctor C).run calls).bytes_pushed - ((ByteStream.ctor C).run calls).bytes_popped
      = ((ByteStream.ctor C).run calls).bytes_buffered ∧
    ((ByteStream.ctor C).run calls).bytes_popped ≤ ((ByteStream.ctor C).run calls).bytes_pushed ∧
    ((ByteStream.ctor C).run calls).bytes_pushed
      ≤ ((ByteStream.ctor C).run (calls ++ [c])).bytes_pushed ∧
    ((ByteStream.ctor C).run calls).bytes_popped
      ≤ ((ByteStream.ctor C).run (calls ++ [c])).bytes_popped := by
  have hcap : (ByteStream.ctor C).capacity_ = C := rfl
  have hb0 : (ByteStream.ctor C).buf.length ≤ (ByteStream.ctor C).capacity_ := by
    simp [ByteStream.ctor]
  obtain ⟨h1, h2⟩ := ByteStream.run_buf_le calls (ByteStream.ctor C) hb0
  have h3 := ByteStream.run_counters calls (ByteStream.ctor C) (by rw [hcap]; exact hC) hb0 rfl
  rw [hcap] at h1 h2
  have h4 := ByteStream.step_counters ((ByteStream.ctor C).run calls) c (by rw [h1]; exact hC)
    (by rw [h1]; exact h2) h3
  rw [ByteStream.run_append]
  unfold ByteStream.bytes_pushed ByteStream.bytes_popped ByteStream.bytes_buffered
  refine ⟨by omega, by omega, h4.2.1, h4.2.2⟩

/-- C19, at capacity 2 with the calls push "abc", pop 1, close, set_error and
then push "xy": before the last call the counters are 2 and 1 with one byte
buffered. -/
theorem C19_counter_consistency_witness :
    (2 : Nat) < 18446744073709551616 ∧
    ((ByteStream.ctor 2).run [.push ['a', 'b', 'c'], .pop 1, .close, .set_error]).bytes_pushed
      - ((ByteStream.ctor 2).run [.push ['a', 'b', 'c'], .pop 1, .close, .set_error]).bytes_popped
      = ((ByteStream.ctor 2).run
          [.push ['a', 'b', 'c'], .pop 1, .close, .set_error]).bytes_buffered ∧
    ((ByteStream.ctor 2).run [.push ['a', 'b', 'c'], .pop 1, .close, .set_error]).bytes_pushed = 2 :=
  ⟨by decide,
    (C19_counter_consistency 2 [.push ['a', 'b', 'c'], .pop 1, .close, .set_error]
      (.push ['x', 'y']) (by decide)).1, by decide⟩

/-- C17. The channel does not enforce "no push after close".  On every closed
channel state `Writer::push(data)` does what it does on the same state with the
closed flag cleared, flag aside: the same buffer, the same counters.  So a
channel of capacity 1 that was closed while empty is finished, and after
push("a") it is no longer finished. -/
theorem C17_push_after_close_is_accepted (s : ByteStream) (data : List Char)
    (h : s.is_closed = true) :
    s.push data = (({ s with ended_ := false } : ByteStream).push data).close ∧
    (s.push data).buf = (({ s with ended_ := false } : ByteStream).push data).buf ∧
    (s.push data).bytes_pushed
      = (({ s with ended_ := false } : ByteStream).push data).bytes_pushed ∧
    ((ByteStream.ctor 1).run [.close]).is_finished = true ∧
    ((ByteStream.ctor 1).run [.close, .push ['a']]).is_finished = false := by
  have he : s.ended_ = true := h
  have key : s.push data = (({ s with ended_ := false } : ByteStream).push data).close := by
    unfold ByteStream.push ByteStream.close
    split <;> simp [he]
  refine ⟨key, ?_, ?_, by decide, by decide⟩
  · rw [key]
    rfl
  · rw [key]
    rfl

/-- C17, on the closed empty channel of capacity 1 with push("a"): the byte is
buffered and counted although the channel is closed. -/
theorem C17_push_after_close_is_accepted_witness :
    (ByteStream.ctor 1).close.is_closed = true ∧
    ((ByteStream.ctor 1).close.push ['a']).buf = ['a'] ∧
    ((ByteStream.ctor 1).close.push ['a']).bytes_pushed = 1 := by
  have h := C17_push_after_close_is_accepted (ByteStream.ctor 1).close ['a'] rfl
  refine ⟨rfl, ?_, ?_⟩
  · rw [h.2.1]
    decide
  · rw [h.2.2.1]
    decide

/-! ## Index width -/

/-- C20. Index width.  `Buf_Record` keeps `index_` and `len_` in an `int` and
`Reassembler` keeps `buf_beginning_` in an `int`, while `insert` receives a
64-bit `first_index`.  With capacity 2^32 and a fresh reassembler the index
2^31 lies inside the window [0, 2^32), the call insert("a", 2^31) accepts the
fragment, and the start stored for it is 2^31 reduced modulo 2^32 into the
signed range, -2^31, which differs from `first_index`. -/
theorem C20_stored_index_is_narrowed :
    (2147483648 : Int) < Reassembler.fresh.buf_beginning_
      + ((ByteStream.ctor 4294967296).available_capacity : Int) ∧
    Reassembler.fresh.buf_beginning_ ≤ (2147483648 : Int) ∧
    (∃ R W r, Reassembler.fresh.insert 2147483648 ['a'] false (ByteStream.ctor 4294967296)
        = some (R, W) ∧ R.buf_ = [r] ∧ r.bytes_ = ['a'] ∧
      r.index_ = wrapInt 2147483648 ∧ r.index_ = 2147483648 - 4294967296 ∧
      r.index_ ≠ 2147483648) :=
  ⟨by decide, by decide,
    ⟨⟨0, false, [⟨-2147483648, 1, ['a']⟩]⟩, ⟨4294967296, [], 0, 0, false, false⟩,
      ⟨-2147483648, 1, ['a']⟩, by decide, rfl, rfl, by decide, by decide, by decide⟩⟩

/-! ## A last fragment that ends at the window edge -/

/-- A fragment of 2^31 bytes at index 1 is stored with the length -2^31. -/
theorem insert_long_pending (d : List Char) (hl : d.length = 2147483648) :
    Reassembler.insert Reassembler.fresh 1 d false (ByteStream.ctor 2147483649)
      = some (⟨0, false, [⟨1, -2147483648, d⟩]⟩, ByteStream.ctor 2147483649) := by
  simp [Reassembler.insert, Reassembler.trimRight, Reassembler.place, Reassembler.absorb,
    Reassembler.setInsert, Reassembler.fresh, ByteStream.ctor,
    ByteStream.available_capacity, wrapU64, wrapInt, substrFrom, ByteStream.push,
    Buf_Record.ctor, hl]

/-- A fragment of 2^31 bytes at index 0 is pushed whole and moves
`buf_beginning_` by its length as an `int`, -2^31. -/
theorem insert_long_front (d : List Char) (hl : d.length = 2147483648) :
    Reassembler.insert Reassembler.fresh 0 d false (ByteStream.ctor 2147483648)
      = some (⟨-2147483648, false, []⟩, ⟨2147483648, d, 2147483648, 0, false, false⟩) := by
  simp [Reassembler.insert, Reassembler.trimRight, Reassembler.place, Reassembler.absorb,
    Reassembler.fresh, ByteStream.ctor,
    ByteStream.available_capacity, wrapU64, wrapInt, substrFrom, ByteStream.push,
    Buf_Record.ctor, hl]

/-- The pending count of one record of length -2^31, as a `uint64_t`. -/
theorem bytes_pending_long (d : List Char) :
    Reassembler.bytes_pending ⟨0, false, [⟨1, -2147483648, d⟩]⟩ = 18446744071562067968 := by
  simp [Reassembler.bytes_pending, wrapU64]

/-- C11, failing input.  Capacity 2^31 + 1, fresh state, insert of 2^31 bytes
at index 1: the fragment fits in the window and is stored, its length is kept
as the `int` -2^31, and `bytes_pending()` returns 2^64 - 2^31, far above
`available_capacity()` = 2^31 + 1. -/
theorem C11_wrapped_length_exceeds_the_window :
    run (Reassembler.fresh, ByteStream.ctor 2147483649)
        [.insert 1 (List.replicate 2147483648 'a') false]
      = some (⟨0, false, [⟨1, -2147483648, List.replicate 2147483648 'a'⟩]⟩,
          ByteStream.ctor 2147483649) ∧
    Reassembler.bytes_pending ⟨0, false, [⟨1, -2147483648, List.replicate 2147483648 'a'⟩]⟩
      = 18446744071562067968 ∧
    (ByteStream.ctor 2147483649).available_capacity = 2147483649 ∧
    (ByteStream.ctor 2147483649).bytes_buffered = 0 := by
  refine ⟨?_, ?_, by decide, rfl⟩
  · have h1 : step (Reassembler.fresh, ByteStream.ctor 2147483649)
        (.insert 1 (List.replicate 2147483648 'a') false) = _ :=
      insert_long_pending (List.replicate 2147483648 'a') (List.length_replicate _ _)
    rw [run_cons_of_step h1, run_nil]
  · exact bytes_pending_long _

/-- C13, failing input.  Capacity 2^32 + 1, fresh state.  Two calls
insert("a", 2^32) deliver one "a" and leave the record (0, "a") pending behind
`next_index` = 1.  The call insert("c", 1) then enters the in-order branch, the
loop of lines 37-44 hands `cur` = (1, "c") and the record (0, "a") to
`merge_record`, whose assertion `r1.index_ <= r2.index_` is false: the call
does not run to completion. -/
theorem C13_wrapped_record_fails_the_assertion :
    run (Reassembler.fresh, ByteStream.ctor 4294967297)
        [.insert 4294967296 ['a'] false, .insert 4294967296 ['a'] false]
      = some (⟨1, false, [⟨0, 1, ['a']⟩]⟩, ⟨4294967297, ['a'], 1, 0, false, false⟩) ∧
    Reassembler.merge_record (Buf_Record.ctor (wrapInt 1) ['c']) ⟨0, 1, ['a']⟩ = none ∧
    Reassembler.insert ⟨1, false, [⟨0, 1, ['a']⟩]⟩ 1 ['c'] false
      ⟨4294967297, ['a'], 1, 0, false, false⟩ = none ∧
    run (Reassembler.fresh, ByteStream.ctor 4294967297)
        [.insert 4294967296 ['a'] false, .insert 4294967296 ['a'] false, .insert 1 ['c'] false]
      = none :=
  ⟨by decide, by decide, by decide, by decide⟩

/-- C14, failing input.  Capacity 2^32 + 1, fresh state, insert("b", 2^32).  The
set `K` of the naive model is {2^32}: index 0 is not in it, so `next_index`
should stay 0 and the fragment should be pending.  The call delivers the byte:
`next_index` becomes 1, the buffer grows by one byte and nothing is pending,
although 2^32 is in `K` and not below the new `next_index`. -/
theorem C14_wrapped_index_leaves_the_model :
    Reassembler.fresh.insert 4294967296 ['b'] false (ByteStream.ctor 4294967297)
      = some (⟨1, false, []⟩, ⟨4294967297, ['b'], 1, 0, false, false⟩) ∧
    ¬ Reassembler.fresh.known (ByteStream.ctor 4294967297) 4294967296 ['b'] 0 ∧
    Reassembler.fresh.known (ByteStream.ctor 4294967297) 4294967296 ['b'] 4294967296 ∧
    ¬ Reassembler.held ⟨1, false, []⟩ 4294967296 ∧
    (⟨4294967297, ['b'], 1, 0, false, false⟩ : ByteStream).buf.length
      = (ByteStream.ctor 4294967297).buf.length + 1 :=
  ⟨by decide, by decide, by decide, by decide, rfl⟩

/-- C18, failing input.  Capacity 2^31, fresh state, insert of 2^31 bytes at
index 0: the run fits and is pushed whole, so `bytes_pushed()` is 2^31, and
`buf_beginning_ += cur.len_` adds the `int` -2^31: `next_index` is -2^31, below
its old value 0 and different from `bytes_pushed()`. -/
theorem C18_wrapped_next_index_goes_back :
    run (Reassembler.fresh, ByteStream.ctor 2147483648)
        [.insert 0 (List.replicate 2147483648 'a') false]
      = some (⟨-2147483648, false, []⟩,
          ⟨2147483648, List.replicate 2147483648 'a', 2147483648, 0, false, false⟩) ∧
    (⟨2147483648, List.replicate 2147483648 'a', 2147483648, 0, false, false⟩ :
      ByteStream).bytes_pushed = 2147483648 ∧
    (⟨-2147483648, false, []⟩ : Reassembler).buf_beginning_ < Reassembler.fresh.buf_beginning_ ∧
    (List.replicate 2147483648 'a').length ≤ (ByteStream.ctor 2147483648).available_capacity := by
  refine ⟨?_, rfl, by decide, ?_⟩
  · have h1 : step (Reassembler.fresh, ByteStream.ctor 2147483648)
        (.insert 0 (List.replicate 2147483648 'a') false) = _ :=
      insert_long_front (List.replicate 2147483648 'a') (List.length_replicate _ _)
    rw [run_cons_of_step h1, run_nil]
  · rw [List.length_replicate]
    decide

/-! ## The window, the return of every call and the index bookkeeping below 2^31 -/

theorem Sep.sum_le {rs : List Buf_Record} {hi : Int} :
    ∀ {lo : Int} (acc : Int), Sep lo rs → (∀ r ∈ rs, r.index_ + r.len_ ≤ hi) → lo ≤ hi →
      acc ≤ rs.foldl (fun cnt t => cnt + t.len_) acc ∧
      rs.foldl (fun cnt t => cnt + t.len_) acc ≤ acc + (hi - lo) := by
  induction rs with
  | nil =>
    intro lo acc _ _ hle
    simp only [List.foldl_nil]
    omega
  | cons r rs ih =>
    intro lo acc h hall hle
    have hr := hall r (by simp)
    have hg := h.2.1.len_nonneg
    have h1 := h.1
    obtain ⟨ih1, ih2⟩ := ih (acc + r.len_) h.2.2 (fun x hx => hall x (List.mem_cons_of_mem _ hx)) hr
    simp only [List.foldl_cons]
    omega

/-- Pending stays inside the window, below 2^31.  In every state reached from a
fresh reassembler and channel (capacity below 2^63) by `insert` calls whose
fragments end below 2^31 and by `pop` calls, every pending record ends at or
before `next_index + available_capacity()`, `bytes_pending()` is at most
`available_capacity()`, and `bytes_pending() + bytes_buffered()` is at most the
capacity. -/
theorem pending_inside_window_below_2p31 (capacity : Nat) (R : Reassembler) (W : ByteStream)
    (hcap : capacity < 9223372036854775808) (hreach : Reachable capacity R W) :
    (∀ r ∈ R.buf_, r.index_ + r.len_ ≤ R.buf_beginning_ + (W.available_capacity : Int)) ∧
    R.bytes_pending ≤ W.available_capacity ∧
    R.bytes_pending + W.bytes_buffered ≤ capacity := by
  obtain ⟨hI, hc⟩ := Reachable.inv hcap hreach
  have hF := Reachable.flow hcap hreach
  have hav := ByteStream.available_capacity_eq hI.buf_le (by have := hI.cap; omega)
  have hble := hI.buf_le
  obtain ⟨h1, h2⟩ := Sep.sum_le 0 hI.sep hF.window (by omega)
  have hb : R.bytes_pending ≤ W.available_capacity := by
    unfold Reassembler.bytes_pending wrapU64
    omega
  refine ⟨hF.window, hb, ?_⟩
  unfold ByteStream.bytes_buffered
  omega

/-- On capacity 10: after insert("cd", 2) and insert("f", 5) three bytes are
pending, ten are available. -/
theorem pending_inside_window_example :
    Reassembler.bytes_pending ⟨0, false, [⟨2, 2, ['c', 'd']⟩, ⟨5, 1, ['f']⟩]⟩
      ≤ (ByteStream.ctor 10).available_capacity :=
  (pending_inside_window_below_2p31 10 ⟨0, false, [⟨2, 2, ['c', 'd']⟩, ⟨5, 1, ['f']⟩]⟩
    (ByteStream.ctor 10) (by decide)
    ⟨[Call.insert 5 ['f'] false, Call.insert 2 ['c', 'd'] false],
      by simp [Call.InRange], by decide⟩).2.1

/-- The method `insert` never fails below 2^31.  For every capacity below 2^63
and every sequence of `insert` calls whose fragments end below 2^31, with any
data and any last-fragment marks, interleaved with `pop` calls, on a fresh
reassembler and channel, every call returns: no assertion of `merge_record`
fails and no `substr` offset is out of bounds. -/
theorem insert_never_fails_below_2p31 (capacity : Nat) (calls : List Call)
    (hcap : capacity < 9223372036854775808) (hall : ∀ c ∈ calls, c.InRange) :
    ∃ R W, run (Reassembler.fresh, ByteStream.ctor capacity) calls = some (R, W) := by
  obtain ⟨R, W, h, -, -⟩ := run_inv calls (fresh_inv hcap) hall
  exact ⟨R, W, h⟩

/-- Overlapping, stale, unreachable and empty fragments and two final markers,
capacity 4. -/
theorem insert_never_fails_example :
    ∃ R W, run (Reassembler.fresh, ByteStream.ctor 4)
      [Call.insert 2 ['c', 'd'] true, Call.insert 1 ['b', 'c'] false, Call.insert 9 ['z'] false,
        Call.insert 0 ['a', 'b'] false, Call.insert 0 ['a'] false, Call.insert 4 [] true,
        Call.pop 3] = some (R, W) :=
  insert_never_fails_below_2p31 4 _ (by decide) (by
    intro c hc
    simp only [List.mem_cons, List.mem_singleton, List.not_mem_nil, or_false] at hc
    rcases hc with rfl | rfl | rfl | rfl | rfl | rfl | rfl <;> simp [Call.InRange])

/-- The push inside `insert` never truncates, below 2^31.  In every state
reached from a fresh reassembler and channel (capacity below 2^63) by `insert`
calls whose fragments end below 2^31 and by `pop` calls, an `insert` call whose
fragment ends below 2^31 returns, appends to the channel buffer a run that is
no longer than `available_capacity()` was and whose length is the advance of
`next_index`, leaves `next_index == bytes_pushed()`, and does not lower
`next_index`. -/
theorem push_never_truncates_below_2p31 (capacity : Nat) (R : Reassembler) (W : ByteStream)
    (first_index : Nat) (data : List Char) (is_last_substring : Bool)
    (hcap : capacity < 9223372036854775808) (hreach : Reachable capacity R W)
    (hend : first_index + data.length < 2147483648) :
    (W.bytes_pushed : Int) = R.buf_beginning_ ∧
    ∃ R' W' pushed, R.insert first_index data is_last_substring W = some (R', W') ∧
      W'.buf = W.buf ++ pushed ∧ pushed.length ≤ W.available_capacity ∧
      (pushed.length : Int) = R'.buf_beginning_ - R.buf_beginning_ ∧
      W'.bytes_pushed = W.bytes_pushed + pushed.length ∧
      (W'.bytes_pushed : Int) = R'.buf_beginning_ ∧
      R.buf_beginning_ ≤ R'.buf_beginning_ := by
  have hI := (Reachable.inv hcap hreach).1
  have hF := Reachable.flow hcap hreach
  obtain ⟨R', W', h1, -, -⟩ :=
    Reassembler.insert_inv first_index data is_last_substring hI hend
  obtain ⟨hF', hmono, hwin, -, hlen, htake⟩ :=
    Reassembler.insert_flow hI hF first_index data is_last_substring hend h1
  have hp := hF.pushed
  have hp' := hF'.pushed
  refine ⟨hp, R', W', W'.buf.drop W.buf.length, h1, ?_, ?_, ?_, ?_, hp', hmono⟩
  · conv_lhs => rw [← List.take_append_drop W.buf.length W'.buf]
    rw [htake]
  · rw [List.length_drop]
    omega
  · rw [List.length_drop]
    omega
  · rw [List.length_drop]
    unfold ByteStream.bytes_pushed
    omega

/-- On capacity 10 after insert("cd", 2): insert("ab", 0) pushes the run "abcd". -/
theorem push_never_truncates_example :
    ∃ R' W' pushed, Reassembler.insert ⟨0, false, [⟨2, 2, ['c', 'd']⟩]⟩ 0 ['a', 'b'] false
        (ByteStream.ctor 10) = some (R', W') ∧
      W'.buf = (ByteStream.ctor 10).buf ++ pushed ∧
      pushed.length ≤ (ByteStream.ctor 10).available_capacity ∧
      (pushed.length : Int) = R'.buf_beginning_ - 0 ∧
      W'.bytes_pushed = (ByteStream.ctor 10).bytes_pushed + pushed.length ∧
      (W'.bytes_pushed : Int) = R'.buf_beginning_ ∧ (0 : Int) ≤ R'.buf_beginning_ :=
  (push_never_truncates_below_2p31 10 ⟨0, false, [⟨2, 2, ['c', 'd']⟩]⟩ (ByteStream.ctor 10)
    0 ['a', 'b'] false (by decide)
    ⟨[Call.insert 2 ['c', 'd'] false], by simp [Call.InRange], by decide⟩ (by decide)).2

/-! ## What one `insert` adds to the ground covered, below 2^31 -/

namespace Reassembler

theorem merged_reaches {r1 r2 : Buf_Record} (h2 : r2.Good) (hle : r1.index_ ≤ r2.index_)
    (hadj : r2.index_ ≤ r1.index_ + r1.len_) (j : Int) :
    (merged r1 r2).reaches j ↔ (r1.reaches j ∨ r2.reaches j) := by
  have hl := h2.len_nonneg
  unfold Buf_Record.reaches
  rw [merged_end, merged_index]
  rcases le_total (r1.index_ + r1.len_) (r2.index_ + r2.len_) with hm | hm
  · rw [max_eq_right hm]
    omega
  · rw [max_eq_left hm]
    omega

theorem absorb_reaches (G : Int → Prop) {rs : List Buf_Record} {cur c : Buf_Record} {lo : Int}
    {rest : List Buf_Record} (hg : cur.Good) (hsep : Sep lo rs)
    (hge : ∀ r ∈ rs, cur.index_ ≤ r.index_) (hcur : ∀ j, cur.reaches j → G j)
    (hrs : ∀ r ∈ rs, ∀ j, r.reaches j → G j) (h : absorb cur rs = some (c, rest)) :
    ∀ j, c.reaches j → G j := by
  refine absorb_keeps (fun r => ∀ j, r.reaches j → G j) (fun r => ∀ j, r.reaches j → G j) ?_
    rs cur lo c rest hg hsep hge hcur hrs h
  intro r1 r2 _ hg2 hle hadj hP hQ j hj
  rcases (merged_reaches hg2 hle hadj j).1 hj with h1 | h1
  · exact hP j h1
  · exact hQ j h1

theorem insert_ground {R R' : Reassembler} {W W' : ByteStream} (hI : Inv R W) (hF : Flow R W)
    (fi : Nat) (d : List Char) (l : Bool) (hend : fi + d.length < 2147483648)
    (h : insert R fi d l W = some (R', W')) (j : Int) :
    R'.ground j ↔
      (R.ground j ∨ fragGround (R.buf_beginning_ + (W.available_capacity : Int)) fi d.length j) := by
  have hS := hI.toShape
  have hnb := hS.nb_nonneg
  rcases insert_cases hI hF fi d l hend h with
    ⟨hout, rfl, rfl⟩ | ⟨hin, c, pre, rest, hst, hbuf, habs, hcg, hci, hce, hcw, hpre, hR, hW⟩ |
    ⟨hin, before, c, pre, rest, hst, hbuf, hbl, hge, habs, hcg, hci, hce, hcw, hpre, hW, hR⟩
  · constructor
    · exact Or.inl
    · rintro (hg | ⟨h1, h2, h3, h4⟩)
      · exact hg
      · left
        omega
  · obtain ⟨hc1, hc2, hc3, hc4, hc5, hc6⟩ := clip_facts hS (d := d) hin
    have hsep : Sep R.buf_beginning_ (pre ++ rest) := by rw [← hbuf]; exact hS.sep
    have hcurg : (⟨clipStart R fi, (clipData R W fi d).length, clipData R W fi d⟩ :
        Buf_Record).Good := ⟨by simp, rfl, by simp only; omega⟩
    have hsub := absorb_reaches
      (fun j => R.ground j ∨
        fragGround (R.buf_beginning_ + (W.available_capacity : Int)) fi d.length j)
      hcurg hsep
      (fun r hr => by
        have := (Sep.of_mem hsep r hr).1
        simp only
        omega)
      (fun j hj => by
        right
        unfold Buf_Record.reaches at hj
        simp only at hj
        unfold fragGround
        omega)
      (fun r hr j hj => Or.inl (Or.inr ⟨r, by rw [hbuf]; exact hr, hj⟩)) habs
    have hRnb : R'.buf_beginning_ = c.index_ + c.len_ := by rw [hR]
    have hRbuf : R'.buf_ = rest := by rw [hR]
    have hcl := hcg.len_nonneg
    unfold ground
    rw [hRnb, hRbuf]
    constructor
    · rintro (hj | ⟨r, hr, hj⟩)
      · by_cases hlow : j ≤ 2 * R.buf_beginning_
        · exact Or.inl (Or.inl hlow)
        · exact hsub j ⟨by omega, hj⟩
      · exact Or.inl (Or.inr ⟨r, by rw [hbuf]; exact List.mem_append_right _ hr, hj⟩)
    · rintro ((hj | ⟨r, hr, hj⟩) | ⟨h1, h2, h3, h4⟩)
      · left
        omega
      · rw [hbuf] at hr
        rcases List.mem_append.1 hr with hr | hr
        · left
          have := hpre r hr
          unfold Buf_Record.reaches at hj
          omega
        · exact Or.inr ⟨r, hr, hj⟩
      · left
        omega
  · obtain ⟨hc1, hc2, hc3, hc4, hc5, hc6⟩ := clip_facts hS (d := d) hin
    have hsep : Sep R.buf_beginning_ (before ++ (pre ++ rest)) := by rw [← hbuf]; exact hS.sep
    obtain ⟨hsb, hsa⟩ := Sep.append.1 hsep
    have hcurg : (⟨clipStart R fi, (clipData R W fi d).length, clipData R W fi d⟩ :
        Buf_Record).Good := ⟨by simp, rfl, by simp only; omega⟩
    have hsub := absorb_reaches
      (fun j => R.ground j ∨
        fragGround (R.buf_beginning_ + (W.available_capacity : Int)) fi d.length j)
      hcurg hsa (fun r hr => hge r hr)
      (fun j hj => by
        right
        unfold Buf_Record.reaches at hj
        simp only at hj
        unfold fragGround
        omega)
      (fun r hr j hj => Or.inl (Or.inr ⟨r, by rw [hbuf]; exact List.mem_append_right _ hr, hj⟩))
      habs
    have hRnb : R'.buf_beginning_ = R.buf_beginning_ := by
      rcases hR with ⟨_, _, _, _, rfl⟩ | ⟨_, rfl⟩ <;> rfl
    have hcl := hcg.len_nonneg
    -- the points the clipped fragment brings are reached by `c`
    have hfc : fragGround (R.buf_beginning_ + (W.available_capacity : Int)) fi d.length j →
        c.reaches j := by
      rintro ⟨h1, h2, h3, h4⟩
      unfold Buf_Record.reaches
      omega
    have hprec : ∀ r ∈ pre, r.reaches j → c.reaches j := by
      intro r hr hj
      have h1 := hge r (List.mem_append_left _ hr)
      have h2 := hpre r hr
      unfold Buf_Record.reaches at hj ⊢
      omega
    unfold ground
    rw [hRnb]
    rcases hR with ⟨init, p, hbe, htouch, hR⟩ | ⟨hgap, hR⟩
    · have hRbuf : R'.buf_ = init ++ merged p c :: rest := by rw [hR]
      have hpg : p.Good := (Sep.of_mem hsb p (by rw [hbe]; simp)).2
      have hpi : p.index_ < c.index_ := by
        rw [hci]
        exact hbl p (by rw [hbe]; simp)
      have hm := @merged_reaches p c hcg (le_of_lt hpi) htouch j
      rw [hRbuf]
      constructor
      · rintro (hj | ⟨r, hr, hj⟩)
        · exact Or.inl (Or.inl hj)
        · rcases List.mem_append.1 hr with hr | hr
          · exact Or.inl (Or.inr ⟨r, by rw [hbuf, hbe]; simp [hr], hj⟩)
          · rcases List.mem_cons.1 hr with rfl | hr
            · rcases hm.1 hj with hj | hj
              · exact Or.inl (Or.inr ⟨p, by rw [hbuf, hbe]; simp, hj⟩)
              · exact hsub j hj
            · exact Or.inl (Or.inr ⟨r, by rw [hbuf]; simp [hr], hj⟩)
      · have hmem : (merged p c) ∈ init ++ merged p c :: rest := by simp
        rintro ((hj | ⟨r, hr, hj⟩) | hfr)
        · exact Or.inl hj
        · rw [hbuf, hbe] at hr
          rcases List.mem_append.1 hr with hr | hr
          · rcases List.mem_append.1 hr with hr | hr
            · exact Or.inr ⟨r, List.mem_append_left _ hr, hj⟩
            · obtain rfl : r = p := by simpa using hr
              exact Or.inr ⟨_, hmem, hm.2 (Or.inl hj)⟩
          · rcases List.mem_append.1 hr with hr | hr
            · exact Or.inr ⟨_, hmem, hm.2 (Or.inr (hprec r hr hj))⟩
            · exact Or.inr ⟨r, List.mem_append_right _ (List.mem_cons_of_mem _ hr), hj⟩
        · exact Or.inr ⟨_, hmem, hm.2 (Or.inr (hfc hfr))⟩
    · have hRbuf : R'.buf_ = before ++ c :: rest := by rw [hR]
      rw [hRbuf]
      constructor
      · rintro (hj | ⟨r, hr, hj⟩)
        · exact Or.inl (Or.inl hj)
        · rcases List.mem_append.1 hr with hr | hr
          · exact Or.inl (Or.inr ⟨r, by rw [hbuf]; exact List.mem_append_left _ hr, hj⟩)
          · rcases List.mem_cons.1 hr with rfl | hr
            · exact hsub j hj
            · exact Or.inl (Or.inr ⟨r, by rw [hbuf]; simp [hr], hj⟩)
      · have hmem : c ∈ before ++ c :: rest := by simp
        rintro ((hj | ⟨r, hr, hj⟩) | hfr)
        · exact Or.inl hj
        · rw [hbuf] at hr
          rcases List.mem_append.1 hr with hr | hr
          · exact Or.inr ⟨r, List.mem_append_left _ hr, hj⟩
          · rcases List.mem_append.1 hr with hr | hr
            · exact Or.inr ⟨_, hmem, hprec r hr hj⟩
            · exact Or.inr ⟨r, List.mem_append_right _ (List.mem_cons_of_mem _ hr), hj⟩
        · exact Or.inr ⟨_, hmem, hfc hfr⟩

end Reassembler

/-! ## The naive index-set model, below 2^31 -/

theorem Sep.card_held {rs : List Buf_Record} {hi : Int} (p : Int → Prop) [DecidablePred p] :
    ∀ {lo : Int} (acc : Int), Sep lo rs → (∀ r ∈ rs, r.index_ + r.len_ ≤ hi) →
      (∀ i, lo ≤ i → (p i ↔ ∃ r ∈ rs, r.index_ ≤ i ∧ i < r.index_ + r.len_)) →
      rs.foldl (fun cnt t => cnt + t.len_) acc
        = acc + (((Finset.Ico lo hi).filter p).card : Int) := by
  induction rs with
  | nil =>
    intro lo acc _ _ hp
    have : (Finset.Ico lo hi).filter p = ∅ := by
      ext i
      simp only [Finset.mem_filter, Finset.mem_Ico, Finset.not_mem_empty, iff_false, not_and]
      intro hi1 hpi
      obtain ⟨r, hr, -⟩ := (hp i hi1.1).1 hpi
      cases hr
    rw [this]
    simp
  | cons r t ih =>
    intro lo acc h hall hp
    have hr := hall r (by simp)
    have hg := h.2.1.len_nonneg
    have h1 := h.1
    have hp' : ∀ i, r.index_ + r.len_ ≤ i →
        (p i ↔ ∃ x ∈ t, x.index_ ≤ i ∧ i < x.index_ + x.len_) := by
      intro i hi1
      rw [hp i (by omega)]
      constructor
      · rintro ⟨x, hx, hx1, hx2⟩
        rcases List.mem_cons.1 hx with rfl | hx
        · omega
        · exact ⟨x, hx, hx1, hx2⟩
      · rintro ⟨x, hx, hx1, hx2⟩
        exact ⟨x, List.mem_cons_of_mem _ hx, hx1, hx2⟩
    have hset : (Finset.Ico lo hi).filter p
        = Finset.Ico r.index_ (r.index_ + r.len_)
          ∪ (Finset.Ico (r.index_ + r.len_) hi).filter p := by
      ext i
      simp only [Finset.mem_filter, Finset.mem_Ico, Finset.mem_union]
      constructor
      · rintro ⟨⟨ha, hb⟩, hpi⟩
        obtain ⟨x, hx, hx1, hx2⟩ := (hp i ha).1 hpi
        rcases List.mem_cons.1 hx with rfl | hx
        · exact Or.inl ⟨hx1, hx2⟩
        · have := (Sep.of_mem h.2.2 x hx).1
          exact Or.inr ⟨⟨by omega, hb⟩, hpi⟩
      · rintro (⟨ha, hb⟩ | ⟨⟨ha, hb⟩, hpi⟩)
        · exact ⟨⟨by omega, by omega⟩, (hp i (by omega)).2 ⟨r, by simp, ha, hb⟩⟩
        · exact ⟨⟨by omega, hb⟩, hpi⟩
    have hdis : Disjoint (Finset.Ico r.index_ (r.index_ + r.len_))
        ((Finset.Ico (r.index_ + r.len_) hi).filter p) := by
      rw [Finset.disjoint_left]
      intro i hi1 hi2
      simp only [Finset.mem_filter, Finset.mem_Ico] at hi1 hi2
      omega
    have ih' := ih (acc + r.len_) h.2.2 (fun x hx => hall x (List.mem_cons_of_mem _ hx)) hp'
    rw [List.foldl_cons, ih', hset, Finset.card_union_of_disjoint hdis, Int.card_Ico]
    push_cast
    have : ((r.index_ + r.len_ - r.index_).toNat : Int) = r.len_ := by omega
    rw [this]
    ring

namespace Reassembler

theorem ground_odd (R : Reassembler) (i : Int) :
    R.ground (2 * i + 1) ↔ (i < R.buf_beginning_ ∨ R.held i) := by
  unfold ground held Buf_Record.reaches
  constructor
  · rintro (h | ⟨r, hr, h1, h2⟩)
    · left
      omega
    · exact Or.inr ⟨r, hr, by omega, by omega⟩
  · rintro (h | ⟨r, hr, h1, h2⟩)
    · left
      omega
    · exact Or.inr ⟨r, hr, by omega, by omega⟩

theorem fragGround_odd (w : Int) (fi len : Nat) (i : Int) :
    fragGround w fi len (2 * i + 1) ↔
      ((fi : Int) ≤ i ∧ i < (fi : Int) + (len : Int) ∧ i < w) := by
  unfold fragGround
  omega

end Reassembler

/-- No byte that fits is lost, below 2^31: the refinement of the naive
index-set model.  In every state reached from a fresh reassembler and channel
(capacity below 2^63) by `insert` calls whose fragments end below 2^31 and by
`pop` calls, an `insert` call whose fragment ends below 2^31 returns, and with
`K` the indices held by the pending records together with the indices of the
new fragment inside `[next_index, next_index + available_capacity())`:
the new `next_index` is the least index from the old one on that is not in `K`,
the channel buffer grows by exactly the advance of `next_index`, the pending
records afterwards hold exactly the indices of `K` from the new `next_index` on,
and `bytes_pending()` is the number of these indices. -/
theorem index_set_refinement_below_2p31 (capacity : Nat) (R : Reassembler) (W : ByteStream)
    (first_index : Nat) (data : List Char) (is_last_substring : Bool)
    (hcap : capacity < 9223372036854775808) (hreach : Reachable capacity R W)
    (hend : first_index + data.length < 2147483648) :
    ∃ R' W', R.insert first_index data is_last_substring W = some (R', W') ∧
      R.buf_beginning_ ≤ R'.buf_beginning_ ∧
      (∀ i, R.buf_beginning_ ≤ i → i < R'.buf_beginning_ → R.known W first_index data i) ∧
      ¬ R.known W first_index data R'.buf_beginning_ ∧
      (W'.buf.length : Int) = W.buf.length + (R'.buf_beginning_ - R.buf_beginning_) ∧
      (∀ i, R'.held i ↔ (R.known W first_index data i ∧ R'.buf_beginning_ ≤ i)) ∧
      R'.bytes_pending
        = Set.ncard {i : Int | R.known W first_index data i ∧ R'.buf_beginning_ ≤ i} := by
  obtain ⟨hI, hc⟩ := Reachable.inv hcap hreach
  have hF := Reachable.flow hcap hreach
  obtain ⟨R', W', h1, hI', hc'⟩ :=
    Reassembler.insert_inv first_index data is_last_substring hI hend
  obtain ⟨hF', hmono, hwin, -, hlen, -⟩ :=
    Reassembler.insert_flow hI hF first_index data is_last_substring hend h1
  have hG := Reassembler.insert_ground hI hF first_index data is_last_substring hend h1
  -- the ground at the bytes
  have key : ∀ i : Int, (i < R'.buf_beginning_ ∨ R'.held i) ↔
      ((i < R.buf_beginning_ ∨ R.held i) ∨
        ((first_index : Int) ≤ i ∧ i < (first_index : Int) + (data.length : Int) ∧
          i < R.buf_beginning_ + (W.available_capacity : Int))) := by
    intro i
    rw [← Reassembler.ground_odd, ← Reassembler.ground_odd, ← Reassembler.fragGround_odd]
    exact hG (2 * i + 1)
  have hheld' : ∀ i, R'.held i → R'.buf_beginning_ < i := by
    rintro i ⟨r, hr, hr1, hr2⟩
    have := (Sep.of_mem hI'.sep r hr).1
    omega
  have hheld : ∀ i, R.held i → R.buf_beginning_ < i := by
    rintro i ⟨r, hr, hr1, hr2⟩
    have := (Sep.of_mem hI.sep r hr).1
    omega
  have hkwin : ∀ i, R.known W first_index data i →
      i < R.buf_beginning_ + (W.available_capacity : Int) := by
    rintro i (⟨r, hr, hr1, hr2⟩ | ⟨-, -, h⟩)
    · have := hF.window r hr
      omega
    · exact h
  have hnot : ¬ R.known W first_index data R'.buf_beginning_ := by
    intro hk
    have hk' : (R'.buf_beginning_ < R'.buf_beginning_ ∨ R'.held R'.buf_beginning_) := by
      rw [key]
      rcases hk with hk | ⟨⟨a, b⟩, c, e⟩
      · exact Or.inl (Or.inr hk)
      · exact Or.inr ⟨a, b, e⟩
    rcases hk' with hk' | hk'
    · omega
    · have := hheld' _ hk'
      omega
  have hexact : ∀ i, R'.held i ↔ (R.known W first_index data i ∧ R'.buf_beginning_ ≤ i) := by
    intro i
    constructor
    · intro hh
      have hgt := hheld' i hh
      rcases (key i).1 (Or.inr hh) with (hlt | hk) | ⟨a, b, e⟩
      · omega
      · exact ⟨Or.inl hk, le_of_lt hgt⟩
      · exact ⟨Or.inr ⟨⟨a, b⟩, by omega, e⟩, le_of_lt hgt⟩
    · rintro ⟨hk, hge⟩
      have : (i < R'.buf_beginning_ ∨ R'.held i) := by
        rw [key]
        rcases hk with hk | ⟨⟨a, b⟩, c, e⟩
        · exact Or.inl (Or.inr hk)
        · exact Or.inr ⟨a, b, e⟩
      rcases this with hlt | hh
      · omega
      · exact hh
  refine ⟨R', W', h1, hmono, ?_, hnot, by omega, hexact, ?_⟩
  · intro i hi1 hi2
    rcases (key i).1 (Or.inl hi2) with (hlt | hk) | ⟨a, b, e⟩
    · omega
    · exact Or.inl hk
    · exact Or.inr ⟨⟨a, b⟩, hi1, e⟩
  · -- the count
    have hwin' : ∀ r ∈ R'.buf_, r.index_ + r.len_
        ≤ R.buf_beginning_ + (W.available_capacity : Int) := by
      intro r hr
      have := hF'.window r hr
      omega
    have hcard := Sep.card_held (fun i => R.known W first_index data i) 0 hI'.sep hwin'
      (by
        intro i hi
        show R.known W first_index data i ↔ R'.held i
        rw [hexact]
        exact ⟨fun hk => ⟨hk, hi⟩, fun hk => hk.1⟩)
    have hset : {i : Int | R.known W first_index data i ∧ R'.buf_beginning_ ≤ i}
        = ((Finset.Ico R'.buf_beginning_ (R.buf_beginning_ + (W.available_capacity : Int))).filter
            (fun i => R.known W first_index data i) : Finset Int) := by
      ext i
      simp only [Set.mem_setOf_eq, Finset.coe_filter, Finset.mem_Ico]
      constructor
      · rintro ⟨hk, hge⟩
        exact ⟨⟨hge, hkwin i hk⟩, hk⟩
      · rintro ⟨⟨hge, -⟩, hk⟩
        exact ⟨hk, hge⟩
    rw [hset, Set.ncard_coe_Finset]
    unfold Reassembler.bytes_pending
    rw [hcard, zero_add]
    exact wrapU64_natCast (by
      have hle := Finset.card_filter_le
        (Finset.Ico R'.buf_beginning_ (R.buf_beginning_ + (W.available_capacity : Int)))
        (fun i => R.known W first_index data i)
      rw [Int.card_Ico] at hle
      have hav := ByteStream.available_capacity_eq hI.buf_le (by have := hI.cap; omega)
      have := hI.cap
      omega)

/-- The refinement on capacity 10 after insert("cd", 2): for insert("ab", 0) the
set `K` is {0, 1, 2, 3}, so the new `next_index` is 4 and nothing is pending. -/
theorem index_set_refinement_example :
    ∃ R' W', Reassembler.insert ⟨0, false, [⟨2, 2, ['c', 'd']⟩]⟩ 0 ['a', 'b'] false
        (ByteStream.ctor 10) = some (R', W') ∧
      ¬ Reassembler.known ⟨0, false, [⟨2, 2, ['c', 'd']⟩]⟩ (ByteStream.ctor 10) 0 ['a', 'b']
        R'.buf_beginning_ ∧
      R'.buf_beginning_ = 4 := by
  obtain ⟨R', W', h1, -, -, h4, -⟩ := index_set_refinement_below_2p31 10
    ⟨0, false, [⟨2, 2, ['c', 'd']⟩]⟩ (ByteStream.ctor 10) 0 ['a', 'b'] false (by decide)
    ⟨[Call.insert 2 ['c', 'd'] false], by simp [Call.InRange], by decide⟩ (by decide)
  refine ⟨R', W', h1, h4, ?_⟩
  have h2 : Reassembler.insert ⟨0, false, [⟨2, 2, ['c', 'd']⟩]⟩ 0 ['a', 'b'] false
      (ByteStream.ctor 10)
      = some (⟨4, false, []⟩, ⟨10, ['a', 'b', 'c', 'd'], 4, 0, false, false⟩) := by decide
  rw [h2] at h1
  cases h1
  rfl

/-! ## The end of the stream under proper last-fragment marks, below 2^31 -/

namespace Reassembler

theorem insert_frame {R R' : Reassembler} {W W' : ByteStream} (hI : Inv R W) (hF : Flow R W)
    (fi : Nat) (d : List Char) (l : Bool) (hend : fi + d.length < 2147483648)
    (h : insert R fi d l W = some (R', W')) :
    W'.capacity_ = W.capacity_ ∧ W'.err_ = W.err_ ∧ W'.poped_len = W.poped_len := by
  rcases insert_cases hI hF fi d l hend h with
    ⟨-, -, rfl⟩ | ⟨-, c, pre, rest, -, -, -, -, -, -, -, -, -, hW⟩ |
    ⟨-, before, c, pre, rest, -, -, -, -, -, -, -, -, -, -, hW, -⟩
  · exact ⟨rfl, rfl, rfl⟩
  · rw [hW]
    exact ⟨rfl, rfl, rfl⟩
  · rw [hW]
    exact ⟨rfl, rfl, rfl⟩

theorem insert_awaits {s : List Char} {R R' : Reassembler} {W W' : ByteStream}
    (hT : Tracks s R W) (hJ : Awaits s.length R) (fi : Nat) (d : List Char) (l : Bool)
    (hend : fi + d.length < 2147483648) (hlen : fi + d.length ≤ s.length)
    (hmark : l = true ↔ fi + d.length = s.length)
    (h : insert R fi d l W = some (R', W')) :
    Awaits s.length R' ∧
      R'.ended_ = (R.ended_ ||
        (l && decide ((fi : Int) < R.buf_beginning_ + (W.available_capacity : Int)) &&
          decide ((fi : Int) + (d.length : Int)
            ≤ R.buf_beginning_ + (W.available_capacity : Int)))) := by
  have hI := hT.inv
  have hF := hT.flow
  have hS := hI.toShape
  have hnb := hS.nb_nonneg
  have hpush := hF.pushed
  have hbound := hT.agree.bound
  have hEA : ∀ (hin : ¬ (R.buf_beginning_ + (W.available_capacity : Int) ≤ (fi : Int) ∨
      ((fi : Int) < R.buf_beginning_ ∧ (fi : Int) + (d.length : Int) ≤ R.buf_beginning_))),
      endedAfter R W fi d l = (R.ended_ ||
        (l && decide ((fi : Int) < R.buf_beginning_ + (W.available_capacity : Int)) &&
          decide ((fi : Int) + (d.length : Int)
            ≤ R.buf_beginning_ + (W.available_capacity : Int)))) := by
    intro hin
    have h1 : (fi : Int) < R.buf_beginning_ + (W.available_capacity : Int) := by omega
    unfold endedAfter
    simp [h1]
  -- the clipped fragment ends before the end of the stream while `ended_` stays unset
  have hclipN : ∀ (hin : ¬ (R.buf_beginning_ + (W.available_capacity : Int) ≤ (fi : Int) ∨
      ((fi : Int) < R.buf_beginning_ ∧ (fi : Int) + (d.length : Int) ≤ R.buf_beginning_))),
      endedAfter R W fi d l = false →
      (clipStart R fi : Int) + ((clipData R W fi d).length : Int) < (s.length : Int) := by
    intro hin he
    obtain ⟨hc1, hc2, hc3, hc4, hc5, hc6⟩ := clip_facts hS (d := d) hin
    unfold endedAfter at he
    simp only [Bool.or_eq_false_iff, Bool.and_eq_false_imp, decide_eq_false_iff_not] at he
    by_cases hl : l = true
    · have h1 := he.2 hl
      have h2 := hmark.1 hl
      omega
    · have h2 : fi + d.length ≠ s.length := fun hx => hl (hmark.2 hx)
      omega
  rcases insert_cases hI hF fi d l hend h with
    ⟨hout, hRR, -⟩ | ⟨hin, c, pre, rest, hst, hbuf, habs, hcg, hci, hce, hcw, hpre, hR, hW⟩ |
    ⟨hin, before, c, pre, rest, hst, hbuf, hbl, hge, habs, hcg, hci, hce, hcw, hpre, hW, hR⟩
  · rw [hRR]
    refine ⟨hJ, ?_⟩
    cases he : R.ended_ with
    | true => rfl
    | false =>
      have hf := hJ.front he
      by_cases hl : l = true
      · have h2 := hmark.1 hl
        have hfalse : (decide ((fi : Int) < R.buf_beginning_ + (W.available_capacity : Int)) &&
            decide ((fi : Int) + (d.length : Int)
              ≤ R.buf_beginning_ + (W.available_capacity : Int))) = false := by
          rw [Bool.and_eq_false_iff]
          rcases hout with hout | hout
          · left
            simp only [decide_eq_false_iff_not]
            omega
          · exfalso
            omega
        rw [hl, Bool.true_and, hfalse]
        rfl
      · have hl' : l = false := by simpa using hl
        rw [hl']
        rfl
  · have hsep : Sep R.buf_beginning_ (pre ++ rest) := by rw [← hbuf]; exact hS.sep
    obtain ⟨hc1, hc2, hc3, hc4, hc5, hc6⟩ := clip_facts hS (d := d) hin
    have hcurg : (⟨clipStart R fi, (clipData R W fi d).length, clipData R W fi d⟩ :
        Buf_Record).Good := ⟨by simp, rfl, by simp only; omega⟩
    have hRe : R'.ended_ = endedAfter R W fi d l := by rw [hR]
    have hRnb : R'.buf_beginning_ = c.index_ + c.len_ := by rw [hR]
    have hRbuf : R'.buf_ = rest := by rw [hR]
    refine ⟨?_, by rw [hRe]; exact hEA hin⟩
    have hoff : R'.ended_ = false → R.ended_ = false := by
      intro he
      rw [hRe] at he
      unfold endedAfter at he
      exact (Bool.or_eq_false_iff.1 he).1
    have hcN : R'.ended_ = false → c.index_ + c.len_ < (s.length : Int) := by
      intro he
      have hcl := hclipN hin (by rw [← hRe]; exact he)
      have hp := hJ.pending (hoff he)
      exact absorb_keeps (fun r => r.index_ + r.len_ < (s.length : Int))
        (fun r => r.index_ + r.len_ < (s.length : Int))
        (by
          intro r1 r2 _ _ _ _ h1 h2
          rw [merged_end]
          exact max_lt h1 h2)
        (pre ++ rest) _ _ c rest hcurg hsep
        (fun r hr => by
          have := (Sep.of_mem hsep r hr).1
          simp only
          omega)
        hcl (fun r hr => hp r (by rw [hbuf]; exact hr)) habs
    constructor
    · intro he
      right
      rw [hRnb]
      exact hcN he
    · intro he r hr
      rw [hRbuf] at hr
      exact hJ.pending (hoff he) r (by rw [hbuf]; exact List.mem_append_right _ hr)
  · have hsep : Sep R.buf_beginning_ (before ++ (pre ++ rest)) := by rw [← hbuf]; exact hS.sep
    obtain ⟨hsb, hsa⟩ := Sep.append.1 hsep
    obtain ⟨hc1, hc2, hc3, hc4, hc5, hc6⟩ := clip_facts hS (d := d) hin
    have hcurg : (⟨clipStart R fi, (clipData R W fi d).length, clipData R W fi d⟩ :
        Buf_Record).Good := ⟨by simp, rfl, by simp only; omega⟩
    have hRe : R'.ended_ = endedAfter R W fi d l := by
      rcases hR with ⟨_, _, _, _, rfl⟩ | ⟨_, rfl⟩ <;> rfl
    have hRnb : R'.buf_beginning_ = R.buf_beginning_ := by
      rcases hR with ⟨_, _, _, _, rfl⟩ | ⟨_, rfl⟩ <;> rfl
    refine ⟨?_, by rw [hRe]; exact hEA hin⟩
    have hoff : R'.ended_ = false → R.ended_ = false := by
      intro he
      rw [hRe] at he
      unfold endedAfter at he
      exact (Bool.or_eq_false_iff.1 he).1
    have hcN : R'.ended_ = false → c.index_ + c.len_ < (s.length : Int) := by
      intro he
      have hcl := hclipN hin (by rw [← hRe]; exact he)
      have hp := hJ.pending (hoff he)
      exact absorb_keeps (fun r => r.index_ + r.len_ < (s.length : Int))
        (fun r => r.index_ + r.len_ < (s.length : Int))
        (by
          intro r1 r2 _ _ _ _ h1 h2
          rw [merged_end]
          exact max_lt h1 h2)
        (pre ++ rest) _ _ c rest hcurg hsa (fun r hr => hge r hr)
        hcl (fun r hr => hp r (by rw [hbuf]; exact List.mem_append_right _ hr)) habs
    constructor
    · intro he
      rw [hRnb]
      exact hJ.front (hoff he)
    · intro he r hr
      have hp := hJ.pending (hoff he)
      have hold : ∀ x ∈ before ++ (pre ++ rest), x.index_ + x.len_ < (s.length : Int) :=
        fun x hx => hp x (by rw [hbuf]; exact hx)
      rcases hR with ⟨init, p, hbe, htouch, hR⟩ | ⟨hgap, hR⟩
      · rw [hR] at hr
        rcases List.mem_append.1 hr with hr | hr
        · exact hold r (by rw [hbe]; simp [hr])
        · rcases List.mem_cons.1 hr with rfl | hr
          · rw [merged_end]
            exact max_lt (hold p (by rw [hbe]; simp)) (hcN he)
          · exact hold r (by simp [hr])
      · rw [hR] at hr
        rcases List.mem_append.1 hr with hr | hr
        · exact hold r (List.mem_append_left _ hr)
        · rcases List.mem_cons.1 hr with rfl | hr
          · exact hcN he
          · exact hold r (by simp [hr])

end Reassembler

theorem fresh_awaits (N : Nat) : Awaits N Reassembler.fresh := by
  constructor
  · intro _
    show N = 0 ∨ (0 : Int) < (N : Int)
    omega
  · intro _ r hr
    cases hr

theorem run_awaits {s : List Char} (hs : s.length < 2147483648) (calls : List Call) :
    ∀ {R : Reassembler} {W : ByteStream}, Tracks s R W → Completes s.length R W →
      Awaits s.length R → (∀ c ∈ calls, c.Agrees s) → (∀ c ∈ calls, c.MarksEnd s.length) →
      ∃ R' W', run (R, W) calls = some (R', W') ∧ Tracks s R' W' ∧
        Completes s.length R' W' ∧ Awaits s.length R' ∧ W'.capacity_ = W.capacity_ := by
  induction calls with
  | nil =>
    intro R W hT hC hJ _ _
    exact ⟨R, W, rfl, hT, hC, hJ, rfl⟩
  | cons c cs ih =>
    intro R W hT hC hJ hag hmk
    have hca := hag c (by simp)
    have hcm := hmk c (by simp)
    obtain ⟨R1, W1, h1, hT1, hcap1, -, -⟩ := step_tracks hs hT c hca
    have hnext : Completes s.length R1 W1 ∧ Awaits s.length R1 := by
      cases c with
      | insert fi d l =>
        have hin : Reassembler.insert R fi d l W = some (R1, W1) := h1
        obtain ⟨hlen, hd⟩ := hca
        have hend : fi + d.length < 2147483648 := by omega
        exact ⟨(Reassembler.insert_completes hT hC fi d l hend hlen hd hcm hin).1,
          (Reassembler.insert_awaits hT hJ fi d l hend hlen hcm hin).1⟩
      | pop len =>
        have hin : some (R, W.pop len) = some (R1, W1) := h1
        cases hin
        refine ⟨⟨hC.ended, ?_⟩, hJ⟩
        intro hcl
        rw [ByteStream.pop_ended] at hcl
        exact hC.closed hcl
    obtain ⟨R', W', h2, hT', hC', hJ', hcap'⟩ := ih hT1 hnext.1 hnext.2
      (fun x hx => hag x (List.mem_cons_of_mem _ hx))
      (fun x hx => hmk x (List.mem_cons_of_mem _ hx))
    exact ⟨R', W', by rw [run_cons_of_step h1]; exact h2, hT', hC', hJ', by rw [hcap', hcap1]⟩

/-! ## A state is fixed by the ground it covers, below 2^31 -/

theorem Sep.tail_after {lo : Int} {r : Buf_Record} {t : List Buf_Record} (h : Sep lo (r :: t)) :
    ∀ y ∈ t, r.index_ + r.len_ < y.index_ :=
  fun y hy => (Sep.of_mem h.2.2 y hy).1

theorem Sep.head_index_le {lo : Int} {a b : Buf_Record} {as bs : List Buf_Record}
    (ha : Sep lo (a :: as)) (hb : Sep lo (b :: bs))
    (hsub : ∀ j, 2 * lo < j → (∃ r ∈ a :: as, r.reaches j) → ∃ r ∈ b :: bs, r.reaches j) :
    b.index_ ≤ a.index_ := by
  have hal := ha.2.1.len_nonneg
  have hbl := hb.2.1.len_nonneg
  have h1 := ha.1
  obtain ⟨y, hy, hy1, hy2⟩ := hsub (2 * a.index_) (by omega)
    ⟨a, by simp, by unfold Buf_Record.reaches; omega⟩
  rcases List.mem_cons.1 hy with rfl | hy
  · omega
  · have := Sep.tail_after hb y hy
    omega

theorem Sep.head_end_le {lo : Int} {a b : Buf_Record} {as bs : List Buf_Record}
    (ha : Sep lo (a :: as)) (hb : Sep lo (b :: bs)) (hidx : a.index_ = b.index_)
    (hsub : ∀ j, 2 * lo < j → (∃ r ∈ a :: as, r.reaches j) → ∃ r ∈ b :: bs, r.reaches j) :
    a.index_ + a.len_ ≤ b.index_ + b.len_ := by
  have hal := ha.2.1.len_nonneg
  have hbl := hb.2.1.len_nonneg
  have h1 := ha.1
  by_contra hlt
  obtain ⟨y, hy, hy1, hy2⟩ := hsub (2 * (b.index_ + b.len_) + 1) (by omega)
    ⟨a, by simp, by unfold Buf_Record.reaches; omega⟩
  rcases List.mem_cons.1 hy with rfl | hy
  · omega
  · have := Sep.tail_after hb y hy
    omega

theorem Sep.unique {s : List Char} :
    ∀ (rs rs' : List Buf_Record) (lo : Int), Sep lo rs → Sep lo rs' →
      (∀ r ∈ rs, Slice s r) → (∀ r ∈ rs', Slice s r) →
      (∀ j, 2 * lo < j → ((∃ r ∈ rs, r.reaches j) ↔ (∃ r ∈ rs', r.reaches j))) → rs = rs' := by
  intro rs
  induction rs with
  | nil =>
    intro rs' lo _ h' _ _ heq
    cases rs' with
    | nil => rfl
    | cons b bs =>
      exfalso
      have hbl := h'.2.1.len_nonneg
      have h1 := h'.1
      obtain ⟨y, hy, -⟩ := (heq (2 * b.index_) (by omega)).2
        ⟨b, by simp, by unfold Buf_Record.reaches; omega⟩
      cases hy
  | cons a as ih =>
    intro rs' lo h h' hs hs' heq
    cases rs' with
    | nil =>
      exfalso
      have hal := h.2.1.len_nonneg
      have h1 := h.1
      obtain ⟨y, hy, -⟩ := (heq (2 * a.index_) (by omega)).1
        ⟨a, by simp, by unfold Buf_Record.reaches; omega⟩
      cases hy
    | cons b bs =>
      have hi1 := Sep.head_index_le h h' (fun j hj => (heq j hj).1)
      have hi2 := Sep.head_index_le h' h (fun j hj => (heq j hj).2)
      have hidx : a.index_ = b.index_ := le_antisymm hi2 hi1
      have he1 := Sep.head_end_le h h' hidx (fun j hj => (heq j hj).1)
      have he2 := Sep.head_end_le h' h hidx.symm (fun j hj => (heq j hj).2)
      have hlen : a.len_ = b.len_ := by omega
      have hab : a = b := by
        have hsa := (hs a (by simp)).2
        have hsb := (hs' b (by simp)).2
        cases a
        cases b
        simp only at hidx hlen hsa hsb
        subst hidx hlen
        rw [hsa, hsb]
      subst hab
      have hal := h.2.1.len_nonneg
      have h1 := h.1
      have htl : as = bs := by
        refine ih bs (a.index_ + a.len_) h.2.2 h'.2.2
          (fun r hr => hs r (List.mem_cons_of_mem _ hr))
          (fun r hr => hs' r (List.mem_cons_of_mem _ hr)) ?_
        intro j hj
        constructor
        · rintro ⟨r, hr, hrj⟩
          obtain ⟨y, hy, hyj⟩ := (heq j (by omega)).1 ⟨r, List.mem_cons_of_mem _ hr, hrj⟩
          rcases List.mem_cons.1 hy with rfl | hy
          · unfold Buf_Record.reaches at hyj
            omega
          · exact ⟨y, hy, hyj⟩
        · rintro ⟨r, hr, hrj⟩
          obtain ⟨y, hy, hyj⟩ := (heq j (by omega)).2 ⟨r, List.mem_cons_of_mem _ hr, hrj⟩
          rcases List.mem_cons.1 hy with rfl | hy
          · unfold Buf_Record.reaches at hyj
            omega
          · exact ⟨y, hy, hyj⟩
      rw [htl]

namespace Reassembler

theorem ground_front {R : Reassembler} {W : ByteStream} (hI : Inv R W) :
    ¬ R.ground (2 * R.buf_beginning_ + 1) := by
  rintro (h | ⟨r, hr, h1, h2⟩)
  · omega
  · have := (Sep.of_mem hI.sep r hr).1
    omega

theorem eq_of_ground {s : List Char} {R1 R2 : Reassembler} {W1 W2 : ByteStream}
    (h1 : Tracks s R1 W1) (h2 : Tracks s R2 W2) (he : R1.ended_ = R2.ended_)
    (hg : ∀ j, R1.ground j ↔ R2.ground j) : R1 = R2 := by
  have hf1 := ground_front h1.inv
  have hf2 := ground_front h2.inv
  have hnb : R1.buf_beginning_ = R2.buf_beginning_ := by
    rcases lt_trichotomy R1.buf_beginning_ R2.buf_beginning_ with hlt | heq | hgt
    · exact absurd ((hg _).2 (Or.inl (by omega))) hf1
    · exact heq
    · exact absurd ((hg _).1 (Or.inl (by omega))) hf2
  have hbuf : R1.buf_ = R2.buf_ := by
    refine Sep.unique R1.buf_ R2.buf_ R1.buf_beginning_ h1.inv.sep
      (by rw [hnb]; exact h2.inv.sep) h1.agree.pending h2.agree.pending ?_
    intro j hj
    constructor
    · intro hx
      rcases (hg j).1 (Or.inr hx) with hlow | hx'
      · omega
      · exact hx'
    · intro hx
      rcases (hg j).2 (Or.inr hx) with hlow | hx'
      · omega
      · exact hx'
  cases R1
  cases R2
  simp only at hnb he hbuf
  subst hnb he hbuf
  rfl

theorem closed_eq {s : List Char} {R : Reassembler} {W : ByteStream} (hT : Tracks s R W)
    (hC : Completes s.length R W) : W.ended_ = (R.ended_ && R.buf_.isEmpty) := by
  cases hW : W.ended_ with
  | true =>
    obtain ⟨he, hnb⟩ := hC.closed hW
    have hbuf : R.buf_ = [] := by
      cases hb : R.buf_ with
      | nil => rfl
      | cons r t =>
        exfalso
        have hr : r ∈ R.buf_ := by rw [hb]; simp
        have h1 := Sep.of_mem hT.inv.sep r hr
        have h2 := (hT.agree.pending r hr).1
        have := h1.2.len_nonneg
        omega
    rw [he, hbuf]
    rfl
  | false =>
    cases he : R.ended_ with
    | false => rfl
    | true =>
      cases hb : R.buf_ with
      | nil =>
        have := hT.inv.closed he hb
        rw [hW] at this
        cases this
      | cons r t => rfl

theorem channel_eq {s : List Char} {R : Reassembler} {W1 W2 : ByteStream}
    (h1 : Tracks s R W1) (h2 : Tracks s R W2) (hc : W1.capacity_ = W2.capacity_)
    (hp : W1.poped_len = W2.poped_len) (he : W1.ended_ = W2.ended_)
    (herr : W1.err_ = W2.err_) : W1 = W2 := by
  have hpush : W1.pushed_len = W2.pushed_len := by
    have a := h1.flow.pushed
    have b := h2.flow.pushed
    omega
  have hbuf : W1.buf = W2.buf := by
    rw [h1.agree.delivered, h2.agree.delivered, hpush, hp]
  cases W1
  cases W2
  simp only at hc hp he herr hpush hbuf
  subst hc hp he herr hpush hbuf
  rfl

end Reassembler

/-! ## Two fragments in either order, below 2^31 -/

namespace Reassembler

theorem insert_marked {s : List Char} (hs : s.length < 2147483648) {R : Reassembler}
    {W : ByteStream} (hT : Tracks s R W) (hC : Completes s.length R W)
    (hJ : Awaits s.length R) (fi : Nat) (d : List Char) (l : Bool)
    (hlen : fi + d.length ≤ s.length) (hd : d = (s.drop fi).take d.length)
    (hmark : l = true ↔ fi + d.length = s.length) :
    ∃ R' W', insert R fi d l W = some (R', W') ∧ Tracks s R' W' ∧
      Completes s.length R' W' ∧ Awaits s.length R' ∧
      R'.buf_beginning_ + (W'.available_capacity : Int)
        = R.buf_beginning_ + (W.available_capacity : Int) ∧
      R'.ended_ = (R.ended_ ||
        (l && decide ((fi : Int) < R.buf_beginning_ + (W.available_capacity : Int)) &&
          decide ((fi : Int) + (d.length : Int)
            ≤ R.buf_beginning_ + (W.available_capacity : Int)))) ∧
      (∀ j, R'.ground j ↔
        (R.ground j ∨
          fragGround (R.buf_beginning_ + (W.available_capacity : Int)) fi d.length j)) ∧
      W'.capacity_ = W.capacity_ ∧ W'.err_ = W.err_ ∧ W'.poped_len = W.poped_len := by
  have hend : fi + d.length < 2147483648 := by omega
  obtain ⟨R', W', h1, hT', -, -, -⟩ := step_tracks hs hT (Call.insert fi d l) ⟨hlen, hd⟩
  have hin : insert R fi d l W = some (R', W') := h1
  obtain ⟨-, -, hwin, -, -, -⟩ := insert_flow hT.inv hT.flow fi d l hend hin
  obtain ⟨hJ', he⟩ := insert_awaits hT hJ fi d l hend hlen hmark hin
  exact ⟨R', W', hin, hT', (insert_completes hT hC fi d l hend hlen hd hmark hin).1, hJ', hwin,
    he, insert_ground hT.inv hT.flow fi d l hend hin,
    insert_frame hT.inv hT.flow fi d l hend hin⟩

theorem insert_insert_comm {s : List Char} (hs : s.length < 2147483648) {R : Reassembler}
    {W : ByteStream} (hT : Tracks s R W) (hC : Completes s.length R W)
    (hJ : Awaits s.length R) (fi1 : Nat) (d1 : List Char) (l1 : Bool) (fi2 : Nat)
    (d2 : List Char) (l2 : Bool)
    (hlen1 : fi1 + d1.length ≤ s.length) (hd1 : d1 = (s.drop fi1).take d1.length)
    (hmark1 : l1 = true ↔ fi1 + d1.length = s.length)
    (hlen2 : fi2 + d2.length ≤ s.length) (hd2 : d2 = (s.drop fi2).take d2.length)
    (hmark2 : l2 = true ↔ fi2 + d2.length = s.length) :
    ∃ R' W', run (R, W) [.insert fi1 d1 l1, .insert fi2 d2 l2] = some (R', W') ∧
      run (R, W) [.insert fi2 d2 l2, .insert fi1 d1 l1] = some (R', W') := by
  obtain ⟨Ra, Wa, ha, hTa, hCa, hJa, hwa, hea, hga, hca, hra, hpa⟩ :=
    insert_marked hs hT hC hJ fi1 d1 l1 hlen1 hd1 hmark1
  obtain ⟨Ra2, Wa2, ha2, hTa2, hCa2, -, -, hea2, hga2, hca2, hra2, hpa2⟩ :=
    insert_marked hs hTa hCa hJa fi2 d2 l2 hlen2 hd2 hmark2
  obtain ⟨Rb, Wb, hb, hTb, hCb, hJb, hwb, heb, hgb, hcb, hrb, hpb⟩ :=
    insert_marked hs hT hC hJ fi2 d2 l2 hlen2 hd2 hmark2
  obtain ⟨Rb2, Wb2, hb2, hTb2, hCb2, -, -, heb2, hgb2, hcb2, hrb2, hpb2⟩ :=
    insert_marked hs hTb hCb hJb fi1 d1 l1 hlen1 hd1 hmark1
  rw [hwa] at hea2 hga2
  rw [hwb] at heb2 hgb2
  have hg : ∀ j, Ra2.ground j ↔ Rb2.ground j := by
    intro j
    rw [hga2 j, hga j, hgb2 j, hgb j]
    tauto
  have he : Ra2.ended_ = Rb2.ended_ := by
    rw [hea2, hea, heb2, heb, Bool.or_assoc, Bool.or_assoc]
    congr 1
    exact Bool.or_comm _ _
  have hR : Ra2 = Rb2 := eq_of_ground hTa2 hTb2 he hg
  subst hR
  have hW : Wa2 = Wb2 := by
    refine channel_eq hTa2 hTb2 (by rw [hca2, hca, hcb2, hcb]) (by rw [hpa2, hpa, hpb2, hpb])
      ?_ (by rw [hra2, hra, hrb2, hrb])
    rw [closed_eq hTa2 hCa2, closed_eq hTb2 hCb2]
  subst hW
  have sa : step (R, W) (.insert fi1 d1 l1) = some (Ra, Wa) := ha
  have sa2 : step (Ra, Wa) (.insert fi2 d2 l2) = some (Ra2, Wa2) := ha2
  have sb : step (R, W) (.insert fi2 d2 l2) = some (Rb, Wb) := hb
  have sb2 : step (Rb, Wb) (.insert fi1 d1 l1) = some (Ra2, Wa2) := hb2
  refine ⟨Ra2, Wa2, ?_, ?_⟩
  · rw [run_cons_of_step sa, run_cons_of_step sa2, run_nil]
  · rw [run_cons_of_step sb, run_cons_of_step sb2, run_nil]

end Reassembler

/-- C15 (amended). Arrival-order independence.  For every stream `s` of length
N < 2^31, every capacity below 2^63 and every state reached from a fresh
reassembler and channel by `insert` calls whose fragments agree with `s` and
carry the last-fragment mark exactly when they end at N, and by `pop` calls:
for every two fragments that agree with `s` and are marked in the same way,
the two `insert` calls return in either order, and with no `pop` in between
both orders end in the same state of the reassembler and the channel (buffer,
counters, closed flag, `next_index`, ended flag and pending records). -/
theorem C15_two_fragments_in_either_order (s : List Char) (capacity : Nat) (calls : List Call)
    (R : Reassembler) (W : ByteStream) (fi1 : Nat) (d1 : List Char) (l1 : Bool) (fi2 : Nat)
    (d2 : List Char) (l2 : Bool)
    (hs : s.length < 2147483648) (hcap : capacity < 9223372036854775808)
    (hag : ∀ c ∈ calls, c.Agrees s) (hmk : ∀ c ∈ calls, c.MarksEnd s.length)
    (hrun : run (Reassembler.fresh, ByteStream.ctor capacity) calls = some (R, W))
    (ha1 : (Call.insert fi1 d1 l1).Agrees s) (hm1 : (Call.insert fi1 d1 l1).MarksEnd s.length)
    (ha2 : (Call.insert fi2 d2 l2).Agrees s) (hm2 : (Call.insert fi2 d2 l2).MarksEnd s.length) :
    ∃ R' W', run (R, W) [.insert fi1 d1 l1, .insert fi2 d2 l2] = some (R', W') ∧
      run (R, W) [.insert fi2 d2 l2, .insert fi1 d1 l1] = some (R', W') := by
  have hC0 : Completes s.length Reassembler.fresh (ByteStream.ctor capacity) := by
    constructor
    · intro h
      cases h
    · intro h
      cases h
  obtain ⟨R0, W0, h0, hT, hC, hJ, -⟩ :=
    run_awaits hs calls (fresh_tracks s hcap) hC0 (fresh_awaits s.length) hag hmk
  rw [hrun] at h0
  cases h0
  exact Reassembler.insert_insert_comm hs hT hC hJ fi1 d1 l1 fi2 d2 l2 ha1.1 ha1.2 hm1
    ha2.1 ha2.2 hm2

/-- C15, on the stream "abcd" with capacity 10: after insert("d", 3, is_last =
true), the fragments "bc" at 1 and "a" at 0 give the same state in both
orders, the closed channel with the buffer "abcd". -/
theorem C15_two_fragments_in_either_order_witness :
    run (Reassembler.fresh, ByteStream.ctor 10) [Call.insert 3 ['d'] true]
      = some (⟨0, true, [⟨3, 1, ['d']⟩]⟩, ByteStream.ctor 10) ∧
    run (⟨0, true, [⟨3, 1, ['d']⟩]⟩, ByteStream.ctor 10)
        [.insert 1 ['b', 'c'] false, .insert 0 ['a'] false]
      = run (⟨0, true, [⟨3, 1, ['d']⟩]⟩, ByteStream.ctor 10)
        [.insert 0 ['a'] false, .insert 1 ['b', 'c'] false] ∧
    run (⟨0, true, [⟨3, 1, ['d']⟩]⟩, ByteStream.ctor 10)
        [.insert 1 ['b', 'c'] false, .insert 0 ['a'] false]
      = some (⟨4, true, []⟩, ⟨10, ['a', 'b', 'c', 'd'], 4, 0, true, false⟩) := by
  have hrun : run (Reassembler.fresh, ByteStream.ctor 10) [Call.insert 3 ['d'] true]
      = some (⟨0, true, [⟨3, 1, ['d']⟩]⟩, ByteStream.ctor 10) := by decide
  obtain ⟨R', W', h1, h2⟩ := C15_two_fragments_in_either_order ['a', 'b', 'c', 'd'] 10
    [Call.insert 3 ['d'] true] ⟨0, true, [⟨3, 1, ['d']⟩]⟩ (ByteStream.ctor 10)
    1 ['b', 'c'] false 0 ['a'] false (by decide) (by decide)
    (by
      intro c hc
      obtain rfl : c = Call.insert 3 ['d'] true := by simpa using hc
      exact ⟨by decide, rfl⟩)
    (by
      intro c hc
      obtain rfl : c = Call.insert 3 ['d'] true := by simpa using hc
      simp [Call.MarksEnd])
    hrun ⟨by decide, rfl⟩ (by simp [Call.MarksEnd]) ⟨by decide, rfl⟩ (by simp [Call.MarksEnd])
  exact ⟨hrun, by rw [h1, h2], by decide⟩

/-- C15 as stated fails.  Stream "ab" (N = 2), capacity 10.  The state is reached
by insert("b", 1, is_last = false), a fragment that agrees with the stream.  The
fragments f1 = ("b", 1, is_last = true) and f2 = ("a", 0, is_last = false) agree
with the stream and are marked exactly when they end at N.  f1 then f2: f1 sets
`ended_`, f2 delivers "ab" and closes the channel.  f2 then f1: f2 delivers
"ab", then f1 lies wholly before `next_index` = 2 and is discarded before its
mark is read, so `ended_` is not set and the channel stays open. -/
theorem C15_counterexample_stale_last_fragment :
    (Call.insert 1 ['b'] false).Agrees ['a', 'b'] ∧
    run (Reassembler.fresh, ByteStream.ctor 10) [Call.insert 1 ['b'] false]
      = some (⟨0, false, [⟨1, 1, ['b']⟩]⟩, ByteStream.ctor 10) ∧
    (Call.insert 1 ['b'] true).Agrees ['a', 'b'] ∧
    (Call.insert 1 ['b'] true).MarksEnd 2 ∧
    (Call.insert 0 ['a'] false).Agrees ['a', 'b'] ∧
    (Call.insert 0 ['a'] false).MarksEnd 2 ∧
    run (⟨0, false, [⟨1, 1, ['b']⟩]⟩, ByteStream.ctor 10)
        [.insert 1 ['b'] true, .insert 0 ['a'] false]
      = some (⟨2, true, []⟩, ⟨10, ['a', 'b'], 2, 0, true, false⟩) ∧
    run (⟨0, false, [⟨1, 1, ['b']⟩]⟩, ByteStream.ctor 10)
        [.insert 0 ['a'] false, .insert 1 ['b'] true]
      = some (⟨2, false, []⟩, ⟨10, ['a', 'b'], 2, 0, false, false⟩) ∧
    run (⟨0, false, [⟨1, 1, ['b']⟩]⟩, ByteStream.ctor 10)
        [.insert 1 ['b'] true, .insert 0 ['a'] false]
      ≠ run (⟨0, false, [⟨1, 1, ['b']⟩]⟩, ByteStream.ctor 10)
        [.insert 0 ['a'] false, .insert 1 ['b'] true] :=
  ⟨⟨by decide, rfl⟩, by decide, ⟨by decide, rfl⟩, by simp [Call.MarksEnd],
    ⟨by decide, rfl⟩, by simp [Call.MarksEnd], by decide, by decide, by decide⟩

/-- Two fragments in either order at index 2^32.  Capacity 2^32 + 1, fresh state,
stream `tailMarked 2^32`: the last byte "b" at index 2^32 with the last-fragment
mark and the first byte "a" at index 0.  "b" first: it is delivered as byte 0
and closes the channel, then "a" is discarded.  "a" first: it is delivered,
then "b" is stored under the index 0 and the channel stays open. -/
theorem arrival_order_wrapped_example :
    run (Reassembler.fresh, ByteStream.ctor 4294967297)
        [.insert 4294967296 ['b'] true, .insert 0 ['a'] false]
      = some (⟨1, true, []⟩, ⟨4294967297, ['b'], 1, 0, true, false⟩) ∧
    run (Reassembler.fresh, ByteStream.ctor 4294967297)
        [.insert 0 ['a'] false, .insert 4294967296 ['b'] true]
      = some (⟨1, true, [⟨0, 1, ['b']⟩]⟩, ⟨4294967297, ['a'], 1, 0, false, false⟩) :=
  ⟨by decide, by decide⟩

/-! ## A discarded fragment after `next_index` went below zero -/

/-- After 2^31 bytes were pushed, a pop of ten bytes leaves room for ten. -/
theorem pop_long (d : List Char) (hl : d.length = 2147483648) :
    (⟨2147483648, d, 2147483648, 0, false, false⟩ : ByteStream).pop 10
      = ⟨2147483648, d.drop 10, 2147483648, 10, false, false⟩ ∧
    (⟨2147483648, d.drop 10, 2147483648, 10, false, false⟩ : ByteStream).available_capacity
      = 10 := by
  constructor
  · simp [ByteStream.pop, hl]
  · simp [ByteStream.available_capacity, wrapU64, hl]

/-- With `buf_beginning_` at -2^31 the window tests of lines 20-24 compare
`first_index` with `buf_beginning_` converted to `uint64_t`, 2^64 - 2^31: the
fragment at that index passes them, its index is narrowed to -2^31, and its
byte is pushed. -/
theorem insert_behind_zero (d : List Char) (hl : d.length = 2147483648) :
    Reassembler.insert ⟨-2147483648, false, []⟩ 18446744071562067968 ['x'] false
        ⟨2147483648, d.drop 10, 2147483648, 10, false, false⟩
      = some (⟨-2147483647, false, []⟩,
          ⟨2147483648, d.drop 10 ++ ['x'], 2147483649, 10, false, false⟩) := by
  simp [Reassembler.insert, Reassembler.trimRight, Reassembler.place, Reassembler.absorb,
    ByteStream.available_capacity, wrapU64, wrapInt, substrFrom, ByteStream.push,
    Buf_Record.ctor, hl]

/-- C8, failing input.  Capacity 2^31: insert of 2^31 bytes at index 0, then
pop(10), leave `next_index` = -2^31 (the length was added as the `int` -2^31) and
`available_capacity()` = 10.  The fragment ("x", first_index = 2^64 - 2^31) lies
wholly outside the window, `first_index >= next_index + available_capacity()`.
The call does not discard it: the tests of lines 20-24 read `buf_beginning_` as
the `uint64_t` 2^64 - 2^31, the index is narrowed to -2^31 == `buf_beginning_`,
and "x" is pushed: `next_index`, the buffer and `bytes_pushed()` change. -/
theorem C8_fragment_outside_the_window_is_delivered :
    run (Reassembler.fresh, ByteStream.ctor 2147483648)
        [.insert 0 (List.replicate 2147483648 'a') false, .pop 10]
      = some (⟨-2147483648, false, []⟩,
          ⟨2147483648, (List.replicate 2147483648 'a').drop 10, 2147483648, 10, false, false⟩) ∧
    (⟨-2147483648, false, []⟩ : Reassembler).buf_beginning_
        + (((⟨2147483648, (List.replicate 2147483648 'a').drop 10, 2147483648, 10, false,
            false⟩ : ByteStream).available_capacity : Nat) : Int)
      ≤ ((18446744071562067968 : Nat) : Int) ∧
    (18446744071562067968 : Nat) < 18446744073709551616 ∧
    Reassembler.insert ⟨-2147483648, false, []⟩ 18446744071562067968 ['x'] false
        ⟨2147483648, (List.replicate 2147483648 'a').drop 10, 2147483648, 10, false, false⟩
      = some (⟨-2147483647, false, []⟩,
          ⟨2147483648, (List.replicate 2147483648 'a').drop 10 ++ ['x'], 2147483649, 10,
            false, false⟩) ∧
    (⟨-2147483647, false, []⟩ : Reassembler).buf_beginning_
      ≠ (⟨-2147483648, false, []⟩ : Reassembler).buf_beginning_ := by
  have hl : (List.replicate 2147483648 'a').length = 2147483648 := List.length_replicate _ _
  obtain ⟨hp, hav⟩ := pop_long (List.replicate 2147483648 'a') hl
  refine ⟨?_, ?_, by decide, insert_behind_zero _ hl, by decide⟩
  · have h1 : step (Reassembler.fresh, ByteStream.ctor 2147483648)
        (.insert 0 (List.replicate 2147483648 'a') false) = _ :=
      insert_long_front (List.replicate 2147483648 'a') hl
    have h2 : step (⟨-2147483648, false, []⟩,
        ⟨2147483648, List.replicate 2147483648 'a', 2147483648, 0, false, false⟩) (.pop 10)
        = some (⟨-2147483648, false, []⟩,
          ⟨2147483648, (List.replicate 2147483648 'a').drop 10, 2147483648, 10, false,
            false⟩) := by
      show some (_, ByteStream.pop _ 10) = _
      rw [hp]
    rw [run_cons_of_step h1, run_cons_of_step h2, run_nil]
  · rw [hav]
    decide

end CS144
